import Mathlib

/-!
Verification of the `simpledb` storage engine (Rust) against its
natural-language specification.  The Rust sources are shallowly embedded:

* machine integers (`i32`, `u32`, `u64`, `usize`) are modelled as `Int`/`Nat`
  with explicit reductions modulo powers of two where the source can wrap;
* byte buffers (`Vec<u8>`) are `List Nat` whose elements encode bytes;
* Rust strings are modelled as `List Char` (the source only ever advances its
  byte cursor by whole UTF-8 characters, so character positions are faithful);
* fallible operations (`Result`, panics on slice indexing) return `Option`.

Every definition is translated from the corresponding Rust item, whose path
is given in the doc comment.
-/

namespace SimpleDB

/-! ### file/blockid.rs -/

/-- Embedding of `BlockNumber` (`src/file/blockid.rs`): a concrete block
number or the end-of-file sentinel used for file-length locking. -/
inductive BlockNumber where
  | number (n : Nat)
  | endOfFile
deriving DecidableEq, Repr

/-- Embedding of `BlockId` (`src/file/blockid.rs`): a file name plus a block
number. Equality is structural, as in the Rust `derive(PartialEq, Eq)`. -/
structure BlockId where
  filename : List Char
  blknum : BlockNumber
deriving DecidableEq, Repr

/-! ### file/page.rs — byte-level page model

A `Page` wraps a byte vector.  Bytes are `Nat` values; every byte the
embedded operations write is `< 256`.  Integers are stored as 4-byte
big-endian two's-complement `i32`, exactly as `i32::to_be_bytes` /
`i32::from_be_bytes` do. -/

/-- Reduction of an `i32` value to its `u32` bit pattern (`n as u32`). -/
def u32ofI32 (n : Int) : Nat := (n % (2 ^ 32 : Int)).toNat

/-- Reinterpretation of a `u32` bit pattern as an `i32`
(the result of `i32::from_be_bytes`). -/
def i32ofU32 (m : Nat) : Int :=
  if m < 2 ^ 31 then (m : Int) else (m : Int) - 2 ^ 32

/-- Semantics of `i32 as usize` on a 64-bit target: sign-extend, then
reinterpret as an unsigned 64-bit value. -/
def usizeOfI32 (n : Int) : Nat := (n % (2 ^ 64 : Int)).toNat

/-- Big-endian byte decomposition of a `u32` bit pattern
(`i32::to_be_bytes`). -/
def beBytes (m : Nat) : List Nat :=
  [m / 2 ^ 24 % 256, m / 2 ^ 16 % 256, m / 2 ^ 8 % 256, m % 256]

/-- Big-endian recomposition of four bytes (`i32::from_be_bytes`, giving the
`u32` bit pattern). -/
def beVal (bs : List Nat) : Nat :=
  bs.getD 0 0 * 2 ^ 24 + bs.getD 1 0 * 2 ^ 16 + bs.getD 2 0 * 2 ^ 8 + bs.getD 3 0

/-- Splice `data` into `l` starting at `off`
(`self.bb[off..off+n].copy_from_slice(data)` for in-bounds arguments). -/
def writeList (l : List Nat) (off : Nat) (data : List Nat) : List Nat :=
  l.take off ++ data ++ l.drop (off + data.length)

/-- Read `n` bytes of `l` starting at `off` (`&self.bb[off..off+n]` for
in-bounds arguments). -/
def readList (l : List Nat) (off n : Nat) : List Nat :=
  (l.drop off).take n

/-- Embedding of `Page` (`src/file/page.rs`): a byte buffer. -/
structure Page where
  bb : List Nat
deriving DecidableEq, Repr

/-- Embedding of `Page::new_from_size`. -/
def Page.new_from_size (blocksize : Nat) : Page :=
  ⟨List.replicate blocksize 0⟩

/-- Embedding of `Page::new_from_vec`. -/
def Page.new_from_vec (b : List Nat) : Page := ⟨b⟩

/-- Embedding of `Page::get_int` (in-bounds behaviour). -/
def Page.get_int (p : Page) (offset : Nat) : Int :=
  i32ofU32 (beVal (readList p.bb offset 4))

/-- Embedding of `Page::set_int` (in-bounds behaviour). -/
def Page.set_int (p : Page) (offset : Nat) (n : Int) : Page :=
  ⟨writeList p.bb offset (beBytes (u32ofI32 n))⟩

/-- Embedding of `Page::get_bytes` (in-bounds behaviour): read the 4-byte
length prefix, then that many bytes. -/
def Page.get_bytes (p : Page) (offset : Nat) : List Nat :=
  readList p.bb (offset + 4) (usizeOfI32 (p.get_int offset))

/-- Embedding of `Page::set_bytes` (in-bounds behaviour): write the length
prefix, then the payload. -/
def Page.set_bytes (p : Page) (offset : Nat) (b : List Nat) : Page :=
  ⟨writeList (p.set_int offset (b.length : Int)).bb (offset + 4) b⟩

/-- Embedding of `Page::set_string`: strings are stored as their UTF-8
bytes via `set_bytes`; the embedding carries strings as byte lists. -/
def Page.set_string (p : Page) (offset : Nat) (s : List Nat) : Page :=
  p.set_bytes offset s

/-! #### Checked variants recording the panic behaviour (claim C10)

Rust slice indexing `&self.bb[a..b]` panics when `b > self.bb.len()`.
The checked variants below return `none` exactly on the inputs where the
corresponding `Page` method panics, and `some` of the unchecked result
otherwise. -/

/-- Checked `Page::get_int`: `bytes.copy_from_slice(&self.bb[offset..offset + 4])`
panics iff `offset + 4 > self.bb.len()`. -/
def Page.get_int_checked (p : Page) (offset : Nat) : Option Int :=
  if offset + 4 ≤ p.bb.length then some (p.get_int offset) else none

/-- Checked `Page::set_int`: the write panics iff `offset + 4 > self.bb.len()`. -/
def Page.set_int_checked (p : Page) (offset : Nat) (n : Int) : Option Page :=
  if offset + 4 ≤ p.bb.length then some (p.set_int offset n) else none

/-- Checked `Page::get_bytes`: reads the length prefix (panicking as
`get_int` does), then `bytes.copy_from_slice(&self.bb[pos..pos + length])`
panics when the stored length, cast `as usize`, points past the end of the
buffer — in particular whenever the stored `i32` is negative. -/
def Page.get_bytes_checked (p : Page) (offset : Nat) : Option (List Nat) :=
  if offset + 4 ≤ p.bb.length then
    if offset + 4 + usizeOfI32 (p.get_int offset) ≤ p.bb.length then
      some (p.get_bytes offset)
    else none
  else none

/-- Checked `Page::set_bytes`: `set_int` of the length prefix, then the
payload copy; panics unless `offset + 4 + b.len() ≤ self.bb.len()`. -/
def Page.set_bytes_checked (p : Page) (offset : Nat) (b : List Nat) : Option Page :=
  if offset + 4 ≤ p.bb.length then
    if offset + 4 + b.length ≤ p.bb.length then some (p.set_bytes offset b)
    else none
  else none

/-! ### Typed WAL records (`src/tx/recovery/log_record`, `src/tx/log/record`)

The recovery and rollback algorithms consume typed log records through
`LogRecordIterator`; we embed the records directly (their byte encoding is
handled by the log-manager model below and is irrelevant to replay). -/

/-- Location of a logged write: the block plus the byte offset inside it
(the `block`/`offset` fields of `SetIntRecord`/`SetStringRecord`). -/
structure Loc where
  block : BlockId
  offset : Nat
deriving DecidableEq, Repr

/-- Value stored by a logged write.  String payloads are carried as their
UTF-8 bytes, consistent with the byte-level `Page` model. -/
inductive Val where
  | vint (n : Int)
  | vstr (s : List Nat)
deriving DecidableEq, Repr

/-- Embedding of `LogRecord` (`src/tx/recovery/log_record/interface.rs`). -/
inductive LogRec where
  | checkPoint
  | start (txnum : Nat)
  | commit (txnum : Nat)
  | rollback (txnum : Nat)
  | setInt (txnum : Nat) (loc : Loc) (old_value new_value : Int)
  | setString (txnum : Nat) (loc : Loc) (old_value new_value : List Nat)
deriving DecidableEq, Repr

/-- Pointwise update of a disk model `Loc → Val` (the net effect of
`tx.pin(block); tx.set_int/set_string(block, offset, v, false)` once the
buffer reaches disk). -/
def dwrite (d : Loc → Val) (loc : Loc) (v : Val) : Loc → Val :=
  fun x => if x = loc then v else d x

/-- Application of a list of logged writes, in order. -/
def applyWrites (ws : List (Loc × Val)) (d : Loc → Val) : Loc → Val :=
  ws.foldl (fun d w => dwrite d w.1 w.2) d

/-! ### Recovery (`Transaction::do_recover`, `src/tx/transaction.rs` 326–374)

`LogRecordIterator` yields records newest-to-oldest, so the undo stage
traverses `log.reverse` (where `log` lists records oldest-first).  The
reverse iterator built from the consumed forward iterator then replays the
records the undo stage visited, oldest-first. -/

/-- Undo stage of `do_recover`: walk newest-to-oldest, accumulate committed
transaction numbers (`committed_txs`), undo every `SetInt`/`SetString`
whose transaction is not yet known committed, and stop at the first
`CheckPoint`.  Returns the accumulated set and the updated disk. -/
def undoStage : List LogRec → List Nat → (Loc → Val) → (List Nat × (Loc → Val))
  | [], c, d => (c, d)
  | r :: rest, c, d =>
    match r with
    | .checkPoint => (c, d)
    | .setString tx loc old _ =>
      if tx ∈ c then undoStage rest c d
      else undoStage rest c (dwrite d loc (.vstr old))
    | .setInt tx loc old _ =>
      if tx ∈ c then undoStage rest c d
      else undoStage rest c (dwrite d loc (.vint old))
    | .commit tx => undoStage rest (tx :: c) d
    | _ => undoStage rest c d

/-- Records visited by the undo stage: the newest-to-oldest prefix of the
log up to and including the first `CheckPoint`.  The reverse iterator
constructed from the stopped forward iterator yields exactly these records
(oldest-first, i.e. this list reversed). -/
def visitedRecords : List LogRec → List LogRec
  | [] => []
  | r :: rest =>
    match r with
    | .checkPoint => [r]
    | _ => r :: visitedRecords rest

/-- Redo stage of `do_recover`: walk the visited records oldest-to-newest
and re-apply every `SetInt`/`SetString` of a committed transaction. -/
def redoStage (c : List Nat) (recs : List LogRec) (d : Loc → Val) : Loc → Val :=
  recs.foldl
    (fun d r =>
      match r with
      | .setString tx loc _ newv => if tx ∈ c then dwrite d loc (.vstr newv) else d
      | .setInt tx loc _ newv => if tx ∈ c then dwrite d loc (.vint newv) else d
      | _ => d)
    d

/-- Embedding of `Transaction::do_recover`: the undo stage over the log
newest-to-oldest, then the redo stage over the visited records
oldest-to-newest.  (`recover` afterwards flushes all buffers and logs a
checkpoint; the model applies the buffered writes directly to the disk, as
the flush makes them durable.) -/
def do_recover (log : List LogRec) (d : Loc → Val) : Loc → Val :=
  let u := undoStage log.reverse [] d
  redoStage u.1 (visitedRecords log.reverse).reverse u.2

/-- Transactions with a `Commit` record in the log. -/
def committedTxs (log : List LogRec) : List Nat :=
  log.filterMap fun r => match r with | .commit tx => some tx | _ => none

/-- Whether a record is a `SetInt`/`SetString` on location `loc`. -/
def isSetOn (loc : Loc) : LogRec → Bool
  | .setInt _ l _ _ => l = loc
  | .setString _ l _ _ => l = loc
  | _ => false

/-- Transaction number of a record (0 for `CheckPoint`). -/
def txOf : LogRec → Nat
  | .checkPoint => 0
  | .start tx => tx
  | .commit tx => tx
  | .rollback tx => tx
  | .setInt tx _ _ _ => tx
  | .setString tx _ _ _ => tx

/-- New value written by a `SetInt`/`SetString` record. -/
def newValOf : LogRec → Val
  | .setInt _ _ _ nv => .vint nv
  | .setString _ _ _ nv => .vstr nv
  | _ => .vint 0

/-- Old value recorded by a `SetInt`/`SetString` record. -/
def oldValOf : LogRec → Val
  | .setInt _ _ ov _ => .vint ov
  | .setString _ _ ov _ => .vstr ov
  | _ => .vint 0

/-- The `SetInt`/`SetString` records of the log on location `loc`,
oldest-first. -/
def setsOn (loc : Loc) (log : List LogRec) : List LogRec :=
  log.filter (isSetOn loc)

/-- The records of `setsOn` whose transaction has a `Commit` record in the
log. -/
def committedSetsOn (loc : Loc) (log : List LogRec) : List LogRec :=
  log.filter fun r => isSetOn loc r && decide (txOf r ∈ committedTxs log)

/-! ### Rollback (`Transaction::rollback` / `do_rollback`,
`src/tx/transaction.rs` 135–142 and 297–321) -/

/-- Undo writes produced by `do_rollback`, given the log newest-to-oldest:
undo every `SetInt`/`SetString` owned by this transaction, stopping at this
transaction's own `Start` record. -/
def rollbackUndos (txn : Nat) : List LogRec → List (Loc × Val)
  | [] => []
  | r :: rest =>
    match r with
    | .start tx => if tx = txn then [] else rollbackUndos txn rest
    | .setString tx loc old _ =>
      if tx = txn then (loc, .vstr old) :: rollbackUndos txn rest
      else rollbackUndos txn rest
    | .setInt tx loc old _ =>
      if tx = txn then (loc, .vint old) :: rollbackUndos txn rest
      else rollbackUndos txn rest
    | _ => rollbackUndos txn rest

/-- State touched by `Transaction::rollback`: the log (records oldest-first,
with `last_saved` counting the durable ones), the disk, and the
transaction's lock set and pin list. -/
structure TxSystem where
  log : List LogRec
  last_saved : Nat
  disk : Loc → Val
  locks : List BlockId
  pins : List BlockId

/-- Embedding of `Transaction::rollback`: `log_rollback` appends a
`Rollback` record and flushes the log; `do_rollback` then walks the log
newest-to-oldest undoing this transaction's writes; finally the
concurrency manager releases every lock and the buffer list unpins every
buffer. -/
def Transaction.rollback (txn : Nat) (s : TxSystem) : TxSystem :=
  let s1 : TxSystem := { s with log := s.log ++ [.rollback txn] }
  let s2 : TxSystem := { s1 with last_saved := s1.log.length }
  let undos := rollbackUndos txn s2.log.reverse
  let s3 : TxSystem := { s2 with disk := applyWrites undos s2.disk }
  { s3 with locks := [], pins := [] }

/-- A `SetInt`/`SetString` record owned by transaction `txn`. -/
def ownSet (txn : Nat) : LogRec → Bool
  | .setInt tx _ _ _ => tx = txn
  | .setString tx _ _ _ => tx = txn
  | _ => false

/-- The undo write corresponding to a set record: its location and the
recorded old value. -/
def undoWriteOf (r : LogRec) : Loc × Val :=
  match r with
  | .setInt _ loc ov _ => (loc, .vint ov)
  | .setString _ loc ov _ => (loc, .vstr ov)
  | _ => (⟨⟨[], .endOfFile⟩, 0⟩, .vint 0)

/-! ### Log manager (`src/log/log_manager.rs`) and buffer (`src/buffer/buffer.rs`) -/

/-- Embedding of `LogManager`'s state: the log file's blocks on disk, the
in-memory tail page, the tail block index, and the two LSN counters. -/
structure LogManagerState where
  disk : List Page
  log_page : Page
  current_block : Nat
  latest_lsn : Nat
  last_saved_lsn : Nat
deriving Repr

/-- Embedding of `FileManager::append`: extend the file by one zeroed
block, returning the new block's index. -/
def fmAppend (bs : Nat) (disk : List Page) : Nat × List Page :=
  (disk.length, disk ++ [Page.new_from_size bs])

/-- Embedding of `FileManager::write` for the log file. -/
def fmWrite (disk : List Page) (i : Nat) (p : Page) : List Page :=
  disk.set i p

/-- Embedding of the free function `append_new_block`
(`src/log/log_manager.rs` 150–162): extend the file, set the page's
boundary word to the block size and write the page to the new block. -/
def append_new_block (bs : Nat) (disk : List Page) (page : Page) :
    Nat × Page × List Page :=
  let a := fmAppend bs disk
  let page' := page.set_int 0 (bs : Int)
  (a.1, page', fmWrite a.2 a.1 page')

/-- Embedding of `LogManager::flush_all`: write the tail page to its block
and advance `last_saved_lsn` to `latest_lsn`. -/
def LogManagerState.flush_all (s : LogManagerState) : LogManagerState :=
  { s with disk := fmWrite s.disk s.current_block s.log_page,
           last_saved_lsn := s.latest_lsn }

/-- Embedding of `LogManager::flush(lsn)`: a no-op if `lsn` is already
durable, otherwise `flush_all`. -/
def LogManagerState.flush (s : LogManagerState) (lsn : Nat) : LogManagerState :=
  if lsn ≤ s.last_saved_lsn then s else s.flush_all

/-- Embedding of `LogManager::append` (`src/log/log_manager.rs` 68–97):
read the boundary; if the record plus its 4-byte length prefix does not fit
before the 4-byte boundary word, flush and start a new block; write the
record at `boundary - (len + 4)`, update the boundary word, and bump and
return the latest LSN. -/
def LogManagerState.append (bs : Nat) (s : LogManagerState) (logrec : List Nat) :
    Nat × LogManagerState :=
  let boundary := usizeOfI32 (s.log_page.get_int 0)
  let integer_bytes := 4
  let bytes_needed := logrec.length + integer_bytes
  let bs' :=
    if boundary < integer_bytes + bytes_needed then
      let s1 := s.flush_all
      let n := append_new_block bs s1.disk s1.log_page
      let s2 : LogManagerState :=
        { disk := n.2.2, log_page := n.2.1, current_block := n.1,
          latest_lsn := s1.latest_lsn, last_saved_lsn := s1.last_saved_lsn }
      (usizeOfI32 (s2.log_page.get_int 0), s2)
    else (boundary, s)
  let rec_pos := bs'.1 - bytes_needed
  let page' := (bs'.2.log_page.set_bytes rec_pos logrec).set_int 0 (rec_pos : Int)
  let latest := bs'.2.latest_lsn + 1
  (latest, { bs'.2 with log_page := page', latest_lsn := latest })

/-- Embedding of `LogManager::new` for an empty log file: allocate a zeroed
page and append the first block. -/
def LogManagerState.new (bs : Nat) : LogManagerState :=
  let page := Page.new_from_size bs
  let n := append_new_block bs [] page
  { disk := n.2.2, log_page := n.2.1, current_block := n.1,
    latest_lsn := 0, last_saved_lsn := 0 }

/-- Sequentially append a list of records (oldest-first). -/
def appendAll (bs : Nat) (s : LogManagerState) : List (List Nat) → LogManagerState
  | [] => s
  | r :: rs => appendAll bs (s.append bs r).2 rs

/-- Observable actions of `Buffer::flush`, in execution order. -/
inductive FlushEvent where
  | logFlush (lsn : Nat)
  | pageWrite (blk : BlockId)
deriving DecidableEq, Repr

/-- Embedding of `Buffer` (`src/buffer/buffer.rs`): contents, assigned
block, pin count, modifying transaction and LSN of the last logged
modification. -/
structure Buffer where
  contents : Page
  block : Option BlockId
  pins : Nat
  txnum : Option Nat
  lsn : Option Nat

/-- Embedding of `Buffer::flush` (`src/buffer/buffer.rs` 100–109): when the
buffer has an assigned block and a modifying transaction, flush the log up
to the buffer's LSN (`unwrap_or(0)`), write the page to disk, and clear the
modifying-transaction field.  The returned event list records the actions
in order. -/
def Buffer.flush (b : Buffer) (lm : LogManagerState) :
    Buffer × LogManagerState × List FlushEvent :=
  match b.block, b.txnum with
  | some blk, some _ =>
    let lsn := b.lsn.getD 0
    let lm' := lm.flush lsn
    ({ b with txnum := none }, lm', [.logFlush lsn, .pageWrite blk])
  | _, _ => (b, lm, [])

/-! ### Lock table and concurrency manager
(`src/tx/concurrency/lock_table.rs`, `src/tx/concurrency/concurrency_manager.rs`)

Parking and retry loops only delay the outcome: a request that conflicts
with the table state fails with `Timeout` once the wait budget is
exhausted, leaving the state unchanged.  The embedding therefore gives each
acquisition its immediate outcome. -/

/-- Embedding of the lock table's per-block state (`enum Lock`). -/
inductive TableLock where
  | shared (ref_count : Nat)
  | exclusive
deriving DecidableEq, Repr

/-- Embedding of the concurrency manager's per-block record (`enum LockType`). -/
inductive LockType where
  | shared
  | exclusive
deriving DecidableEq, Repr

/-- Outcome of a lock-table call. -/
inductive LockOutcome where
  | ok
  | timeout
  | generalError
deriving DecidableEq, Repr

/-- Combined state: the singleton lock table plus every transaction's
concurrency-manager map. -/
structure LockSystem where
  table : BlockId → Option TableLock
  held : Nat → BlockId → Option LockType

/-- Update of the lock table at one block. -/
def LockSystem.setTable (s : LockSystem) (blk : BlockId) (v : Option TableLock) :
    LockSystem :=
  { s with table := fun x => if x = blk then v else s.table x }

/-- Update of one transaction's concurrency-manager map at one block. -/
def LockSystem.setHeld (s : LockSystem) (tx : Nat) (blk : BlockId)
    (v : Option LockType) : LockSystem :=
  { s with held := fun t x => if t = tx ∧ x = blk then v else s.held t x }

/-- Embedding of `ConcurrencyManager::slock`: a no-op if any lock on the
block is already held; otherwise `LockTable::slock`, which installs
`Shared(1)` on an absent entry, increments a `Shared` entry, and times out
against an `Exclusive` entry. -/
def cmSlock (tx : Nat) (blk : BlockId) (s : LockSystem) : LockSystem × LockOutcome :=
  match s.held tx blk with
  | some _ => (s, .ok)
  | none =>
    match s.table blk with
    | none => ((s.setTable blk (some (.shared 1))).setHeld tx blk (some .shared), .ok)
    | some (.shared n) =>
      ((s.setTable blk (some (.shared (n + 1)))).setHeld tx blk (some .shared), .ok)
    | some .exclusive => (s, .timeout)

/-- Embedding of `ConcurrencyManager::xlock`: a no-op if `Exclusive` is
held; `LockTable::promote_to_xlock` if `Shared` is held (succeeding only on
`Shared(1)`); otherwise `LockTable::xlock`, which succeeds only on an
absent entry. -/
def cmXlock (tx : Nat) (blk : BlockId) (s : LockSystem) : LockSystem × LockOutcome :=
  match s.held tx blk with
  | some .exclusive => (s, .ok)
  | some .shared =>
    match s.table blk with
    | some (.shared 1) =>
      ((s.setTable blk (some .exclusive)).setHeld tx blk (some .exclusive), .ok)
    | some _ => (s, .timeout)
    | none => (s, .generalError)
  | none =>
    match s.table blk with
    | none => ((s.setTable blk (some .exclusive)).setHeld tx blk (some .exclusive), .ok)
    | some _ => (s, .timeout)

/-- Embedding of `LockTable::unlock` on one entry: remove `Shared(1)` or
`Exclusive`, decrement `Shared(n)` otherwise. -/
def unlockVal : Option TableLock → Option TableLock
  | some (.shared 1) => none
  | some .exclusive => none
  | some (.shared (n + 2)) => some (.shared (n + 1))
  | v => v

/-- Embedding of `ConcurrencyManager::release`: unlock every block this
transaction holds, then clear its map. -/
def cmRelease (tx : Nat) (s : LockSystem) : LockSystem :=
  { table := fun b => if s.held tx b ≠ none then unlockVal (s.table b) else s.table b,
    held := fun t b => if t = tx then none else s.held t b }

/-- One step of the lock protocol: some transaction issues `slock`,
`xlock` or `release` through its concurrency manager. -/
inductive LockStep : LockSystem → LockSystem → Prop
  | slock (tx : Nat) (blk : BlockId) (s : LockSystem) : LockStep s (cmSlock tx blk s).1
  | xlock (tx : Nat) (blk : BlockId) (s : LockSystem) : LockStep s (cmXlock tx blk s).1
  | release (tx : Nat) (s : LockSystem) : LockStep s (cmRelease tx s)

/-- Initial state: empty lock table, no transaction holds anything. -/
def lockInit : LockSystem :=
  { table := fun _ => none, held := fun _ _ => none }

/-- States reachable from the initial state by lock-protocol steps. -/
def LockReachable (s : LockSystem) : Prop :=
  Relation.ReflTransGen LockStep lockInit s

/-! ### Log iterators (`src/log/log_iterator.rs`) -/

/-- Embedding of `FileManager::read` for the log file: fetch block `i`. -/
def diskRead (disk : List Page) (i : Nat) : Page :=
  disk.getD i (Page.new_from_size 0)

/-- Embedding of `LogIterator`: current block, a copy of its page, and the
position inside the block. -/
structure LogIterator where
  block : Nat
  page : Page
  current_pos : Nat
deriving Repr

/-- Embedding of `LogIterator::move_to_block`: read the block and start at
its boundary. -/
def LogIterator.move_to_block (disk : List Page) (blk : Nat) : LogIterator :=
  let p := diskRead disk blk
  ⟨blk, p, usizeOfI32 (p.get_int 0)⟩

/-- Embedding of `LogIterator::new`. -/
def LogIterator.new (disk : List Page) (blk : Nat) : LogIterator :=
  LogIterator.move_to_block disk blk

/-- Embedding of `LogIterator::next` (`src/log/log_iterator.rs` 58–80):
stop after the oldest record of block 0; at the end of a block move to the
previous block; otherwise yield the record at the current position and
advance past it. -/
def LogIterator.next (bs : Nat) (disk : List Page) (it : LogIterator) :
    Option (List Nat) × LogIterator :=
  if it.current_pos = bs ∧ it.block = 0 then (none, it)
  else
    let it1 := if it.current_pos = bs then LogIterator.move_to_block disk (it.block - 1) else it
    let rec_ := it1.page.get_bytes it1.current_pos
    (some rec_, { it1 with current_pos := it1.current_pos + 4 + rec_.length })

/-- Driver running `LogIterator::next` up to `fuel` times, collecting the
yielded records (the test loops correspondingly). -/
def drainFwd (bs : Nat) (disk : List Page) : Nat → LogIterator → List (List Nat) × LogIterator
  | 0, it => ([], it)
  | fuel + 1, it =>
    match LogIterator.next bs disk it with
    | (none, it') => ([], it')
    | (some r, it') =>
      let rest := drainFwd bs disk fuel it'
      (r :: rest.1, rest.2)

/-- Embedding of `LogManager::iterator`: flush, then iterate from the tail
block. -/
def LogManagerState.iterator (s : LogManagerState) :
    LogManagerState × LogIterator :=
  let s' := s.flush_all
  (s', LogIterator.new s'.disk s'.current_block)

/-- Embedding of the loop inside `LogReverseIterator::construct_rec_pos_list`:
walk the block from its boundary, collecting record start offsets strictly
below `pos`. -/
def buildPosList (page : Page) (pos cur : Nat) : List Nat :=
  if h : cur < pos then
    cur :: buildPosList page pos (cur + 4 + (page.get_bytes cur).length)
  else []
termination_by pos - cur
decreasing_by omega

/-- Embedding of `LogReverseIterator::construct_rec_pos_list`: re-read the
block from disk and collect the record offsets before `pos`. -/
def construct_rec_pos_list (disk : List Page) (blk pos : Nat) : List Nat :=
  let page := diskRead disk blk
  buildPosList page pos (usizeOfI32 (page.get_int 0))

/-- Embedding of `LogReverseIterator`. -/
structure LogReverseIterator where
  block : Nat
  page : Page
  rec_pos_list : List Nat
  current_idx : Option Nat
deriving Repr

/-- Embedding of `LogReverseIterator::new`: built from a forward iterator,
collecting the offsets of the records the forward iterator has already
yielded within its current block. -/
def LogReverseIterator.new (disk : List Page) (it : LogIterator) : LogReverseIterator :=
  let l := construct_rec_pos_list disk it.block it.current_pos
  ⟨it.block, it.page, l, if l.isEmpty then none else some (l.length - 1)⟩

/-- Embedding of `LogReverseIterator::move_to_block`: load the next block
and collect all of its record offsets. -/
def LogReverseIterator.move_to_block (bs : Nat) (disk : List Page)
    (_it : LogReverseIterator) (blk : Nat) : LogReverseIterator :=
  let page := diskRead disk blk
  let l := construct_rec_pos_list disk blk bs
  ⟨blk, page, l, if l.isEmpty then none else some (l.length - 1)⟩

/-- Embedding of `LogReverseIterator::next` (`src/log/log_iterator.rs`
136–166): yield the record at the current index; on reaching index 0 either
finish (last block of the file) or advance to the next block. -/
def LogReverseIterator.next (bs : Nat) (disk : List Page) (it : LogReverseIterator) :
    Option (List Nat) × LogReverseIterator :=
  match it.current_idx with
  | none => (none, it)
  | some idx =>
    let block_length := disk.length
    let rec_ := it.page.get_bytes (it.rec_pos_list.getD idx 0)
    let it' :=
      if idx = 0 then
        if it.block = block_length - 1 then { it with current_idx := none }
        else LogReverseIterator.move_to_block bs disk it (it.block + 1)
      else { it with current_idx := some (idx - 1) }
    (some rec_, it')

/-- Driver running `LogReverseIterator::next` up to `fuel` times. -/
def drainRev (bs : Nat) (disk : List Page) :
    Nat → LogReverseIterator → List (List Nat) × LogReverseIterator
  | 0, it => ([], it)
  | fuel + 1, it =>
    match LogReverseIterator.next bs disk it with
    | (none, it') => ([], it')
    | (some r, it') =>
      let rest := drainRev bs disk fuel it'
      (r :: rest.1, rest.2)

/-! ### Schema, layout and record page
(`src/record/schema.rs`, `src/record/layout.rs`, `src/record/record_page.rs`) -/

/-- Field names (Rust `String`). -/
def FieldName := List Char

instance : DecidableEq FieldName := inferInstanceAs (DecidableEq (List Char))

instance : Repr FieldName := inferInstanceAs (Repr (List Char))

instance : BEq FieldName := inferInstanceAs (BEq (List Char))

instance : LawfulBEq FieldName := inferInstanceAs (LawfulBEq (List Char))

/-- Embedding of `FieldInfo` (`src/record/schema.rs`). -/
inductive FieldInfo where
  | integer
  | string (len : Nat)
deriving DecidableEq, Repr

/-- Embedding of `Schema`: ordered field list plus a name-to-info map
(modelled as an association list). -/
structure Schema where
  fields : List FieldName
  info : List (FieldName × FieldInfo)

/-- Embedding of `Schema::info`. -/
def Schema.infoOf (s : Schema) (f : FieldName) : Option FieldInfo :=
  s.info.lookup f

/-- Embedding of `Page::max_length`: worst-case UTF-8 byte budget of a
string of `strlen` characters, plus the length prefix. -/
def Page.max_length (strlen : Nat) : Nat := 4 + strlen * 6

/-- Embedding of `Layout::length_in_bytes`. -/
def length_in_bytes (s : Schema) (f : FieldName) : Option Nat :=
  match s.infoOf f with
  | some .integer => some 4
  | some (.string n) => some (Page.max_length n)
  | none => none

/-- Embedding of `Layout`. -/
structure Layout where
  schema : Schema
  offsets : List (FieldName × Nat)
  slot_size : Nat

/-- Offset-assignment loop of `Layout::new`: each field starts where the
previous one ended, beginning after the 4-byte flag. -/
def layoutOffsets (s : Schema) : List FieldName → Nat → Option (List (FieldName × Nat) × Nat)
  | [], pos => some ([], pos)
  | f :: fs, pos =>
    match length_in_bytes s f with
    | some len =>
      match layoutOffsets s fs (pos + len) with
      | some r => some ((f, pos) :: r.1, r.2)
      | none => none
    | none => none

/-- Embedding of `Layout::new`. -/
def Layout.new (s : Schema) : Option Layout :=
  match layoutOffsets s s.fields 4 with
  | some r => some ⟨s, r.1, r.2⟩
  | none => none

/-- Embedding of `Layout::offset`. -/
def Layout.offset (l : Layout) (f : FieldName) : Option Nat :=
  l.offsets.lookup f

/-- State seen by `RecordPage::format`: the pinned buffer's page for the
formatted block, and the log (records appended by logged writes). -/
structure FmtState where
  page : Page
  log : List LogRec

/-- Effect of `Transaction::set_int(block, offset, val, is_ok_to_log)` on
the pinned buffer and the log: when logging is requested, a `SetInt`
record capturing the old value from the buffer is appended
(`LogRecordWriter::log_set_int`), then the page is mutated. -/
def txSetInt (txn : Nat) (blk : BlockId) (st : FmtState) (offset : Nat)
    (val : Int) (is_ok_to_log : Bool) : FmtState :=
  let old := st.page.get_int offset
  { page := st.page.set_int offset val,
    log := if is_ok_to_log then st.log ++ [.setInt txn ⟨blk, offset⟩ old val] else st.log }

/-- Effect of `Transaction::set_string`, analogously. -/
def txSetString (txn : Nat) (blk : BlockId) (st : FmtState) (offset : Nat)
    (val : List Nat) (is_ok_to_log : Bool) : FmtState :=
  let old := st.page.get_bytes offset
  { page := st.page.set_string offset val,
    log := if is_ok_to_log then st.log ++ [.setString txn ⟨blk, offset⟩ old val] else st.log }

/-- Per-slot field loop of `RecordPage::format`: write zero to each integer
field and the empty string to each string field, with `is_ok_to_log =
false`. -/
def formatFields (txn : Nat) (blk : BlockId) (l : Layout) (slot : Nat) :
    List FieldName → FmtState → Option FmtState
  | [], st => some st
  | f :: fs, st =>
    match l.offset f with
    | none => none
    | some o =>
      let off := slot * l.slot_size + o
      match l.schema.infoOf f with
      | some .integer => formatFields txn blk l slot fs (txSetInt txn blk st off 0 false)
      | some (.string _) => formatFields txn blk l slot fs (txSetString txn blk st off [] false)
      | none => none

/-- Slot loop of `RecordPage::format` (`src/record/record_page.rs`
100–128): for every valid slot, write the `Empty` flag — note the source
passes `is_ok_to_log = true` here — then clear every field unlogged.  The
loop runs while `(slot + 1) * slot_size < block_size`; the fuel bounds the
iteration count and never expires for positive `slot_size`. -/
def formatLoop (txn : Nat) (blk : BlockId) (l : Layout) (block_size : Nat) :
    Nat → Nat → FmtState → Option FmtState
  | 0, _, st => some st
  | fuel + 1, slot, st =>
    if (slot + 1) * l.slot_size < block_size then
      let st1 := txSetInt txn blk st (slot * l.slot_size) 0 true
      match formatFields txn blk l slot l.schema.fields st1 with
      | none => none
      | some st2 => formatLoop txn blk l block_size fuel (slot + 1) st2
    else some st

/-- Embedding of `RecordPage::format`. -/
def RecordPage.format (txn : Nat) (blk : BlockId) (l : Layout) (block_size : Nat)
    (st : FmtState) : Option FmtState :=
  formatLoop txn blk l block_size block_size 0 st

/-! ### Plan estimates (`src/plan/…`): expressions, terms, predicates -/

/-- Embedding of `Constant` (`src/query/constant.rs`). -/
inductive Constant where
  | int (n : Int)
  | string (s : List Char)
deriving DecidableEq, Repr

/-- Embedding of `Expression` (`src/plan/expression.rs`). -/
inductive Expression where
  | constant (c : Constant)
  | field (f : FieldName)
deriving DecidableEq, Repr

/-- Embedding of `Expression::as_constant`. -/
def Expression.as_constant : Expression → Option Constant
  | .constant c => some c
  | _ => none

/-- Embedding of `Expression::as_field`. -/
def Expression.as_field : Expression → Option FieldName
  | .field f => some f
  | _ => none

/-- Embedding of `EqualTerm` (`src/plan/term.rs`). -/
structure EqualTerm where
  lhs : Expression
  rhs : Expression
deriving DecidableEq, Repr

/-- Embedding of `Term` (`src/plan/term.rs`). -/
inductive Term where
  | equal (t : EqualTerm)
deriving DecidableEq, Repr

/-- Embedding of `ProductPredicate` (`src/plan/predicate.rs`). -/
structure ProductPredicate where
  terms : List Term
deriving DecidableEq, Repr

/-- Embedding of `ReductionFactor` (`src/plan/reduction_factor.rs`).  The
`f64` factor is modelled as a rational; on the integer-valued factors and
products the estimates use, `f64` arithmetic is exact below `2^53`. -/
inductive ReductionFactor where
  | constant (c : ℚ)
  | infinity
deriving DecidableEq, Repr

/-- Embedding of `Mul for ReductionFactor`. -/
def ReductionFactor.mul : ReductionFactor → ReductionFactor → ReductionFactor
  | .constant l, .constant r => .constant (l * r)
  | _, _ => .infinity

/-- Abstraction of the child `dyn Plan` a `SelectPlan` wraps: its block,
record and per-field distinct-value estimates (`None` models the
`AnyhowResult` error of an unknown field). -/
structure PlanEst where
  blocks : Nat
  records : Nat
  distinct : FieldName → Option Nat

/-- Embedding of `EqualTerm::reduction_factor` (`src/plan/term.rs` 58–82). -/
def EqualTerm.reduction_factor (t : EqualTerm) (plan : PlanEst) : Option ReductionFactor :=
  match t.lhs, t.rhs with
  | .field lf, .field rf => do
    let a ← plan.distinct lf
    let b ← plan.distinct rf
    some (.constant ((max a b : Nat) : ℚ))
  | .field lf, .constant _ => do
    let a ← plan.distinct lf
    some (.constant (a : ℚ))
  | .constant _, .field rf => do
    let b ← plan.distinct rf
    some (.constant (b : ℚ))
  | .constant l, .constant r =>
    some (if l = r then .constant 1 else .infinity)

/-- Embedding of `Term::reduction_factor`. -/
def Term.reduction_factor : Term → PlanEst → Option ReductionFactor
  | .equal t, plan => t.reduction_factor plan

/-- Fold of `ProductPredicate::reduction_factor` (`src/plan/predicate.rs`
42–51): start at `Constant(1)` and multiply every term's factor. -/
def predFold (plan : PlanEst) : List Term → ReductionFactor → Option ReductionFactor
  | [], acc => some acc
  | t :: ts, acc =>
    match t.reduction_factor plan with
    | some f => predFold plan ts (acc.mul f)
    | none => none

/-- Embedding of `ProductPredicate::reduction_factor`. -/
def ProductPredicate.reduction_factor (p : ProductPredicate) (plan : PlanEst) :
    Option ReductionFactor :=
  predFold plan p.terms (.constant 1)

/-- Embedding of `EqualTerm::equates_with_constant`. -/
def EqualTerm.equates_with_constant (t : EqualTerm) (f : FieldName) : Option Constant :=
  match t.lhs with
  | .field name =>
    if name = f then t.rhs.as_constant
    else match t.rhs with
      | .field name' => if name' = f then t.lhs.as_constant else none
      | _ => none
  | _ =>
    match t.rhs with
    | .field name' => if name' = f then t.lhs.as_constant else none
    | _ => none

/-- Embedding of `EqualTerm::equates_with_field`. -/
def EqualTerm.equates_with_field (t : EqualTerm) (f : FieldName) : Option FieldName :=
  match t.lhs with
  | .field name =>
    if name = f then t.rhs.as_field
    else match t.rhs with
      | .field name' => if name' = f then t.lhs.as_field else none
      | _ => none
  | _ =>
    match t.rhs with
    | .field name' => if name' = f then t.lhs.as_field else none
    | _ => none

/-- Embedding of `ProductPredicate::equates_with_constant`: first matching
term wins. -/
def ProductPredicate.equates_with_constant (p : ProductPredicate) (f : FieldName) :
    Option Constant :=
  go p.terms
where go : List Term → Option Constant
  | [] => none
  | .equal t :: ts =>
    match t.equates_with_constant f with
    | some c => some c
    | none => go ts

/-- Embedding of `ProductPredicate::equates_with_field`. -/
def ProductPredicate.equates_with_field (p : ProductPredicate) (f : FieldName) :
    Option FieldName :=
  go p.terms
where go : List Term → Option FieldName
  | [] => none
  | .equal t :: ts =>
    match t.equates_with_field f with
    | some g => some g
    | none => go ts

/-- Semantics of `x as u64` for a nonnegative finite `f64` value modelled
as a rational: truncation toward zero. -/
def ratTruncToU64 (q : ℚ) : Nat := (⌊q⌋).toNat

/-- Embedding of `SelectPlan::get_block_access_cost`
(`src/plan/select_plan.rs` 22–24). -/
def SelectPlan.get_block_access_cost (child : PlanEst) : Nat := child.blocks

/-- Embedding of `SelectPlan::get_record_access_cost`
(`src/plan/select_plan.rs` 25–33). -/
def SelectPlan.get_record_access_cost (child : PlanEst) (pred : ProductPredicate) :
    Option Nat :=
  (pred.reduction_factor child).map fun rf =>
    match rf with
    | .constant c => ratTruncToU64 ((child.records : ℚ) / c)
    | .infinity => 0

/-- Embedding of `SelectPlan::get_distinct_value_estimation`
(`src/plan/select_plan.rs` 34–50). -/
def SelectPlan.get_distinct_value_estimation (child : PlanEst)
    (pred : ProductPredicate) (f : FieldName) : Option Nat :=
  if (pred.equates_with_constant f).isSome then some 1
  else
    match pred.equates_with_field f with
    | some g => do
      let a ← child.distinct f
      let b ← child.distinct g
      some (min a b)
    | none => child.distinct f

/-- Specification-side reduction factor of a single term, as the claim
states it: `field = constant` contributes `distinct(field)`,
`field = field'` contributes `max` of the two estimates, and an equal
constant pair contributes 1 (the unequal pair is the infinity case,
handled separately). -/
def specTermFactor (child : PlanEst) : Term → ℚ
  | .equal ⟨.field lf, .field rf⟩ =>
    ((max ((child.distinct lf).getD 0) ((child.distinct rf).getD 0) : Nat) : ℚ)
  | .equal ⟨.field lf, .constant _⟩ => (((child.distinct lf).getD 0 : Nat) : ℚ)
  | .equal ⟨.constant _, .field rf⟩ => (((child.distinct rf).getD 0 : Nat) : ℚ)
  | .equal ⟨.constant _, .constant _⟩ => 1

/-- A term contributing an infinite factor: an equality between two
distinct constants. -/
def termIsInf : Term → Bool
  | .equal ⟨.constant l, .constant r⟩ => decide (l ≠ r)
  | _ => false

/-- All distinct-value lookups a term needs succeed on the child plan. -/
def termDefined (child : PlanEst) : Term → Bool
  | .equal ⟨.field lf, .field rf⟩ => (child.distinct lf).isSome && (child.distinct rf).isSome
  | .equal ⟨.field lf, .constant _⟩ => (child.distinct lf).isSome
  | .equal ⟨.constant _, .field rf⟩ => (child.distinct rf).isSome
  | .equal ⟨.constant _, .constant _⟩ => true

/-- Concrete child plan used by the C8 witness (the estimates of the
source's `select_plan` tests). -/
def c8child : PlanEst :=
  { blocks := 10, records := 1000,
    distinct := fun f =>
      if f = "field1".toList then some 10
      else if f = "field2".toList then some 20
      else if f = "field3".toList then some 50 else none }

/-- Concrete predicate used by the C8 witness:
`field1 = 1 and field2 = field3`. -/
def c8pred : ProductPredicate :=
  ⟨[.equal ⟨.field "field1".toList, .constant (.int 1)⟩,
    .equal ⟨.field "field2".toList, .field "field3".toList⟩]⟩

/-! ### Lexer and parser (`src/parse/lexer.rs`, `src/parse/parser.rs`)

Rust strings are modelled as `List Char`; the lexer's byte position always
advances by whole characters, so dropping characters is faithful.  The
Unicode character classes `is_whitespace`, `is_numeric`, `is_alphabetic`
and `is_alphanumeric` are modelled by their ASCII restrictions (on which
the Rust and Lean predicates agree); the grammar's printable output is
ASCII apart from string-constant and identifier payloads, which are carried
verbatim. -/

/-- Models `char::is_whitespace` (its ASCII restriction: space and the
control characters U+0009–U+000D). -/
def rsWhitespace (c : Char) : Bool := c.toNat = 32 || (9 ≤ c.toNat && c.toNat ≤ 13)

/-- Models `char::is_numeric` (its ASCII restriction: the digits). -/
def rsNumeric (c : Char) : Bool := 48 ≤ c.toNat && c.toNat ≤ 57

/-- Models `char::is_alphabetic` (its ASCII restriction: the letters). -/
def rsAlphabetic (c : Char) : Bool :=
  (65 ≤ c.toNat && c.toNat ≤ 90) || (97 ≤ c.toNat && c.toNat ≤ 122)

/-- Models `char::is_alphanumeric` (letters or digits). -/
def rsAlphanumeric (c : Char) : Bool := rsAlphabetic c || rsNumeric c

/-- Modelled from the spec: the closed keyword set of `src/parse/constant.rs`
(the file `KEYWORDS` lives in is not among the sources); §4.9 lists it as
select, from, where, and, insert, into, values, delete, update, set,
create, table, view, index, as, on, int, varchar. -/
def KEYWORDS : List (List Char) :=
  ["select".toList, "from".toList, "where".toList, "and".toList,
   "insert".toList, "into".toList, "values".toList, "delete".toList,
   "update".toList, "set".toList, "create".toList, "table".toList,
   "view".toList, "index".toList, "as".toList, "on".toList,
   "int".toList, "varchar".toList]

/-- Embedding of `Token` (`src/parse/lexer.rs`); `endTok` is `Token::None`,
the end-of-input marker. -/
inductive Token where
  | keyword (s : List Char)
  | id (s : List Char)
  | delimiter (c : Char)
  | stringConstant (s : List Char)
  | intConstant (n : Int)
  | endTok
deriving DecidableEq, Repr

/-- Numeric value of a digit string (the successful case of
`num.parse::<i32>()`). -/
def digitsVal (cs : List Char) : Nat :=
  cs.foldl (fun a c => 10 * a + (c.toNat - 48)) 0

/-- Embedding of `Lexer::read_token` (`src/parse/lexer.rs` 114–183).
Returns the token and the remaining input; `none` models a panic or lexer
error:

* an unterminated string literal advances the byte position past the end of
  the input, so the very next slice of the input panics — the embedding
  surfaces that panic here;
* a lone `-` at the end of input does the same (the `is_negative` branch
  advances the position, and the delimiter fall-through advances it again);
* a digit string exceeding `i32::MAX` makes `num.parse::<i32>()` fail.

Note the `is_negative` flag is dead for literals: when the current
character is `-`, the digit branch is not taken (`'-'` is not numeric), so
negative integer literals are never produced; the `-` is consumed as a
delimiter that additionally skips the following character. -/
def read_token : List Char → Option (Token × List Char)
  | [] => some (.endTok, [])
  | c :: rest =>
    if rsWhitespace c then read_token rest
    else if c = '\'' then
      let str := rest.takeWhile (fun x => x ≠ '\'')
      if str.length < rest.length then some (.stringConstant str, rest.drop (str.length + 1))
      else none
    else if c = '-' then
      match rest with
      | [] => none
      | _ :: rest' => some (.delimiter '-', rest')
    else if rsNumeric c then
      let ds := rest.takeWhile rsNumeric
      let v := digitsVal (c :: ds)
      if v < 2 ^ 31 then some (.intConstant (v : Int), rest.drop ds.length)
      else none
    else if rsAlphabetic c || c = '_' then
      let sval := c :: rest.takeWhile rsAlphanumeric
      some (if sval ∈ KEYWORDS then (.keyword sval, rest.drop (rest.takeWhile rsAlphanumeric).length)
            else (.id sval, rest.drop (rest.takeWhile rsAlphanumeric).length))
    else some (.delimiter c, rest)

/-- Embedding of `Lexer`: the current token plus the input remaining after
it (the `input`/`position` pair). -/
structure Lexer where
  token : Token
  rest : List Char
deriving DecidableEq, Repr

/-- Embedding of `Lexer::new`: prime the current token. -/
def Lexer.new (input : List Char) : Option Lexer :=
  (read_token input).map fun r => ⟨r.1, r.2⟩

/-- Advance to the next token (the `self.token = self.read_token()?` step
shared by all `eat` methods). -/
def Lexer.advance (l : Lexer) : Option Lexer :=
  (read_token l.rest).map fun r => ⟨r.1, r.2⟩

/-- Embedding of `Lexer::is_matched`. -/
def Lexer.is_matched (l : Lexer) (t : Token) : Bool := l.token = t

/-- Embedding of `Lexer::eat_exact`. -/
def Lexer.eat_exact (l : Lexer) (t : Token) : Option Lexer :=
  if l.token = t then l.advance else none

/-- Embedding of `Lexer::eat_id`. -/
def Lexer.eat_id (l : Lexer) : Option (List Char × Lexer) :=
  match l.token with
  | .id s => (l.advance).map fun l' => (s, l')
  | _ => none

/-- Embedding of `Lexer::eat_int_constant`. -/
def Lexer.eat_int_constant (l : Lexer) : Option (Int × Lexer) :=
  match l.token with
  | .intConstant n => (l.advance).map fun l' => (n, l')
  | _ => none

/-- Embedding of `Lexer::eat_string_constant`. -/
def Lexer.eat_string_constant (l : Lexer) : Option (List Char × Lexer) :=
  match l.token with
  | .stringConstant s => (l.advance).map fun l' => (s, l')
  | _ => none

/-- Embedding of `ParserImpl::parse_constant`. -/
def parse_constant (l : Lexer) : Option (Constant × Lexer) :=
  match l.token with
  | .intConstant _ => (l.eat_int_constant).map fun r => (.int r.1, r.2)
  | .stringConstant _ => (l.eat_string_constant).map fun r => (.string r.1, r.2)
  | _ => none

/-- Embedding of `ParserImpl::parse_expression`. -/
def parse_expression (l : Lexer) : Option (Expression × Lexer) :=
  match l.token with
  | .intConstant _ => (parse_constant l).map fun r => (.constant r.1, r.2)
  | .stringConstant _ => (parse_constant l).map fun r => (.constant r.1, r.2)
  | .id _ => (l.eat_id).map fun r => (.field r.1, r.2)
  | _ => none

/-- Embedding of `ParserImpl::parse_equal_term`. -/
def parse_equal_term (l : Lexer) : Option (EqualTerm × Lexer) := do
  let (lhs, l) ← parse_expression l
  let l ← l.eat_exact (.delimiter '=')
  let (rhs, l) ← parse_expression l
  some (⟨lhs, rhs⟩, l)

/-- The `while is_matched(and)` loop of `ParserImpl::parse_predicate`.  The
fuel only bounds the iteration count; every iteration consumes input, so a
fuel of `input length + 1` never expires. -/
def parsePredicateLoop : Nat → Lexer → List Term → Option (List Term × Lexer)
  | 0, _, _ => none
  | fuel + 1, l, acc =>
    if l.is_matched (.keyword "and".toList) then do
      let l ← l.eat_exact (.keyword "and".toList)
      let (t, l) ← parse_equal_term l
      parsePredicateLoop fuel l (acc ++ [.equal t])
    else some (acc, l)

/-- Embedding of `ParserImpl::parse_predicate`. -/
def parse_predicate (l : Lexer) : Option (ProductPredicate × Lexer) := do
  let (t, l') ← parse_equal_term l
  let (ts, l'') ← parsePredicateLoop (l'.rest.length + 1) l' [.equal t]
  some (⟨ts⟩, l'')

/-- The `while is_matched(,)` loop of `ParserImpl::parse_id_list`. -/
def parseIdListLoop : Nat → Lexer → List (List Char) → Option (List (List Char) × Lexer)
  | 0, _, _ => none
  | fuel + 1, l, acc =>
    if l.is_matched (.delimiter ',') then do
      let l ← l.eat_exact (.delimiter ',')
      let (s, l) ← l.eat_id
      parseIdListLoop fuel l (acc ++ [s])
    else some (acc, l)

/-- Embedding of `ParserImpl::parse_id_list`. -/
def parse_id_list (l : Lexer) : Option (List (List Char) × Lexer) := do
  let (f, l') ← l.eat_id
  parseIdListLoop (l'.rest.length + 1) l' [f]

/-- Embedding of `QueryData` (`src/parse/content/query_data.rs`): the
selected fields, the tables, and the conjunctive predicate `parse_query`
builds. -/
structure QueryData where
  fields : List (List Char)
  tables : List (List Char)
  predicate : ProductPredicate
deriving DecidableEq, Repr

/-- Embedding of `ParserImpl::parse_query` (`src/parse/parser.rs` 124–140). -/
def parse_query (l : Lexer) : Option (QueryData × Lexer) := do
  let l ← l.eat_exact (.keyword "select".toList)
  let (fields, l) ← parse_id_list l
  let l ← l.eat_exact (.keyword "from".toList)
  let (tables, l) ← parse_id_list l
  if l.is_matched (.keyword "where".toList) then do
    let l ← l.eat_exact (.keyword "where".toList)
    let (pred, l) ← parse_predicate l
    some (⟨fields, tables, pred⟩, l)
  else
    some (⟨fields, tables, ⟨[]⟩⟩, l)

/-- Parse of a whole input string: `ParserImpl::new` primes the lexer, then
`parse_query` runs. -/
def parseQueryStr (input : List Char) : Option QueryData := do
  let l ← Lexer.new input
  let (q, _) ← parse_query l
  some q

/-! #### Display implementations (`src/parse/content/query_data.rs`,
`src/plan/predicate.rs`, `src/plan/term.rs`, `src/plan/expression.rs`,
`src/query/constant.rs`) -/

/-- Decimal digits of a natural number (`u32`/`i32` `Display` for
nonnegative values). -/
def natChars (n : Nat) : List Char :=
  if n = 0 then ['0'] else ((Nat.digits 10 n).reverse).map Nat.digitChar

/-- Display of an `i32` (`Display for i32`). -/
def intDisplay (n : Int) : List Char :=
  if n < 0 then '-' :: natChars n.natAbs else natChars n.toNat

/-- Embedding of `Display for Constant`: integers in decimal, strings
single-quoted. -/
def Constant.display : Constant → List Char
  | .int n => intDisplay n
  | .string s => '\'' :: (s ++ ['\''])

/-- Embedding of `Display for Expression`. -/
def Expression.display : Expression → List Char
  | .constant c => c.display
  | .field f => f

/-- Embedding of `Display for EqualTerm`: `lhs = rhs`. -/
def EqualTerm.display (t : EqualTerm) : List Char :=
  t.lhs.display ++ " = ".toList ++ t.rhs.display

/-- Embedding of `Display for Term`. -/
def Term.display : Term → List Char
  | .equal t => t.display

/-- The " and "-joined rendering of `Display for ProductPredicate`. -/
def joinAnd : List Term → List Char
  | [] => []
  | [t] => t.display
  | t :: ts => t.display ++ " and ".toList ++ joinAnd ts

/-- Embedding of `Display for ProductPredicate`. -/
def ProductPredicate.display (p : ProductPredicate) : List Char :=
  joinAnd p.terms

/-- The ", "-joined field and table lists of `Display for QueryData`. -/
def joinCommaSpace : List (List Char) → List Char
  | [] => []
  | [x] => x
  | x :: xs => x ++ ", ".toList ++ joinCommaSpace xs

/-- Embedding of `Display for QueryData`
(`src/parse/content/query_data.rs` 30–53): `select` + fields + `from` +
tables, then ` where ` + the predicate when its rendering is nonempty.
The predicate the parser stores is the plan-side `ProductPredicate`; its
`Display` joins the terms with " and " exactly like the query-side one. -/
def QueryData.display (q : QueryData) : List Char :=
  "select ".toList ++ joinCommaSpace q.fields
    ++ " from ".toList ++ joinCommaSpace q.tables
    ++ (let ps := q.predicate.display
        if ps.isEmpty then [] else " where ".toList ++ ps)

/-! ### Specification-side helper definitions used by the claim statements -/

/-- Committed-transaction accumulator of the undo stage, taken on its own
(the first component of `undoStage`). -/
def undoC : List LogRec → List Nat → List Nat
  | [], c => c
  | r :: rest, c =>
    match r with
    | .checkPoint => c
    | .setString _ _ _ _ => undoC rest c
    | .setInt _ _ _ _ => undoC rest c
    | .commit tx => undoC rest (tx :: c)
    | _ => undoC rest c

/-- Disk writes the undo stage performs, in order (the undo of each
not-known-committed set record). -/
def undoW : List LogRec → List Nat → List (Loc × Val)
  | [], _ => []
  | r :: rest, c =>
    match r with
    | .checkPoint => []
    | .setString tx loc old _ =>
      if tx ∈ c then undoW rest c else (loc, .vstr old) :: undoW rest c
    | .setInt tx loc old _ =>
      if tx ∈ c then undoW rest c else (loc, .vint old) :: undoW rest c
    | .commit tx => undoW rest (tx :: c)
    | _ => undoW rest c

/-- Disk writes the redo stage performs, in order (the redo of each set
record of a committed transaction). -/
def redoW (c : List Nat) (l : List LogRec) : List (Loc × Val) :=
  l.filterMap fun r =>
    match r with
    | .setInt tx loc _ nv => if tx ∈ c then some (loc, .vint nv) else none
    | .setString tx loc _ nv => if tx ∈ c then some (loc, .vstr nv) else none
    | _ => none

/-- Lock-system invariant: the lock table agrees with the union of the
concurrency managers.  An absent entry means no holder; `Shared(n)` means
exactly `n` transactions hold a shared lock and none holds exclusively;
`Exclusive` means exactly one transaction holds it, exclusively. -/
def LockInvAt (s : LockSystem) (blk : BlockId) : Prop :=
  (s.table blk = none → ∀ tx, s.held tx blk = none)
  ∧ (∀ n, s.table blk = some (.shared n) →
      (∃ S : Finset Nat, S.card = n ∧ ∀ tx, tx ∈ S ↔ s.held tx blk = some .shared)
      ∧ ∀ tx, s.held tx blk ≠ some .exclusive)
  ∧ (s.table blk = some .exclusive →
      ∃ t0, s.held t0 blk = some .exclusive ∧ ∀ tx, tx ≠ t0 → s.held tx blk = none)

/-- The invariant over all blocks. -/
def LockInv (s : LockSystem) : Prop :=
  ∀ blk : BlockId, LockInvAt s blk

/-! #### Parser well-formedness (the invariants `parse_query` outputs enjoy) -/

/-- A well-formed identifier: nonempty, letter-or-underscore start,
alphanumeric continuation, not a keyword — exactly the strings the lexer
can emit as `Token::Id`. -/
def idOk : List Char → Bool
  | [] => false
  | c :: cs =>
    (rsAlphabetic c || c = '_') && cs.all rsAlphanumeric && decide ((c :: cs) ∉ KEYWORDS)

/-- A string constant the lexer can emit: its characters contain no quote. -/
def strOk (s : List Char) : Bool := s.all (fun c => c ≠ '\'')

/-- A constant the parser can produce: a nonnegative `i32` (the lexer never
produces negative literals) or a quote-free string. -/
def constOk : Constant → Bool
  | .int n => decide (0 ≤ n ∧ n < 2 ^ 31)
  | .string s => strOk s

/-- An expression the parser can produce. -/
def exprOk : Expression → Bool
  | .constant c => constOk c
  | .field f => idOk f

/-- A term the parser can produce. -/
def termOk : Term → Bool
  | .equal t => exprOk t.lhs && exprOk t.rhs

/-- A `QueryData` in the image of `parse_query`: nonempty well-formed field
and table lists and a predicate of well-formed terms. -/
def queryWF (q : QueryData) : Bool :=
  !q.fields.isEmpty && q.fields.all idOk
    && !q.tables.isEmpty && q.tables.all idOk
    && q.predicate.terms.all termOk

/-- The well-formedness a freshly read token enjoys. -/
def tokOk : Token → Prop
  | .id s => idOk s = true
  | .stringConstant s => strOk s = true
  | .intConstant n => 0 ≤ n ∧ n < 2 ^ 31
  | _ => True

/-- The remaining text after a printed token ends it properly: empty, or a
non-alphanumeric first character. -/
def sepHead : List Char → Bool
  | [] => true
  | c :: _ => !rsAlphanumeric c

/-- Tail of a printed comma-separated list: `", x"` for each remaining
element, then the suffix. -/
def commaTail : List (List Char) → List Char → List Char
  | [], l => l
  | x :: xs, l => ',' :: ' ' :: (x ++ commaTail xs l)

/-- Tail of a printed " and "-separated term list. -/
def andTail : List Term → List Char → List Char
  | [], l => l
  | t :: ts, l => ' ' :: 'a' :: 'n' :: 'd' :: ' ' :: (t.display ++ andTail ts l)

/-! #### Log-block representation predicates (claim C6) -/

/-- Byte footprint of one record in a log block: 4-byte length prefix plus
payload. -/
def recSize (r : List Nat) : Nat := 4 + r.length

/-- Total footprint of a block's records. -/
def segSize (rs : List (List Nat)) : Nat := (rs.map recSize).sum

/-- Records of a block readable from position `pos` to the end of the
block: `rs` lists them newest-first, contiguously. -/
def pageRepFrom (bs : Nat) (p : Page) : Nat → List (List Nat) → Prop
  | pos, [] => pos = bs
  | pos, r :: rs => p.get_bytes pos = r ∧ pageRepFrom bs p (pos + 4 + r.length) rs

/-- A page represents the newest-first record list `rs` of its block: right
length, boundary word pointing at the newest record, records contiguous to
the end of the block, and every record's length prefix in `i32` range. -/
def pageRep (bs : Nat) (p : Page) (rs : List (List Nat)) : Prop :=
  p.bb.length = bs
  ∧ 4 + segSize rs ≤ bs
  ∧ usizeOfI32 (p.get_int 0) = bs - segSize rs
  ∧ pageRepFrom bs p (bs - segSize rs) rs

/-- The log file represents the per-block newest-first segments `segs`. -/
def diskRep (bs : Nat) (disk : List Page) (segs : List (List (List Nat))) : Prop :=
  disk.length = segs.length
  ∧ ∀ i, i < segs.length → pageRep bs (disk.getD i (Page.new_from_size 0)) (segs.getD i [])

/-- All records of the log in append (oldest-first) order: each block's
newest-first segment reversed, blocks in file order. -/
def joinOldest (segs : List (List (List Nat))) : List (List Nat) :=
  (segs.map List.reverse).flatten

/-- Effect of one `append` on the per-block segments: start a new block
when the record plus its length prefix does not fit below the boundary
word, otherwise prepend to the tail block's segment. -/
def pushRec (bs : Nat) (segs : List (List (List Nat))) (r : List Nat) :
    List (List (List Nat)) :=
  if bs - segSize (segs.getLastD []) < r.length + 8 then segs ++ [[r]]
  else segs.dropLast ++ [r :: segs.getLastD []]

/-- Segment-level effect of appending a list of records in order. -/
def pushAll (bs : Nat) (segs : List (List (List Nat))) :
    List (List Nat) → List (List (List Nat))
  | [] => segs
  | r :: rs => pushAll bs (pushRec bs segs r) rs

/-- Start offsets of a newest-first record list laid out from `pos`. -/
def posns : Nat → List (List Nat) → List Nat
  | _, [] => []
  | pos, r :: rs => pos :: posns (pos + 4 + r.length) rs

/-- Number of records in the blocks before block `b`. -/
def recCount (segs : List (List (List Nat))) (b : Nat) : Nat :=
  ((segs.take b).map List.length).sum

/-- Number of records in the blocks from block `b` on. -/
def recCountFrom (segs : List (List (List Nat))) (b : Nat) : Nat :=
  ((segs.drop b).map List.length).sum

/-- Representation invariant of the log manager: the in-memory tail page
mirrors the tail block, every earlier block is on disk, and each block
represents its newest-first segment. -/
def LMRep (bs : Nat) (s : LogManagerState) (segs : List (List (List Nat))) : Prop :=
  segs ≠ []
  ∧ s.current_block = segs.length - 1
  ∧ s.disk.length = segs.length
  ∧ (∀ i, i + 1 < segs.length → pageRep bs (diskRead s.disk i) (segs.getD i []))
  ∧ pageRep bs s.log_page (segs.getLastD [])

/-! #### Basic page lemmas -/

theorem writeList_length (l : List Nat) (off : Nat) (data : List Nat)
    (h : off + data.length ≤ l.length) :
    (writeList l off data).length = l.length := by
  simp only [writeList, List.length_append, List.length_take, List.length_drop]
  omega

theorem readList_length (l : List Nat) (off n : Nat) (h : off + n ≤ l.length) :
    (readList l off n).length = n := by
  simp only [readList, List.length_take, List.length_drop]
  omega

/-- Reading back exactly the spliced-in region. -/
theorem readList_writeList_self (l : List Nat) (off : Nat) (data : List Nat)
    (h : off + data.length ≤ l.length) :
    readList (writeList l off data) off data.length = data := by
  have h1 : (List.take off l).length = off := by
    rw [List.length_take]; omega
  unfold readList writeList
  rw [List.append_assoc, List.drop_append_eq_append_drop]
  have e0 : List.drop off (List.take off l) = [] :=
    List.drop_eq_nil_of_le (by rw [h1])
  rw [e0, h1, Nat.sub_self, List.drop_zero, List.nil_append, List.take_left]

/-- Reading a region that lies strictly before the spliced-in region. -/
theorem readList_writeList_before (l : List Nat) (off2 : Nat) (data : List Nat)
    (off1 n : Nat) (h : off1 + n ≤ off2) (h2 : off2 ≤ l.length) :
    readList (writeList l off2 data) off1 n = readList l off1 n := by
  have h1 : (List.take off2 l).length = off2 := by
    rw [List.length_take]; omega
  unfold readList writeList
  rw [List.append_assoc, List.drop_append_eq_append_drop,
    List.take_append_eq_append_take]
  have hlen : n - ((List.take off2 l).drop off1).length = 0 := by
    rw [List.length_drop, h1]; omega
  rw [hlen, List.take_zero, List.append_nil, List.drop_take]
  have : n ≤ off2 - off1 := by omega
  rw [List.take_take, min_eq_left this]

/-- Reading a region that lies entirely after the spliced-in region. -/
theorem readList_writeList_after (l : List Nat) (off2 : Nat) (data : List Nat)
    (off1 n : Nat) (h : off2 + data.length ≤ off1) (h2 : off2 + data.length ≤ l.length) :
    readList (writeList l off2 data) off1 n = readList l off1 n := by
  have h1 : (List.take off2 l).length = off2 := by
    rw [List.length_take]; omega
  unfold readList writeList
  rw [List.drop_append_eq_append_drop, List.drop_append_eq_append_drop]
  have e1 : List.drop off1 (List.take off2 l) = [] := by
    apply List.drop_eq_nil_of_le
    rw [h1]; omega
  have e2 : List.drop (off1 - (List.take off2 l).length) data = [] := by
    apply List.drop_eq_nil_of_le
    rw [h1]; omega
  rw [e1, e2, List.nil_append, List.nil_append, List.drop_drop]
  simp only [List.length_append, List.length_take]
  congr 2
  omega

theorem beVal_beBytes (m : Nat) (h : m < 2 ^ 32) : beVal (beBytes m) = m := by
  simp only [beVal, beBytes, List.getD_cons_zero, List.getD_cons_succ]
  omega

theorem u32ofI32_lt (n : Int) : u32ofI32 n < 2 ^ 32 := by
  unfold u32ofI32
  omega

theorem i32ofU32_u32ofI32 (n : Int) (h1 : -(2 ^ 31) ≤ n) (h2 : n < 2 ^ 31) :
    i32ofU32 (u32ofI32 n) = n := by
  unfold i32ofU32 u32ofI32
  split <;> omega

theorem beBytes_length (m : Nat) : (beBytes m).length = 4 := rfl

/-- Length of the buffer is preserved by an in-bounds `set_int`. -/
theorem set_int_length (p : Page) (off : Nat) (n : Int) (h : off + 4 ≤ p.bb.length) :
    ((p.set_int off n).bb).length = p.bb.length := by
  unfold Page.set_int
  rw [writeList_length]
  rw [beBytes_length]; omega

/-- Reading back an in-bounds, in-range `set_int`. -/
theorem get_int_set_int_self (p : Page) (off : Nat) (n : Int)
    (hoff : off + 4 ≤ p.bb.length) (h1 : -(2 ^ 31) ≤ n) (h2 : n < 2 ^ 31) :
    (p.set_int off n).get_int off = n := by
  unfold Page.get_int Page.set_int
  have h4 : (beBytes (u32ofI32 n)).length = 4 := beBytes_length _
  rw [show (4 : Nat) = (beBytes (u32ofI32 n)).length from h4.symm]
  rw [readList_writeList_self _ _ _ (by rw [h4]; omega)]
  rw [beVal_beBytes _ (u32ofI32_lt n), i32ofU32_u32ofI32 n h1 h2]

/-- A `get_int` strictly before a `set_int` region is unchanged. -/
theorem get_int_set_int_before (p : Page) (off2 : Nat) (n : Int) (off1 : Nat)
    (h : off1 + 4 ≤ off2) (h2 : off2 ≤ p.bb.length) :
    (p.set_int off2 n).get_int off1 = p.get_int off1 := by
  unfold Page.get_int Page.set_int
  rw [readList_writeList_before _ _ _ _ _ h h2]

/-- A `get_int` entirely after a `set_int` region is unchanged. -/
theorem get_int_set_int_after (p : Page) (off2 : Nat) (n : Int) (off1 : Nat)
    (h : off2 + 4 ≤ off1) (h2 : off2 + 4 ≤ p.bb.length) :
    (p.set_int off2 n).get_int off1 = p.get_int off1 := by
  unfold Page.get_int Page.set_int
  rw [readList_writeList_after _ _ _ _ _ (by rw [beBytes_length]; omega)
    (by rw [beBytes_length]; omega)]

/-- Lower bound of every decoded `i32`. -/
theorem i32ofU32_lower (m : Nat) : -(2 ^ 32 : Int) ≤ i32ofU32 m := by
  unfold i32ofU32
  split <;> omega

/-! ## Claim C10 — Page accessors are partial with unchecked preconditions -/

/-- C10: the `Page` accessors are partial functions with unchecked
preconditions.  `get_int`/`set_int` panic (slice-index failure) exactly
when `offset + 4` runs past the buffer; `set_bytes` panics exactly when
`offset + 4 + b.len()` does; `get_bytes` panics exactly when the 4-byte
prefix read runs past the buffer or the stored length, cast `as usize`,
points past the end — in particular always when the stored prefix is
negative (for any realistically sized buffer).  No operation reports the
failure through its return type: the checked embeddings return `none`
precisely on the panicking inputs. -/
theorem C10_page_accessors_unchecked (p : Page) (offset : Nat) (n : Int) (b : List Nat) :
    ((p.get_int_checked offset).isNone ↔ p.bb.length < offset + 4)
    ∧ ((p.set_int_checked offset n).isNone ↔ p.bb.length < offset + 4)
    ∧ ((p.set_bytes_checked offset b).isNone ↔ p.bb.length < offset + 4 + b.length)
    ∧ ((p.get_bytes_checked offset).isNone ↔
        p.bb.length < offset + 4 ∨ p.bb.length < offset + 4 + usizeOfI32 (p.get_int offset))
    ∧ (p.get_int offset < 0 → p.bb.length < 2 ^ 63 →
        (p.get_bytes_checked offset).isNone = true) := by
  refine ⟨?_, ?_, ?_, ?_, ?_⟩
  · unfold Page.get_int_checked
    split <;> simp <;> omega
  · unfold Page.set_int_checked
    split <;> simp <;> omega
  · unfold Page.set_bytes_checked
    split
    · split <;> simp <;> omega
    · simp; omega
  · unfold Page.get_bytes_checked
    split
    · split <;> simp <;> omega
    · simp; omega
  · intro hneg hlen
    have hlow : -(2 ^ 32 : Int) ≤ p.get_int offset := i32ofU32_lower _
    unfold Page.get_bytes_checked
    split
    · split
      · exfalso
        rename_i h1 h2
        unfold usizeOfI32 at h2
        omega
      · simp
    · simp

/-- Witness for C10 at a concrete page: the all-ones 4-byte page stores the
length prefix `-1`, and `get_bytes` at offset 0 panics. -/
theorem C10_witness :
    (Page.new_from_vec [255, 255, 255, 255]).get_int 0 < 0
    ∧ ((Page.new_from_vec [255, 255, 255, 255]).get_bytes_checked 0).isNone = true := by
  refine ⟨by decide, ?_⟩
  exact (C10_page_accessors_unchecked (Page.new_from_vec [255, 255, 255, 255]) 0 0 []).2.2.2.2
    (by decide) (by decide)

/-! ## Claim C2 — `Buffer::flush` enforces the WAL discipline -/

/-- C2: whenever `Buffer::flush` writes the buffer's page to disk it has
first called `log_manager.flush` with the buffer's LSN — so at the write,
`last_saved_lsn ≥ buffer.lsn` — it performs the write only when the buffer
has both an assigned block and a recorded modifying transaction, and it
clears the modifying-transaction field immediately afterwards.  The
hypothesis is the log-manager invariant that every issued LSN is at most
`latest_lsn`. -/
theorem C2_buffer_flush_wal (b : Buffer) (lm : LogManagerState)
    (hlsn : b.lsn.getD 0 ≤ lm.latest_lsn) :
    ((Buffer.flush b lm).2.2 ≠ [] ↔ (b.block.isSome ∧ b.txnum.isSome))
    ∧ (∀ blk, b.block = some blk → b.txnum.isSome →
        (Buffer.flush b lm).2.2
          = [FlushEvent.logFlush (b.lsn.getD 0), FlushEvent.pageWrite blk]
        ∧ b.lsn.getD 0 ≤ (Buffer.flush b lm).2.1.last_saved_lsn
        ∧ (Buffer.flush b lm).1.txnum = none)
    ∧ (¬(b.block.isSome ∧ b.txnum.isSome) → Buffer.flush b lm = (b, lm, [])) := by
  obtain ⟨contents, block, pins, txnum, lsn⟩ := b
  have hflush : ∀ v : Nat, v ≤ lm.latest_lsn → v ≤ (lm.flush v).last_saved_lsn := by
    intro v hv
    unfold LogManagerState.flush LogManagerState.flush_all
    split
    · omega
    · simpa using hv
  cases block with
  | none =>
    cases txnum <;> simp [Buffer.flush]
  | some blk0 =>
    cases txnum with
    | none => simp [Buffer.flush]
    | some t =>
      refine ⟨by simp [Buffer.flush], ?_, by simp⟩
      intro blk hblk _
      simp only [Option.some.injEq] at hblk
      subst hblk
      refine ⟨by simp [Buffer.flush], ?_, by simp [Buffer.flush]⟩
      simpa [Buffer.flush] using hflush _ hlsn

/-- Witness for C2 at a concrete dirty buffer. -/
theorem C2_witness :
    (Buffer.flush ⟨⟨[]⟩, some ⟨[], .number 0⟩, 1, some 7, some 3⟩
        ⟨[], ⟨[]⟩, 0, 5, 1⟩).2.2
      = [FlushEvent.logFlush 3, FlushEvent.pageWrite ⟨[], .number 0⟩]
    ∧ (3 : Nat) ≤ (Buffer.flush ⟨⟨[]⟩, some ⟨[], .number 0⟩, 1, some 7, some 3⟩
        ⟨[], ⟨[]⟩, 0, 5, 1⟩).2.1.last_saved_lsn
    ∧ (Buffer.flush ⟨⟨[]⟩, some ⟨[], .number 0⟩, 1, some 7, some 3⟩
        ⟨[], ⟨[]⟩, 0, 5, 1⟩).1.txnum = none := by
  exact (C2_buffer_flush_wal ⟨⟨[]⟩, some ⟨[], .number 0⟩, 1, some 7, some 3⟩
    ⟨[], ⟨[]⟩, 0, 5, 1⟩ (by decide)).2.1 ⟨[], .number 0⟩ rfl (by decide)

/-! ## Claim C7 — `RecordPage::format` and the log -/

/-- C7 (divergence evidence): `RecordPage::format` is documented — in the
source comment and the specification — as not producing log records, but
the slot-flag write passes `is_ok_to_log = true` to `Transaction::set_int`,
so formatting a block appends one `SetInt` record per slot.  At block size
8 with the empty schema (slot size 4, one valid slot), formatting appends
exactly one `SetInt` record capturing the flag write; the log state is not
unchanged. -/
theorem C7_format_logs_flag_write :
    (RecordPage.format 1 ⟨[], .number 0⟩ ⟨⟨[], []⟩, [], 4⟩ 8 ⟨Page.new_from_size 8, []⟩).map
        (fun st => st.log)
      = some [LogRec.setInt 1 ⟨⟨[], .number 0⟩, 0⟩ 0 0] := by
  decide

/-! ## Claim C8 — `SelectPlan` cost estimates -/

theorem term_factor_eq (child : PlanEst) (t : Term) (hd : termDefined child t = true)
    (hninf : termIsInf t = false) :
    t.reduction_factor child = some (.constant (specTermFactor child t)) := by
  obtain ⟨⟨lhs, rhs⟩⟩ := t
  cases lhs with
  | field lf =>
    cases rhs with
    | field rf =>
      simp only [termDefined, Bool.and_eq_true] at hd
      obtain ⟨h1, h2⟩ := hd
      obtain ⟨a, ha⟩ := Option.isSome_iff_exists.mp h1
      obtain ⟨b, hb⟩ := Option.isSome_iff_exists.mp h2
      simp [Term.reduction_factor, EqualTerm.reduction_factor, specTermFactor, ha, hb]
    | constant c =>
      obtain ⟨a, ha⟩ := Option.isSome_iff_exists.mp hd
      simp [Term.reduction_factor, EqualTerm.reduction_factor, specTermFactor, ha]
  | constant lc =>
    cases rhs with
    | field rf =>
      obtain ⟨b, hb⟩ := Option.isSome_iff_exists.mp hd
      simp [Term.reduction_factor, EqualTerm.reduction_factor, specTermFactor, hb]
    | constant rc =>
      have : lc = rc := by
        simpa [termIsInf] using hninf
      subst this
      simp [Term.reduction_factor, EqualTerm.reduction_factor, specTermFactor]

theorem term_factor_inf (child : PlanEst) (t : Term) (hinf : termIsInf t = true) :
    t.reduction_factor child = some .infinity := by
  obtain ⟨⟨lhs, rhs⟩⟩ := t
  cases lhs <;> cases rhs <;> simp [termIsInf] at hinf
  rename_i lc rc
  simp [Term.reduction_factor, EqualTerm.reduction_factor, hinf]

theorem term_factor_isSome (child : PlanEst) (t : Term) (hd : termDefined child t = true) :
    (t.reduction_factor child).isSome := by
  by_cases h : termIsInf t = true
  · rw [term_factor_inf child t h]; rfl
  · rw [term_factor_eq child t hd (by simpa using h)]; rfl

theorem predFold_no_inf (child : PlanEst) (ts : List Term)
    (hdef : ∀ t ∈ ts, termDefined child t = true)
    (hninf : ∀ t ∈ ts, termIsInf t = false) (q : ℚ) :
    predFold child ts (.constant q)
      = some (.constant (q * (ts.map (specTermFactor child)).prod)) := by
  induction ts generalizing q with
  | nil => simp [predFold]
  | cons t ts ih =>
    rw [predFold, term_factor_eq child t (hdef t (by simp)) (hninf t (by simp))]
    show predFold child ts ((ReductionFactor.constant q).mul _) = _
    rw [ReductionFactor.mul, ih (fun x hx => hdef x (by simp [hx]))
      (fun x hx => hninf x (by simp [hx]))]
    simp [mul_assoc]

theorem predFold_acc_inf (child : PlanEst) (ts : List Term)
    (hdef : ∀ t ∈ ts, termDefined child t = true) :
    predFold child ts .infinity = some .infinity := by
  induction ts with
  | nil => simp [predFold]
  | cons t ts ih =>
    obtain ⟨f, hf⟩ := Option.isSome_iff_exists.mp (term_factor_isSome child t (hdef t (by simp)))
    rw [predFold, hf]
    show predFold child ts (ReductionFactor.infinity.mul f) = _
    have : ReductionFactor.infinity.mul f = .infinity := by
      cases f <;> rfl
    rw [this, ih (fun x hx => hdef x (by simp [hx]))]

theorem predFold_with_inf (child : PlanEst) (ts : List Term)
    (hdef : ∀ t ∈ ts, termDefined child t = true)
    (hex : ∃ t ∈ ts, termIsInf t = true) (q : ℚ) :
    predFold child ts (.constant q) = some .infinity := by
  induction ts generalizing q with
  | nil => simp at hex
  | cons t ts ih =>
    by_cases hinf : termIsInf t = true
    · rw [predFold, term_factor_inf child t hinf]
      show predFold child ts ((ReductionFactor.constant q).mul .infinity) = _
      have : (ReductionFactor.constant q).mul .infinity = .infinity := rfl
      rw [this]
      exact predFold_acc_inf child ts (fun x hx => hdef x (by simp [hx]))
    · obtain ⟨t', ht', hinf'⟩ := hex
      rcases List.mem_cons.mp ht' with rfl | hmem
      · exact absurd hinf' hinf
      · rw [predFold, term_factor_eq child t (hdef t (by simp)) (by simpa using hinf)]
        show predFold child ts ((ReductionFactor.constant q).mul _) = _
        rw [ReductionFactor.mul]
        exact ih (fun x hx => hdef x (by simp [hx])) ⟨t', hmem, hinf'⟩ _

theorem equates_const_go_isSome_iff (f : FieldName) (ts : List Term) :
    (ProductPredicate.equates_with_constant.go f ts).isSome
      ↔ ∃ t ∈ ts, ∃ e, t = .equal e ∧ (e.equates_with_constant f).isSome := by
  induction ts with
  | nil => simp [ProductPredicate.equates_with_constant.go]
  | cons t ts ih =>
    obtain ⟨e⟩ := t
    rw [ProductPredicate.equates_with_constant.go]
    cases h : e.equates_with_constant f with
    | none =>
      simp only [ih]
      constructor
      · rintro ⟨t', ht', e', he', hs⟩
        exact ⟨t', by simp [ht'], e', he', hs⟩
      · rintro ⟨t', ht', e', he', hs⟩
        rcases List.mem_cons.mp ht' with rfl | hmem
        · obtain ⟨rfl⟩ : e = e' := by injection he'
          simp [h] at hs
        · exact ⟨t', hmem, e', he', hs⟩
    | some c =>
      simp only [Option.isSome_some, true_iff]
      exact ⟨.equal e, by simp, e, rfl, by simp [h]⟩

/-- C8: for every `SelectPlan` over a child plan and a `ProductPredicate`
(all of whose distinct-value lookups succeed on the child): the
block-access estimate is the child's; the record-access estimate is the
child's record estimate divided by the product of the per-term reduction
factors — `field = constant` contributing `distinct(field)`,
`field = field'` contributing `max` of the two estimates, an equal constant
pair contributing 1 — and an unequal constant pair makes the factor
infinite and the record estimate 0; the distinct-value estimate is 1 for a
field equated with a constant, `min` of the two estimates for a field
equated with another field, and the child's estimate otherwise.  (`f64`
arithmetic is modelled exactly, as rationals.) -/
theorem C8_select_plan_estimates (child : PlanEst) (pred : ProductPredicate)
    (hdef : ∀ t ∈ pred.terms, termDefined child t = true) :
    SelectPlan.get_block_access_cost child = child.blocks
    ∧ ((∀ t ∈ pred.terms, termIsInf t = false) →
        pred.reduction_factor child
          = some (.constant ((pred.terms.map (specTermFactor child)).prod))
        ∧ SelectPlan.get_record_access_cost child pred
          = some (ratTruncToU64
              ((child.records : ℚ) / (pred.terms.map (specTermFactor child)).prod)))
    ∧ ((∃ t ∈ pred.terms, termIsInf t = true) →
        SelectPlan.get_record_access_cost child pred = some 0)
    ∧ (∀ f : FieldName,
        ((∃ t ∈ pred.terms, ∃ e, t = .equal e ∧ (e.equates_with_constant f).isSome) →
          SelectPlan.get_distinct_value_estimation child pred f = some 1)
        ∧ (∀ g a b', pred.equates_with_constant f = none →
            pred.equates_with_field f = some g →
            child.distinct f = some a → child.distinct g = some b' →
            SelectPlan.get_distinct_value_estimation child pred f = some (min a b'))
        ∧ (pred.equates_with_constant f = none → pred.equates_with_field f = none →
            SelectPlan.get_distinct_value_estimation child pred f = child.distinct f)) := by
  refine ⟨rfl, ?_, ?_, ?_⟩
  · intro hninf
    have hfold := predFold_no_inf child pred.terms hdef hninf 1
    rw [one_mul] at hfold
    refine ⟨hfold, ?_⟩
    unfold SelectPlan.get_record_access_cost
    rw [show pred.reduction_factor child = predFold child pred.terms (.constant 1) from rfl,
      hfold]
    rfl
  · intro hex
    have hfold := predFold_with_inf child pred.terms hdef hex 1
    unfold SelectPlan.get_record_access_cost
    rw [show pred.reduction_factor child = predFold child pred.terms (.constant 1) from rfl,
      hfold]
    rfl
  · intro f
    refine ⟨?_, ?_, ?_⟩
    · intro hex
      have : (pred.equates_with_constant f).isSome := by
        rw [show pred.equates_with_constant f
            = ProductPredicate.equates_with_constant.go f pred.terms from rfl]
        exact (equates_const_go_isSome_iff f pred.terms).mpr hex
      unfold SelectPlan.get_distinct_value_estimation
      rw [if_pos this]
    · intro g a b' hnone hfield ha hb
      unfold SelectPlan.get_distinct_value_estimation
      rw [if_neg (by simp [hnone]), hfield]
      simp [ha, hb]
    · intro hnone hfnone
      unfold SelectPlan.get_distinct_value_estimation
      rw [if_neg (by simp [hnone]), hfnone]

/-- Witness for C8 at a concrete plan and predicate (`field1 = 1 and
field2 = field3` over distinct estimates 10/20/50, records 1000, blocks
10, as in the source's tests): 1000 / (10 · max 20 50) truncates to 2. -/
theorem C8_witness :
    SelectPlan.get_block_access_cost c8child = 10
    ∧ SelectPlan.get_record_access_cost c8child c8pred = some 2
    ∧ SelectPlan.get_distinct_value_estimation c8child c8pred "field1".toList = some 1 := by
  have h := C8_select_plan_estimates c8child c8pred (by decide)
  refine ⟨h.1, ?_, ?_⟩
  · have h2 := (h.2.1 (by decide)).2
    rw [h2]
    have d1 : c8child.distinct "field1".toList = some 10 := rfl
    have d2 : c8child.distinct "field2".toList = some 20 := rfl
    have d3 : c8child.distinct "field3".toList = some 50 := rfl
    have hp : (List.map (specTermFactor c8child) c8pred.terms).prod = (500 : ℚ) := by
      simp only [c8pred, specTermFactor, d1, d2, d3, List.map_cons, List.map_nil,
        List.prod_cons, List.prod_nil, Option.getD_some]
      norm_num
    have hr : c8child.records = 1000 := rfl
    rw [hp, hr]
    norm_num [ratTruncToU64]
    rfl
  · exact (h.2.2.2 "field1".toList).1
      ⟨.equal ⟨.field "field1".toList, .constant (.int 1)⟩, by simp [c8pred],
        ⟨.field "field1".toList, .constant (.int 1)⟩, rfl, by decide⟩

/-! ## Claim C3 — `Transaction::rollback` -/

theorem rollbackUndos_split (txn : Nat) (l m : List LogRec)
    (hl : LogRec.start txn ∉ l) :
    rollbackUndos txn (l ++ .start txn :: m) = (l.filter (ownSet txn)).map undoWriteOf := by
  induction l with
  | nil => simp [rollbackUndos]
  | cons r l' ih =>
    have hl' : LogRec.start txn ∉ l' := fun h => hl (List.mem_cons_of_mem _ h)
    have ihh := ih hl'
    cases r with
    | checkPoint => simpa [rollbackUndos, ownSet] using ihh
    | start tx =>
      have : tx ≠ txn := fun h => hl (by simp [h])
      simp only [List.cons_append, rollbackUndos, if_neg this]
      simpa [ownSet, this] using ihh
    | commit tx => simpa [rollbackUndos, ownSet] using ihh
    | rollback tx => simpa [rollbackUndos, ownSet] using ihh
    | setInt tx loc ov nv =>
      by_cases h : tx = txn
      · subst h
        simp only [List.cons_append, rollbackUndos, if_pos rfl]
        simpa [ownSet, undoWriteOf] using congrArg (List.cons (loc, Val.vint ov)) ihh
      · simp only [List.cons_append, rollbackUndos, if_neg h]
        simpa [ownSet, h] using ihh
    | setString tx loc ov nv =>
      by_cases h : tx = txn
      · subst h
        simp only [List.cons_append, rollbackUndos, if_pos rfl]
        simpa [ownSet, undoWriteOf] using congrArg (List.cons (loc, Val.vstr ov)) ihh
      · simp only [List.cons_append, rollbackUndos, if_neg h]
        simpa [ownSet, h] using ihh

/-- C3: `Transaction::rollback` first appends a `Rollback` record and makes
the whole log durable, then undoes exactly its own `SetInt`/`SetString`
records — in reverse order of application, each restoring the recorded old
value — stopping at its own `Start` record, and finally clears its lock
set and pin list.  Hypotheses: the log contains this transaction's `Start`
once, with `b` the records after it. -/
theorem C3_rollback (txn : Nat) (s : TxSystem) (a b : List LogRec)
    (hlog : s.log = a ++ .start txn :: b) (hb : LogRec.start txn ∉ b) :
    (Transaction.rollback txn s).log = s.log ++ [.rollback txn]
    ∧ (Transaction.rollback txn s).last_saved = (Transaction.rollback txn s).log.length
    ∧ rollbackUndos txn (Transaction.rollback txn s).log.reverse
        = ((b.filter (ownSet txn)).reverse).map undoWriteOf
    ∧ (Transaction.rollback txn s).disk
        = applyWrites (((b.filter (ownSet txn)).reverse).map undoWriteOf) s.disk
    ∧ (Transaction.rollback txn s).locks = [] ∧ (Transaction.rollback txn s).pins = [] := by
  have hrev : (s.log ++ [LogRec.rollback txn]).reverse
      = (LogRec.rollback txn :: b.reverse) ++ (.start txn :: a.reverse) := by
    rw [hlog]
    simp
  have hnot : LogRec.start txn ∉ (LogRec.rollback txn :: b.reverse) := by
    intro h
    rcases List.mem_cons.mp h with h | h
    · exact LogRec.noConfusion h
    · exact hb (List.mem_reverse.mp h)
  have hundos : rollbackUndos txn (s.log ++ [LogRec.rollback txn]).reverse
      = ((b.filter (ownSet txn)).reverse).map undoWriteOf := by
    rw [hrev, rollbackUndos_split txn _ _ hnot]
    simp [ownSet, List.filter_reverse]
  refine ⟨rfl, rfl, ?_, ?_, rfl, rfl⟩
  · exact hundos
  · show applyWrites (rollbackUndos txn (s.log ++ [LogRec.rollback txn]).reverse) s.disk = _
    rw [hundos]

/-- Witness for C3 at a concrete transaction history: transaction 2's two
writes are undone newest-first. -/
theorem C3_witness :
    (Transaction.rollback 2
        ⟨[.start 1, .setInt 1 ⟨⟨[], .number 0⟩, 80⟩ 0 1, .commit 1, .start 2,
          .setInt 2 ⟨⟨[], .number 0⟩, 80⟩ 1 9, .setInt 2 ⟨⟨[], .number 0⟩, 40⟩ 2 7],
         0, fun _ => .vint 0, [⟨[], .number 0⟩], [⟨[], .number 0⟩]⟩).locks = []
    ∧ rollbackUndos 2
        (Transaction.rollback 2
          ⟨[.start 1, .setInt 1 ⟨⟨[], .number 0⟩, 80⟩ 0 1, .commit 1, .start 2,
            .setInt 2 ⟨⟨[], .number 0⟩, 80⟩ 1 9, .setInt 2 ⟨⟨[], .number 0⟩, 40⟩ 2 7],
           0, fun _ => .vint 0, [⟨[], .number 0⟩], [⟨[], .number 0⟩]⟩).log.reverse
      = [(⟨⟨[], .number 0⟩, 40⟩, .vint 2), (⟨⟨[], .number 0⟩, 80⟩, .vint 1)] := by
  have h := C3_rollback 2
    ⟨[.start 1, .setInt 1 ⟨⟨[], .number 0⟩, 80⟩ 0 1, .commit 1, .start 2,
      .setInt 2 ⟨⟨[], .number 0⟩, 80⟩ 1 9, .setInt 2 ⟨⟨[], .number 0⟩, 40⟩ 2 7],
     0, fun _ => .vint 0, [⟨[], .number 0⟩], [⟨[], .number 0⟩]⟩
    [.start 1, .setInt 1 ⟨⟨[], .number 0⟩, 80⟩ 0 1, .commit 1]
    [.setInt 2 ⟨⟨[], .number 0⟩, 80⟩ 1 9, .setInt 2 ⟨⟨[], .number 0⟩, 40⟩ 2 7]
    rfl (by decide)
  exact ⟨h.2.2.2.2.1, by rw [h.2.2.1]; decide⟩

/-! ## Claim C1 — undo-redo recovery -/

theorem applyWrites_append (w1 w2 : List (Loc × Val)) (d : Loc → Val) :
    applyWrites (w1 ++ w2) d = applyWrites w2 (applyWrites w1 d) :=
  List.foldl_append _ _ _ _

theorem applyWrites_eval_nil (ws : List (Loc × Val)) (d : Loc → Val) (loc : Loc)
    (h : ws.filter (fun w => w.1 = loc) = []) :
    applyWrites ws d loc = d loc := by
  induction ws generalizing d with
  | nil => rfl
  | cons w ws ih =>
    rw [List.filter_cons] at h
    split at h
    · exact absurd h (List.cons_ne_nil _ _)
    · rename_i hw
      show applyWrites ws (dwrite d w.1 w.2) loc = d loc
      rw [ih _ h]
      unfold dwrite
      rw [if_neg]
      intro hc
      simp [hc] at hw

theorem getLast?_cons_of_ne_nil {α : Type} (x : α) (t : List α) (h : t ≠ []) :
    (x :: t).getLast? = t.getLast? := by
  cases t with
  | nil => exact absurd rfl h
  | cons y t => exact List.getLast?_cons_cons

theorem applyWrites_eval_last (ws : List (Loc × Val)) (d : Loc → Val) (loc : Loc)
    (w : Loc × Val) (h : (ws.filter (fun x => x.1 = loc)).getLast? = some w) :
    applyWrites ws d loc = w.2 := by
  induction ws generalizing d with
  | nil => simp at h
  | cons x ws ih =>
    rw [List.filter_cons] at h
    split at h
    · rename_i hx
      have hx' : x.1 = loc := by simpa using hx
      cases ht : ws.filter (fun y => y.1 = loc) with
      | nil =>
        rw [ht] at h
        simp only [List.getLast?_singleton, Option.some.injEq] at h
        subst h
        show applyWrites ws (dwrite d x.1 x.2) loc = x.2
        rw [applyWrites_eval_nil _ _ _ ht]
        unfold dwrite
        rw [if_pos hx'.symm]
      | cons z zs =>
        rw [ht, getLast?_cons_of_ne_nil _ _ (List.cons_ne_nil _ _), ← ht] at h
        exact ih _ h
    · exact ih _ h

theorem undoStage_eq (l : List LogRec) (c : List Nat) (d : Loc → Val) :
    undoStage l c d = (undoC l c, applyWrites (undoW l c) d) := by
  induction l generalizing c d with
  | nil => rfl
  | cons r rest ih =>
    cases r with
    | checkPoint => rfl
    | start tx => exact ih c d
    | commit tx => exact ih (tx :: c) d
    | rollback tx => exact ih c d
    | setInt tx loc ov nv =>
      show (if tx ∈ c then _ else _) = _
      by_cases h : tx ∈ c
      · rw [if_pos h]
        rw [ih c d]
        simp [undoC, undoW, if_pos h]
      · rw [if_neg h]
        rw [ih c (dwrite d loc (.vint ov))]
        simp [undoC, undoW, if_neg h]
        rfl
    | setString tx loc ov nv =>
      show (if tx ∈ c then _ else _) = _
      by_cases h : tx ∈ c
      · rw [if_pos h]
        rw [ih c d]
        simp [undoC, undoW, if_pos h]
      · rw [if_neg h]
        rw [ih c (dwrite d loc (.vstr ov))]
        simp [undoC, undoW, if_neg h]
        rfl

theorem redoStage_eq (c : List Nat) (l : List LogRec) (d : Loc → Val) :
    redoStage c l d = applyWrites (redoW c l) d := by
  induction l generalizing d with
  | nil => rfl
  | cons r rest ih =>
    cases r with
    | checkPoint => exact ih d
    | start tx => exact ih d
    | commit tx => exact ih d
    | rollback tx => exact ih d
    | setInt tx loc ov nv =>
      show redoStage c rest (if tx ∈ c then _ else _) = applyWrites (redoW c (_ :: rest)) d
      unfold redoW
      rw [List.filterMap_cons]
      by_cases h : tx ∈ c
      · simp only [if_pos h]
        exact ih _
      · simp only [if_neg h]
        exact ih d
    | setString tx loc ov nv =>
      show redoStage c rest (if tx ∈ c then _ else _) = applyWrites (redoW c (_ :: rest)) d
      unfold redoW
      rw [List.filterMap_cons]
      by_cases h : tx ∈ c
      · simp only [if_pos h]
        exact ih _
      · simp only [if_neg h]
        exact ih d

theorem visitedRecords_of_not_mem (l : List LogRec) (h : LogRec.checkPoint ∉ l) :
    visitedRecords l = l := by
  induction l with
  | nil => rfl
  | cons r rest ih =>
    have hr : r ≠ .checkPoint := fun hh => h (by simp [hh])
    have ih' := ih (fun hh => h (List.mem_cons_of_mem _ hh))
    cases r with
    | checkPoint => exact absurd rfl hr
    | start tx =>
      rw [show visitedRecords (LogRec.start tx :: rest)
          = LogRec.start tx :: visitedRecords rest from rfl, ih']
    | commit tx =>
      rw [show visitedRecords (LogRec.commit tx :: rest)
          = LogRec.commit tx :: visitedRecords rest from rfl, ih']
    | rollback tx =>
      rw [show visitedRecords (LogRec.rollback tx :: rest)
          = LogRec.rollback tx :: visitedRecords rest from rfl, ih']
    | setInt tx loc ov nv =>
      rw [show visitedRecords (LogRec.setInt tx loc ov nv :: rest)
          = LogRec.setInt tx loc ov nv :: visitedRecords rest from rfl, ih']
    | setString tx loc ov nv =>
      rw [show visitedRecords (LogRec.setString tx loc ov nv :: rest)
          = LogRec.setString tx loc ov nv :: visitedRecords rest from rfl, ih']

theorem mem_undoC (l : List LogRec) (c : List Nat) (t : Nat)
    (hcp : LogRec.checkPoint ∉ l) :
    t ∈ undoC l c ↔ (.commit t) ∈ l ∨ t ∈ c := by
  induction l generalizing c with
  | nil => simp [undoC]
  | cons r rest ih =>
    have hcp' : LogRec.checkPoint ∉ rest := fun hh => hcp (List.mem_cons_of_mem _ hh)
    cases r with
    | checkPoint => exact absurd (by simp) hcp
    | start tx =>
      rw [show undoC (LogRec.start tx :: rest) c = undoC rest c from rfl, ih _ hcp']
      simp
    | commit tx =>
      rw [show undoC (LogRec.commit tx :: rest) c = undoC rest (tx :: c) from rfl,
        ih _ hcp']
      constructor
      · rintro (h | h)
        · exact Or.inl (by simp [h])
        · rcases List.mem_cons.mp h with rfl | h
          · exact Or.inl (by simp)
          · exact Or.inr h
      · rintro (h | h)
        · rcases List.mem_cons.mp h with h | h
          · obtain rfl : tx = t := by
              injection h.symm
            exact Or.inr (by simp)
          · exact Or.inl h
        · exact Or.inr (by simp [h])
    | rollback tx =>
      rw [show undoC (LogRec.rollback tx :: rest) c = undoC rest c from rfl, ih _ hcp']
      simp
    | setInt tx loc ov nv =>
      rw [show undoC (LogRec.setInt tx loc ov nv :: rest) c = undoC rest c from rfl,
        ih _ hcp']
      simp
    | setString tx loc ov nv =>
      rw [show undoC (LogRec.setString tx loc ov nv :: rest) c = undoC rest c from rfl,
        ih _ hcp']
      simp

theorem mem_committedTxs (log : List LogRec) (t : Nat) :
    t ∈ committedTxs log ↔ (.commit t) ∈ log := by
  unfold committedTxs
  rw [List.mem_filterMap]
  constructor
  · rintro ⟨r, hr, hf⟩
    cases r with
    | commit tx =>
      obtain rfl : tx = t := by simpa using hf
      exact hr
    | checkPoint => simp at hf
    | start tx => simp at hf
    | rollback tx => simp at hf
    | setInt tx loc ov nv => simp at hf
    | setString tx loc ov nv => simp at hf
  · intro h
    exact ⟨.commit t, h, rfl⟩

theorem redoW_filter (c : List Nat) (l : List LogRec) (loc : Loc) :
    (redoW c l).filter (fun w => w.1 = loc)
      = (l.filter (fun r => isSetOn loc r && decide (txOf r ∈ c))).map
          (fun r => (loc, newValOf r)) := by
  induction l with
  | nil => rfl
  | cons r rest ih =>
    unfold redoW at ih ⊢
    rw [List.filterMap_cons, List.filter_cons]
    cases r with
    | checkPoint => simpa [isSetOn] using ih
    | start tx => simpa [isSetOn] using ih
    | commit tx => simpa [isSetOn] using ih
    | rollback tx => simpa [isSetOn] using ih
    | setInt tx loc' ov nv =>
      by_cases hc : tx ∈ c
      · simp only [if_pos hc]
        by_cases hl : loc' = loc
        · subst hl
          rw [List.filter_cons]
          simp only [isSetOn, txOf, newValOf]
          simpa [hc] using congrArg (List.cons (loc', Val.vint nv)) ih
        · rw [List.filter_cons]
          simp only [isSetOn, txOf]
          simpa [hl, hc] using ih
      · simp only [if_neg hc]
        simp only [isSetOn, txOf]
        simpa [hc] using ih
    | setString tx loc' ov nv =>
      by_cases hc : tx ∈ c
      · simp only [if_pos hc]
        by_cases hl : loc' = loc
        · subst hl
          rw [List.filter_cons]
          simp only [isSetOn, txOf, newValOf]
          simpa [hc] using congrArg (List.cons (loc', Val.vstr nv)) ih
        · rw [List.filter_cons]
          simp only [isSetOn, txOf]
          simpa [hl, hc] using ih
      · simp only [if_neg hc]
        simp only [isSetOn, txOf]
        simpa [hc] using ih

theorem undoW_filter_uncommitted (l : List LogRec) (c : List Nat) (loc : Loc)
    (hcp : LogRec.checkPoint ∉ l)
    (h : ∀ r ∈ l, isSetOn loc r = true → (txOf r ∉ c ∧ (LogRec.commit (txOf r)) ∉ l)) :
    (undoW l c).filter (fun w => w.1 = loc)
      = (l.filter (isSetOn loc)).map (fun r => (loc, oldValOf r)) := by
  induction l generalizing c with
  | nil => rfl
  | cons r rest ih =>
    have hcp' : LogRec.checkPoint ∉ rest := fun hh => hcp (List.mem_cons_of_mem _ hh)
    cases r with
    | checkPoint => exact absurd (by simp) hcp
    | start tx =>
      rw [show undoW (LogRec.start tx :: rest) c = undoW rest c from rfl,
        List.filter_cons]
      have h' : ∀ r ∈ rest, isSetOn loc r = true →
          (txOf r ∉ c ∧ (LogRec.commit (txOf r)) ∉ rest) := by
        intro r hr hs
        obtain ⟨h1, h2⟩ := h r (List.mem_cons_of_mem _ hr) hs
        exact ⟨h1, fun hh => h2 (List.mem_cons_of_mem _ hh)⟩
      simpa [isSetOn] using ih c hcp' h'
    | rollback tx =>
      rw [show undoW (LogRec.rollback tx :: rest) c = undoW rest c from rfl,
        List.filter_cons]
      have h' : ∀ r ∈ rest, isSetOn loc r = true →
          (txOf r ∉ c ∧ (LogRec.commit (txOf r)) ∉ rest) := by
        intro r hr hs
        obtain ⟨h1, h2⟩ := h r (List.mem_cons_of_mem _ hr) hs
        exact ⟨h1, fun hh => h2 (List.mem_cons_of_mem _ hh)⟩
      simpa [isSetOn] using ih c hcp' h'
    | commit tx =>
      rw [show undoW (LogRec.commit tx :: rest) c = undoW rest (tx :: c) from rfl,
        List.filter_cons]
      have h' : ∀ r ∈ rest, isSetOn loc r = true →
          (txOf r ∉ tx :: c ∧ (LogRec.commit (txOf r)) ∉ rest) := by
        intro r hr hs
        obtain ⟨h1, h2⟩ := h r (List.mem_cons_of_mem _ hr) hs
        refine ⟨?_, fun hh => h2 (List.mem_cons_of_mem _ hh)⟩
        intro hmem
        rcases List.mem_cons.mp hmem with rfl | hmem'
        · exact h2 (by simp)
        · exact h1 hmem'
      simpa [isSetOn] using ih (tx :: c) hcp' h'
    | setInt tx loc' ov nv =>
      have h' : ∀ r ∈ rest, isSetOn loc r = true →
          (txOf r ∉ c ∧ (LogRec.commit (txOf r)) ∉ rest) := by
        intro r hr hs
        obtain ⟨h1, h2⟩ := h r (List.mem_cons_of_mem _ hr) hs
        exact ⟨h1, fun hh => h2 (List.mem_cons_of_mem _ hh)⟩
      rw [show undoW (LogRec.setInt tx loc' ov nv :: rest) c
          = if tx ∈ c then undoW rest c else (loc', Val.vint ov) :: undoW rest c from rfl,
        List.filter_cons]
      by_cases hl : loc' = loc
      · subst hl
        have hnc : tx ∉ c :=
          (h (LogRec.setInt tx loc' ov nv) (by simp) (by simp [isSetOn])).1
        rw [if_neg hnc, List.filter_cons]
        simp only [isSetOn, oldValOf]
        simpa using congrArg (List.cons (loc', Val.vint ov)) (ih c hcp' h')
      · by_cases hc : tx ∈ c
        · rw [if_pos hc]
          simp only [isSetOn]
          simpa [hl] using ih c hcp' h'
        · rw [if_neg hc, List.filter_cons]
          simp only [isSetOn]
          simpa [hl] using ih c hcp' h'
    | setString tx loc' ov nv =>
      have h' : ∀ r ∈ rest, isSetOn loc r = true →
          (txOf r ∉ c ∧ (LogRec.commit (txOf r)) ∉ rest) := by
        intro r hr hs
        obtain ⟨h1, h2⟩ := h r (List.mem_cons_of_mem _ hr) hs
        exact ⟨h1, fun hh => h2 (List.mem_cons_of_mem _ hh)⟩
      rw [show undoW (LogRec.setString tx loc' ov nv :: rest) c
          = if tx ∈ c then undoW rest c else (loc', Val.vstr ov) :: undoW rest c from rfl,
        List.filter_cons]
      by_cases hl : loc' = loc
      · subst hl
        have hnc : tx ∉ c :=
          (h (LogRec.setString tx loc' ov nv) (by simp) (by simp [isSetOn])).1
        rw [if_neg hnc, List.filter_cons]
        simp only [isSetOn, oldValOf]
        simpa using congrArg (List.cons (loc', Val.vstr ov)) (ih c hcp' h')
      · by_cases hc : tx ∈ c
        · rw [if_pos hc]
          simp only [isSetOn]
          simpa [hl] using ih c hcp' h'
        · rw [if_neg hc, List.filter_cons]
          simp only [isSetOn]
          simpa [hl] using ih c hcp' h'

/-- C1: `Transaction::recover` runs the undo pass newest-to-oldest
(accumulating committed transaction numbers and undoing every
`SetInt`/`SetString` of a transaction not in the set, stopping at the
first `CheckPoint`), then the redo pass oldest-to-newest over the same
records (redoing every set of a committed transaction) — this is the
definition `do_recover` — and as a result, on a log with no prior
checkpoint, for every location: if any committed transaction wrote it, the
disk holds the newest committed write's new value; if only uncommitted
transactions wrote it, the disk holds the oldest recorded old value (the
pre-transaction value), so no uncommitted write survives; untouched
locations are unchanged. -/
theorem C1_recover_disk (log : List LogRec) (d : Loc → Val)
    (hcp : LogRec.checkPoint ∉ log) :
    (∀ loc r, (committedSetsOn loc log).getLast? = some r →
        do_recover log d loc = newValOf r)
    ∧ (∀ loc r, committedSetsOn loc log = [] → (setsOn loc log).head? = some r →
        do_recover log d loc = oldValOf r)
    ∧ (∀ loc, setsOn loc log = [] → do_recover log d loc = d loc) := by
  have hcpR : LogRec.checkPoint ∉ log.reverse := by simpa using hcp
  have hdr : do_recover log d
      = applyWrites (undoW log.reverse [] ++ redoW (undoC log.reverse []) log) d := by
    unfold do_recover
    rw [undoStage_eq, visitedRecords_of_not_mem _ hcpR, List.reverse_reverse,
      redoStage_eq, applyWrites_append]
  have hCmem : ∀ t, t ∈ undoC log.reverse [] ↔ LogRec.commit t ∈ log := by
    intro t
    rw [mem_undoC _ _ _ hcpR]
    simp
  have hredo : ∀ loc, (redoW (undoC log.reverse []) log).filter (fun w => w.1 = loc)
      = (committedSetsOn loc log).map (fun r => (loc, newValOf r)) := by
    intro loc
    rw [redoW_filter]
    unfold committedSetsOn
    congr 1
    apply List.filter_congr
    intro r _
    congr 1
    rw [decide_eq_decide]
    exact (hCmem _).trans (mem_committedTxs log _).symm
  refine ⟨?_, ?_, ?_⟩
  · intro loc r hlast
    rw [hdr]
    have := applyWrites_eval_last
      (undoW log.reverse [] ++ redoW (undoC log.reverse []) log) d loc
      (loc, newValOf r) ?h
    · exact this
    case h =>
      rw [List.filter_append, hredo]
      have hne : (committedSetsOn loc log).map (fun x => (loc, newValOf x)) ≠ [] := by
        intro h0
        rcases hcse : committedSetsOn loc log with _ | ⟨x, xs⟩
        · rw [hcse] at hlast; simp at hlast
        · rw [hcse] at h0; simp at h0
      rw [List.getLast?_append_of_ne_nil _ hne, List.getLast?_map, hlast]
      rfl
  · intro loc r hnone hhead
    rw [hdr]
    have hW : (undoW log.reverse []).filter (fun w => w.1 = loc)
        = ((log.filter (isSetOn loc)).reverse).map (fun x => (loc, oldValOf x)) := by
      rw [undoW_filter_uncommitted log.reverse [] loc hcpR ?hyp, List.filter_reverse]
      case hyp =>
        intro r' hr' hs
        refine ⟨by simp, ?_⟩
        rw [List.mem_reverse]
        intro hcmem
        have hr'log : r' ∈ log := List.mem_reverse.mp hr'
        have hin : r' ∈ committedSetsOn loc log := by
          unfold committedSetsOn
          exact List.mem_filter.mpr
            ⟨hr'log, by simp [hs, (mem_committedTxs log _).mpr hcmem]⟩
        rw [hnone] at hin
        exact List.not_mem_nil _ hin
    have := applyWrites_eval_last
      (undoW log.reverse [] ++ redoW (undoC log.reverse []) log) d loc
      (loc, oldValOf r) ?h
    · exact this
    case h =>
      rw [List.filter_append, hredo, hnone, List.map_nil, List.append_nil, hW,
        List.getLast?_map, List.getLast?_reverse]
      rw [show (log.filter (isSetOn loc)).head? = some r from hhead]
      rfl
  · intro loc hsets
    rw [hdr]
    apply applyWrites_eval_nil
    rw [List.filter_append, hredo]
    have hforall : ∀ r ∈ log, isSetOn loc r = false :=
      fun r hr => Bool.not_eq_true _ ▸ List.filter_eq_nil_iff.mp hsets r hr
    have h1 : committedSetsOn loc log = [] := by
      unfold committedSetsOn
      apply List.filter_eq_nil_iff.mpr
      intro r hr
      simp [hforall r hr]
    have hsets' : log.filter (isSetOn loc) = [] := hsets
    have h2 : (undoW log.reverse []).filter (fun w => w.1 = loc) = [] := by
      rw [undoW_filter_uncommitted log.reverse [] loc hcpR ?hyp2, List.filter_reverse,
        hsets']
      · rfl
      case hyp2 =>
        intro r' hr' hs
        rw [hforall r' (List.mem_reverse.mp hr')] at hs
        exact absurd hs (by simp)
    rw [h1, h2]
    rfl

/-- Witness for C1 at the recovery test's history (scenario E): transaction
1 sets 1 and commits, transaction 2 sets 2 and rolls back (its rollback
already restored 1 via an unlogged write), transaction 3 sets 3 and
crashes; after recovery the location holds transaction 1's committed
value. -/
theorem C1_witness :
    do_recover
        [.start 1, .setInt 1 ⟨⟨[], .number 0⟩, 80⟩ 0 1, .commit 1,
         .start 2, .setInt 2 ⟨⟨[], .number 0⟩, 80⟩ 1 2, .rollback 2,
         .start 3, .setInt 3 ⟨⟨[], .number 0⟩, 80⟩ 1 3]
        (fun _ => .vint 1) ⟨⟨[], .number 0⟩, 80⟩
      = .vint 1 := by
  have h := (C1_recover_disk
    [.start 1, .setInt 1 ⟨⟨[], .number 0⟩, 80⟩ 0 1, .commit 1,
     .start 2, .setInt 2 ⟨⟨[], .number 0⟩, 80⟩ 1 2, .rollback 2,
     .start 3, .setInt 3 ⟨⟨[], .number 0⟩, 80⟩ 1 3]
    (fun _ => .vint 1) (by decide)).1 ⟨⟨[], .number 0⟩, 80⟩
    (.setInt 1 ⟨⟨[], .number 0⟩, 80⟩ 0 1) (by decide)
  exact h

/-! ## Claim C4 — exclusive locks exclude every other transaction -/

theorem lockInv_init : LockInv lockInit := by
  intro blk
  refine ⟨fun _ tx => rfl, fun n h => ?_, fun h => ?_⟩
  · exact absurd h (by simp [lockInit])
  · exact absurd h (by simp [lockInit])

theorem held_setTable (s : LockSystem) (blk : BlockId) (v : Option TableLock) :
    (s.setTable blk v).held = s.held := rfl

theorem table_setHeld (s : LockSystem) (tx : Nat) (blk : BlockId) (v : Option LockType) :
    (s.setHeld tx blk v).table = s.table := rfl

theorem lockInvAt_congr (s s' : LockSystem) (blk' : BlockId)
    (ht : s'.table blk' = s.table blk') (hh : ∀ t, s'.held t blk' = s.held t blk')
    (h : LockInvAt s blk') : LockInvAt s' blk' := by
  refine ⟨?_, ?_, ?_⟩
  · intro habs t
    rw [hh t]
    exact h.1 (ht ▸ habs) t
  · intro n hn
    obtain ⟨⟨S, hc, hiff⟩, hnoex⟩ := h.2.1 n (ht ▸ hn)
    refine ⟨⟨S, hc, fun t => ?_⟩, fun t => ?_⟩
    · rw [hh t]; exact hiff t
    · rw [hh t]; exact hnoex t
  · intro hx
    obtain ⟨t0, h0, hrest⟩ := h.2.2 (ht ▸ hx)
    exact ⟨t0, (hh t0).trans h0, fun t htne => (hh t).trans (hrest t htne)⟩

theorem lockInv_update_other (s : LockSystem) (tx : Nat) (blk : BlockId)
    (tv : Option TableLock) (hv : Option LockType)
    (blk' : BlockId) (hne : blk' ≠ blk) :
    (((s.setTable blk tv).setHeld tx blk hv).table blk' = s.table blk'
      ∧ ∀ t, ((s.setTable blk tv).setHeld tx blk hv).held t blk' = s.held t blk') := by
  constructor
  · show (if blk' = blk then tv else s.table blk') = s.table blk'
    rw [if_neg hne]
  · intro t
    show (if t = tx ∧ blk' = blk then hv else s.held t blk') = s.held t blk'
    rw [if_neg (fun h => hne h.2)]

theorem lockInv_slock (tx : Nat) (blk : BlockId) (s : LockSystem) (h : LockInv s) :
    LockInv (cmSlock tx blk s).1 := by
  cases hheld : s.held tx blk with
  | some v => simpa [cmSlock, hheld] using h
  | none =>
    cases htab : s.table blk with
    | none =>
      simp only [cmSlock, hheld, htab]
      intro blk'
      by_cases hb : blk' = blk
      · subst hb
        refine ⟨?_, ?_, ?_⟩
        · intro habs
          rw [show ((s.setTable blk' (some (.shared 1))).setHeld tx blk'
              (some .shared)).table blk' = some (.shared 1) by
            show (if blk' = blk' then _ else _) = _
            rw [if_pos rfl]] at habs
          exact Option.noConfusion habs
        · intro n hn
          rw [show ((s.setTable blk' (some (.shared 1))).setHeld tx blk'
              (some .shared)).table blk' = some (.shared 1) by
            show (if blk' = blk' then _ else _) = _
            rw [if_pos rfl]] at hn
          obtain rfl : (1 : Nat) = n := by
            injection hn with hn'
            injection hn'
          refine ⟨⟨{tx}, Finset.card_singleton tx, ?_⟩, ?_⟩
          · intro t
            show t ∈ ({tx} : Finset Nat)
              ↔ (if t = tx ∧ blk' = blk' then some LockType.shared else s.held t blk')
                  = some .shared
            constructor
            · intro ht
              rw [Finset.mem_singleton] at ht
              rw [if_pos ⟨ht, rfl⟩]
            · intro ht
              by_cases htx : t = tx
              · rw [htx]
                exact Finset.mem_singleton_self tx
              · rw [if_neg (fun hh => htx hh.1)] at ht
                rw [(h blk').1 htab t] at ht
                exact Option.noConfusion ht
          · intro t
            show (if t = tx ∧ blk' = blk' then some LockType.shared else s.held t blk')
                ≠ some .exclusive
            by_cases htx : t = tx
            · rw [if_pos ⟨htx, rfl⟩]
              intro hh
              exact LockType.noConfusion (Option.some.inj hh)
            · rw [if_neg (fun hh => htx hh.1), (h blk').1 htab t]
              exact fun hh => Option.noConfusion hh
        · intro hx
          rw [show ((s.setTable blk' (some (.shared 1))).setHeld tx blk'
              (some .shared)).table blk' = some (.shared 1) by
            show (if blk' = blk' then _ else _) = _
            rw [if_pos rfl]] at hx
          exact TableLock.noConfusion (Option.some.inj hx)
      · obtain ⟨ht, hh⟩ := lockInv_update_other s tx blk (some (.shared 1))
          (some .shared) blk' hb
        refine ⟨?_, ?_, ?_⟩
        · intro habs t
          rw [hh t]
          exact (h blk').1 (ht ▸ habs) t
        · intro n hn
          obtain ⟨⟨S, hc, hiff⟩, hnoex⟩ := (h blk').2.1 n (ht ▸ hn)
          refine ⟨⟨S, hc, fun t => ?_⟩, fun t => ?_⟩
          · rw [hh t]; exact hiff t
          · rw [hh t]; exact hnoex t
        · intro hx
          obtain ⟨t0, h0, hrest⟩ := (h blk').2.2 (ht ▸ hx)
          exact ⟨t0, (hh t0).trans h0, fun t htne => (hh t).trans (hrest t htne)⟩
    | some tl =>
      cases tl with
      | exclusive => simpa [cmSlock, hheld, htab] using h
      | shared n =>
        simp only [cmSlock, hheld, htab]
        obtain ⟨⟨S, hc, hiff⟩, hnoex⟩ := (h blk).2.1 n htab
        have htxS : tx ∉ S := by
          intro hmem
          rw [hiff tx, hheld] at hmem
          exact Option.noConfusion hmem
        intro blk'
        by_cases hb : blk' = blk
        · subst hb
          refine ⟨?_, ?_, ?_⟩
          · intro habs
            rw [show ((s.setTable blk' (some (.shared (n + 1)))).setHeld tx blk'
                (some .shared)).table blk' = some (.shared (n + 1)) by
              show (if blk' = blk' then _ else _) = _
              rw [if_pos rfl]] at habs
            exact Option.noConfusion habs
          · intro m hm
            rw [show ((s.setTable blk' (some (.shared (n + 1)))).setHeld tx blk'
                (some .shared)).table blk' = some (.shared (n + 1)) by
              show (if blk' = blk' then _ else _) = _
              rw [if_pos rfl]] at hm
            obtain rfl : n + 1 = m := by
              injection hm with hm'
              injection hm'
            refine ⟨⟨insert tx S, ?_, ?_⟩, ?_⟩
            · rw [Finset.card_insert_of_not_mem htxS, hc]
            · intro t
              show t ∈ insert tx S
                ↔ (if t = tx ∧ blk' = blk' then some LockType.shared else s.held t blk')
                    = some .shared
              rw [Finset.mem_insert]
              constructor
              · rintro (rfl | ht)
                · rw [if_pos ⟨rfl, rfl⟩]
                · by_cases htx : t = tx
                  · rw [if_pos ⟨htx, rfl⟩]
                  · rw [if_neg (fun hh => htx hh.1)]
                    exact (hiff t).mp ht
              · intro ht
                by_cases htx : t = tx
                · exact Or.inl htx
                · rw [if_neg (fun hh => htx hh.1)] at ht
                  exact Or.inr ((hiff t).mpr ht)
            · intro t
              show (if t = tx ∧ blk' = blk' then some LockType.shared else s.held t blk')
                  ≠ some .exclusive
              by_cases htx : t = tx
              · rw [if_pos ⟨htx, rfl⟩]
                intro hh
                exact LockType.noConfusion (Option.some.inj hh)
              · rw [if_neg (fun hh => htx hh.1)]
                exact hnoex t
          · intro hx
            rw [show ((s.setTable blk' (some (.shared (n + 1)))).setHeld tx blk'
                (some .shared)).table blk' = some (.shared (n + 1)) by
              show (if blk' = blk' then _ else _) = _
              rw [if_pos rfl]] at hx
            exact TableLock.noConfusion (Option.some.inj hx)
        · obtain ⟨ht, hh⟩ := lockInv_update_other s tx blk (some (.shared (n + 1)))
            (some .shared) blk' hb
          refine ⟨?_, ?_, ?_⟩
          · intro habs t
            rw [hh t]
            exact (h blk').1 (ht ▸ habs) t
          · intro m hm
            obtain ⟨⟨S', hc', hiff'⟩, hnoex'⟩ := (h blk').2.1 m (ht ▸ hm)
            refine ⟨⟨S', hc', fun t => ?_⟩, fun t => ?_⟩
            · rw [hh t]; exact hiff' t
            · rw [hh t]; exact hnoex' t
          · intro hx
            obtain ⟨t0, h0, hrest⟩ := (h blk').2.2 (ht ▸ hx)
            exact ⟨t0, (hh t0).trans h0, fun t htne => (hh t).trans (hrest t htne)⟩

theorem table_update_self (s : LockSystem) (tx : Nat) (blk : BlockId)
    (tv : Option TableLock) (hv : Option LockType) :
    ((s.setTable blk tv).setHeld tx blk hv).table blk = tv := by
  show (if blk = blk then tv else s.table blk) = tv
  rw [if_pos rfl]

theorem held_update_self (s : LockSystem) (tx : Nat) (blk : BlockId)
    (tv : Option TableLock) (hv : Option LockType) (t : Nat) :
    ((s.setTable blk tv).setHeld tx blk hv).held t blk
      = if t = tx then hv else s.held t blk := by
  show (if t = tx ∧ blk = blk then hv else s.held t blk) = _
  by_cases htx : t = tx
  · rw [if_pos ⟨htx, rfl⟩, if_pos htx]
  · rw [if_neg (fun hh => htx hh.1), if_neg htx]

/-- The invariant after installing an exclusive entry for `tx`, at the
updated block — provided nobody else held anything there. -/
theorem lockInvAt_install_exclusive (s : LockSystem) (tx : Nat) (blk : BlockId)
    (hothers : ∀ t, t ≠ tx → s.held t blk = none) :
    LockInvAt ((s.setTable blk (some .exclusive)).setHeld tx blk (some .exclusive)) blk := by
  refine ⟨?_, ?_, ?_⟩
  · intro habs
    rw [table_update_self] at habs
    exact absurd habs (by simp)
  · intro n hn
    rw [table_update_self] at hn
    exact absurd (Option.some.inj hn) (by simp)
  · intro _
    refine ⟨tx, ?_, ?_⟩
    · rw [held_update_self, if_pos rfl]
    · intro t htne
      rw [held_update_self, if_neg htne]
      exact hothers t htne

theorem lockInv_xlock (tx : Nat) (blk : BlockId) (s : LockSystem) (h : LockInv s) :
    LockInv (cmXlock tx blk s).1 := by
  cases hheld : s.held tx blk with
  | none =>
    cases htab : s.table blk with
    | some tl => simpa [cmXlock, hheld, htab] using h
    | none =>
      simp only [cmXlock, hheld, htab]
      intro blk'
      by_cases hb : blk' = blk
      · subst hb
        refine lockInvAt_install_exclusive s tx blk' ?_
        intro t _
        exact (h blk').1 htab t
      · obtain ⟨ht, hh⟩ := lockInv_update_other s tx blk (some .exclusive)
          (some .exclusive) blk' hb
        exact lockInvAt_congr s _ blk' ht hh (h blk')
  | some v =>
    cases v with
    | exclusive => simpa [cmXlock, hheld] using h
    | shared =>
      cases htab : s.table blk with
      | none => simpa [cmXlock, hheld, htab] using h
      | some tl =>
        cases tl with
        | exclusive => simpa [cmXlock, hheld, htab] using h
        | shared n =>
          match n, htab with
          | 0, htab => simpa [cmXlock, hheld, htab] using h
          | (m + 2), htab => simpa [cmXlock, hheld, htab] using h
          | 1, htab =>
            simp only [cmXlock, hheld, htab]
            obtain ⟨⟨S, hc, hiff⟩, hnoex⟩ := (h blk).2.1 1 htab
            obtain ⟨a, ha⟩ := Finset.card_eq_one.mp hc
            have htxa : tx = a := by
              have : tx ∈ S := (hiff tx).mpr hheld
              rw [ha, Finset.mem_singleton] at this
              exact this
            subst htxa
            intro blk'
            by_cases hb : blk' = blk
            · subst hb
              refine lockInvAt_install_exclusive s tx blk' ?_
              intro t htne
              cases hv : s.held t blk' with
              | none => rfl
              | some w =>
                cases w with
                | shared =>
                  have : t ∈ S := (hiff t).mpr hv
                  rw [ha, Finset.mem_singleton] at this
                  exact absurd this htne
                | exclusive => exact absurd hv (hnoex t)
            · obtain ⟨ht, hh⟩ := lockInv_update_other s tx blk (some .exclusive)
                (some .exclusive) blk' hb
              exact lockInvAt_congr s _ blk' ht hh (h blk')

theorem lockInv_release (tx : Nat) (s : LockSystem) (h : LockInv s) :
    LockInv (cmRelease tx s) := by
  intro blk
  have htab : (cmRelease tx s).table blk
      = if s.held tx blk ≠ none then unlockVal (s.table blk) else s.table blk := rfl
  have hh : ∀ t, (cmRelease tx s).held t blk
      = if t = tx then none else s.held t blk := fun t => rfl
  cases hv : s.held tx blk with
  | none =>
    refine lockInvAt_congr s _ blk ?_ ?_ (h blk)
    · rw [htab, if_neg (by simp [hv])]
    · intro t
      rw [hh t]
      by_cases htx : t = tx
      · rw [if_pos htx, htx, hv]
      · rw [if_neg htx]
  | some v =>
    have htab' : (cmRelease tx s).table blk = unlockVal (s.table blk) := by
      rw [htab, if_pos (by simp [hv])]
    cases v with
    | shared =>
      -- the table must hold a Shared entry with tx among its holders
      cases hts : s.table blk with
      | none => exact absurd ((h blk).1 hts tx) (by simp [hv])
      | some tl =>
        cases tl with
        | exclusive =>
          obtain ⟨t0, h0, hrest⟩ := (h blk).2.2 hts
          by_cases htx : tx = t0
          · rw [htx, h0] at hv
            exact absurd (Option.some.inj hv) (by simp)
          · exact absurd (hrest tx htx) (by simp [hv])
        | shared n =>
          obtain ⟨⟨S, hc, hiff⟩, hnoex⟩ := (h blk).2.1 n hts
          have htxS : tx ∈ S := (hiff tx).mpr hv
          match n, hc with
          | 0, hc =>
            exact absurd (Finset.card_eq_zero.mp hc ▸ htxS) (Finset.not_mem_empty tx)
          | 1, hc =>
            obtain ⟨a, ha⟩ := Finset.card_eq_one.mp hc
            have htxa : tx = a := by
              have := htxS
              rw [ha, Finset.mem_singleton] at this
              exact this
            subst htxa
            have hunlock : unlockVal (s.table blk) = none := by
              rw [hts]; rfl
            refine ⟨?_, ?_, ?_⟩
            · intro _ t
              rw [hh t]
              by_cases htx : t = tx
              · rw [if_pos htx]
              · rw [if_neg htx]
                cases hw : s.held t blk with
                | none => rfl
                | some w =>
                  cases w with
                  | shared =>
                    have : t ∈ S := (hiff t).mpr hw
                    rw [ha, Finset.mem_singleton] at this
                    exact absurd this htx
                  | exclusive => exact absurd hw (hnoex t)
            · intro m hm
              rw [htab', hunlock] at hm
              exact Option.noConfusion hm
            · intro hm
              rw [htab', hunlock] at hm
              exact Option.noConfusion hm
          | (m + 2), hc =>
            have hunlock : unlockVal (s.table blk) = some (.shared (m + 1)) := by
              rw [hts]; rfl
            refine ⟨?_, ?_, ?_⟩
            · intro habs
              rw [htab', hunlock] at habs
              exact Option.noConfusion habs
            · intro k hk
              rw [htab', hunlock] at hk
              obtain rfl : m + 1 = k := by
                injection hk with hk'
                injection hk'
              refine ⟨⟨S.erase tx, ?_, ?_⟩, ?_⟩
              · rw [Finset.card_erase_of_mem htxS, hc]
                omega
              · intro t
                rw [hh t, Finset.mem_erase]
                by_cases htx : t = tx
                · subst htx
                  simp
                · rw [if_neg htx]
                  constructor
                  · rintro ⟨_, hmem⟩
                    exact (hiff t).mp hmem
                  · intro hmem
                    exact ⟨htx, (hiff t).mpr hmem⟩
              · intro t
                rw [hh t]
                by_cases htx : t = tx
                · rw [if_pos htx]
                  exact fun hcon => Option.noConfusion hcon
                · rw [if_neg htx]
                  exact hnoex t
            · intro hm
              rw [htab', hunlock] at hm
              exact TableLock.noConfusion (Option.some.inj hm)
    | exclusive =>
      cases hts : s.table blk with
      | none => exact absurd ((h blk).1 hts tx) (by simp [hv])
      | some tl =>
        cases tl with
        | shared n =>
          exact absurd hv (((h blk).2.1 n hts).2 tx)
        | exclusive =>
          have hunlock : unlockVal (s.table blk) = none := by
            rw [hts]; rfl
          obtain ⟨t0, h0, hrest⟩ := (h blk).2.2 hts
          have htx0 : tx = t0 := by
            by_contra hne
            rw [hrest tx hne] at hv
            exact Option.noConfusion hv
          subst htx0
          refine ⟨?_, ?_, ?_⟩
          · intro _ t
            rw [hh t]
            by_cases htx : t = tx
            · rw [if_pos htx]
            · rw [if_neg htx]
              exact hrest t htx
          · intro m hm
            rw [htab', hunlock] at hm
            exact Option.noConfusion hm
          · intro hm
            rw [htab', hunlock] at hm
            exact Option.noConfusion hm

theorem lockInv_step (s s' : LockSystem) (hstep : LockStep s s') (h : LockInv s) :
    LockInv s' := by
  cases hstep with
  | slock tx blk s => exact lockInv_slock tx blk s h
  | xlock tx blk s => exact lockInv_xlock tx blk s h
  | release tx s => exact lockInv_release tx s h

theorem lockInv_reachable (s : LockSystem) (h : LockReachable s) : LockInv s := by
  induction h with
  | refl => exact lockInv_init
  | tail _ hstep ih => exact lockInv_step _ _ hstep ih

/-- C4: in every reachable state of the lock protocol, while transaction
`tx1` holds an exclusive lock on block `blk`, a `slock` or `xlock` call by
any other transaction `tx2` on `blk` fails with `Timeout` and leaves the
state unchanged (until `tx1` releases); equivalently, a block whose table
entry is `Exclusive` is never simultaneously locked by a second
transaction. -/
theorem C4_exclusive_excludes (s : LockSystem) (hreach : LockReachable s)
    (tx1 tx2 : Nat) (blk : BlockId) (hne : tx2 ≠ tx1)
    (hx : s.held tx1 blk = some .exclusive) :
    cmSlock tx2 blk s = (s, .timeout) ∧ cmXlock tx2 blk s = (s, .timeout) := by
  have hinv := lockInv_reachable s hreach
  have htab : s.table blk = some .exclusive := by
    cases hts : s.table blk with
    | none => exact absurd ((hinv blk).1 hts tx1) (by simp [hx])
    | some tl =>
      cases tl with
      | shared n => exact absurd hx (((hinv blk).2.1 n hts).2 tx1)
      | exclusive => rfl
  obtain ⟨t0, h0, hrest⟩ := (hinv blk).2.2 htab
  have ht1 : tx1 = t0 := by
    by_contra hcon
    rw [hrest tx1 hcon] at hx
    exact Option.noConfusion hx
  have h2 : s.held tx2 blk = none := hrest tx2 (ht1 ▸ hne)
  constructor
  · simp [cmSlock, h2, htab]
  · simp [cmXlock, h2, htab]

/-- Witness for C4: from the initial state, transaction 0 takes an
exclusive lock; transaction 1's `slock` and `xlock` on the same block then
time out without changing the state. -/
theorem C4_witness :
    cmSlock 1 ⟨[], .number 0⟩ (cmSlock 0 ⟨[], .number 0⟩
        (cmXlock 0 ⟨[], .number 0⟩ lockInit).1).1
      = ((cmSlock 0 ⟨[], .number 0⟩ (cmXlock 0 ⟨[], .number 0⟩ lockInit).1).1, .timeout)
    ∧ cmXlock 1 ⟨[], .number 0⟩ (cmSlock 0 ⟨[], .number 0⟩
        (cmXlock 0 ⟨[], .number 0⟩ lockInit).1).1
      = ((cmSlock 0 ⟨[], .number 0⟩ (cmXlock 0 ⟨[], .number 0⟩ lockInit).1).1, .timeout) := by
  refine C4_exclusive_excludes _ ?_ 0 1 ⟨[], .number 0⟩ (by decide) ?_
  · exact Relation.ReflTransGen.tail
      (Relation.ReflTransGen.single (LockStep.xlock 0 ⟨[], .number 0⟩ lockInit))
      (LockStep.slock 0 ⟨[], .number 0⟩ _)
  · show (cmSlock 0 ⟨[], .number 0⟩ (cmXlock 0 ⟨[], .number 0⟩ lockInit).1).1.held
        0 ⟨[], .number 0⟩ = some .exclusive
    rfl

/-! ## Claim C5 — `LogManager::append` -/

theorem usizeOfI32_of_nonneg (n : Int) (h0 : 0 ≤ n) (h1 : n < 2 ^ 64) :
    usizeOfI32 n = n.toNat := by
  unfold usizeOfI32
  omega

theorem set_bytes_length (p : Page) (off : Nat) (b : List Nat)
    (h : off + 4 + b.length ≤ p.bb.length) :
    ((p.set_bytes off b).bb).length = p.bb.length := by
  unfold Page.set_bytes
  rw [writeList_length _ _ _ (by rw [set_int_length p off _ (by omega)]; omega),
    set_int_length p off _ (by omega)]

theorem get_int_set_bytes_outside (p : Page) (off2 : Nat) (b : List Nat) (off1 : Nat)
    (h : off1 + 4 ≤ off2) (h2 : off2 + 4 + b.length ≤ p.bb.length) :
    (p.set_bytes off2 b).get_int off1 = p.get_int off1 := by
  show i32ofU32 (beVal (readList
      (writeList (p.set_int off2 ((b.length : Nat) : Int)).bb (off2 + 4) b) off1 4)) = _
  rw [readList_writeList_before _ _ _ _ _ (by omega)
      (by rw [set_int_length p off2 _ (by omega)]; omega)]
  show i32ofU32 (beVal (readList
      (writeList p.bb off2 (beBytes (u32ofI32 ((b.length : Nat) : Int)))) off1 4)) = _
  rw [readList_writeList_before _ _ _ _ _ (by omega) (by omega)]
  rfl

theorem get_bytes_set_int_outside (p : Page) (v : Int) (off : Nat)
    (h4 : 4 ≤ off) (hlen : 4 ≤ p.bb.length) :
    (p.set_int 0 v).get_bytes off = p.get_bytes off := by
  unfold Page.get_bytes
  rw [get_int_set_int_after p 0 v off (by omega) hlen]
  show readList (p.set_int 0 v).bb (off + 4) _ = _
  unfold Page.set_int
  rw [readList_writeList_after _ _ _ _ _ (by rw [beBytes_length]; omega)
    (by rw [beBytes_length]; omega)]

theorem get_bytes_set_bytes_self (p : Page) (off : Nat) (b : List Nat)
    (h : off + 4 + b.length ≤ p.bb.length) (hb : b.length < 2 ^ 31) :
    (p.set_bytes off b).get_bytes off = b := by
  have hlen1 : ((p.set_int off (b.length : Int)).bb).length = p.bb.length :=
    set_int_length p off _ (by omega)
  have hget : (p.set_bytes off b).get_int off = (b.length : Int) := by
    show Page.get_int ⟨writeList (p.set_int off (b.length : Int)).bb (off + 4) b⟩ off
      = (b.length : Int)
    unfold Page.get_int
    show i32ofU32 (beVal (readList (writeList _ _ _) off 4)) = _
    rw [readList_writeList_before _ _ _ _ _ (by omega) (by omega)]
    exact get_int_set_int_self p off _ (by omega) (by omega) (by exact_mod_cast hb)
  unfold Page.get_bytes
  rw [hget, usizeOfI32_of_nonneg _ (by omega) (by omega), Int.toNat_natCast]
  show readList (writeList (p.set_int off (b.length : Int)).bb (off + 4) b) (off + 4)
      b.length = b
  exact readList_writeList_self _ _ _ (by omega)

theorem set_append_length {α : Type} (l : List α) (a b : α) :
    (l ++ [a]).set l.length b = l ++ [b] := by
  induction l with
  | nil => rfl
  | cons x xs ih => simp [List.set, ih]

/-- C5: `LogManager::append(rec)` bumps and returns the latest LSN; when
`rec` plus its 4-byte prefix does not fit below the boundary word
(`boundary < rec.len() + 8`), it first flushes the tail and appends a new
block whose boundary word is the block size; it then writes the record at
`boundary - (rec.len() + 4)` (with the effective boundary), points the
boundary word at it, and — in the fitting case — leaves the disk and
`last_saved_lsn` untouched: the in-memory tail holding the new record is
not written to disk. -/
theorem C5_log_append (bs : Nat) (s : LogManagerState) (rec : List Nat)
    (hpage : s.log_page.bb.length = bs)
    (hbs : bs < 2 ^ 31)
    (hfit : rec.length + 8 ≤ bs)
    (hboundary : usizeOfI32 (s.log_page.get_int 0) ≤ bs) :
    (s.append bs rec).1 = s.latest_lsn + 1
    ∧ (s.append bs rec).2.latest_lsn = s.latest_lsn + 1
    ∧ (s.append bs rec).2.log_page.get_int 0
        = (((if usizeOfI32 (s.log_page.get_int 0) < rec.length + 8 then bs
             else usizeOfI32 (s.log_page.get_int 0)) - (rec.length + 4) : Nat) : Int)
    ∧ (s.append bs rec).2.log_page.get_bytes
        ((if usizeOfI32 (s.log_page.get_int 0) < rec.length + 8 then bs
          else usizeOfI32 (s.log_page.get_int 0)) - (rec.length + 4)) = rec
    ∧ (¬ usizeOfI32 (s.log_page.get_int 0) < rec.length + 8 →
        (s.append bs rec).2.disk = s.disk
        ∧ (s.append bs rec).2.last_saved_lsn = s.last_saved_lsn
        ∧ (s.append bs rec).2.current_block = s.current_block)
    ∧ (usizeOfI32 (s.log_page.get_int 0) < rec.length + 8 →
        (s.append bs rec).2.disk
          = fmWrite s.disk s.current_block s.log_page
              ++ [s.log_page.set_int 0 (bs : Int)]
        ∧ (s.append bs rec).2.current_block = s.disk.length
        ∧ (s.append bs rec).2.last_saved_lsn = s.latest_lsn
        ∧ usizeOfI32 ((s.log_page.set_int 0 (bs : Int)).get_int 0) = bs) := by
  have h4bs : 8 ≤ bs := by omega
  have hre : usizeOfI32 ((s.log_page.set_int 0 (bs : Int)).get_int 0) = bs := by
    rw [get_int_set_int_self s.log_page 0 (bs : Int) (by omega) (by omega)
        (by exact_mod_cast hbs),
      usizeOfI32_of_nonneg _ (by omega) (by omega), Int.toNat_natCast]
  by_cases hcond : usizeOfI32 (s.log_page.get_int 0) < rec.length + 8
  · -- new-block branch
    have happ : s.append bs rec
        = (s.latest_lsn + 1,
           { disk := fmWrite s.disk s.current_block s.log_page
                ++ [s.log_page.set_int 0 (bs : Int)],
             log_page := ((s.log_page.set_int 0 (bs : Int)).set_bytes
                  (bs - (rec.length + 4)) rec).set_int 0 ((bs - (rec.length + 4) : Nat) : Int),
             current_block := s.disk.length,
             latest_lsn := s.latest_lsn + 1,
             last_saved_lsn := s.latest_lsn }) := by
      unfold LogManagerState.append LogManagerState.flush_all append_new_block fmAppend
        fmWrite
      dsimp only
      rw [if_pos (show usizeOfI32 (s.log_page.get_int 0) < 4 + (rec.length + 4) by omega)]
      dsimp only
      rw [hre, set_append_length, List.length_set]
    have hlen1 : ((s.log_page.set_int 0 (bs : Int)).bb).length = bs := by
      rw [set_int_length s.log_page 0 _ (by omega), hpage]
    have hpos : bs - (rec.length + 4) + 4 + rec.length = bs := by omega
    have hp4 : 4 ≤ bs - (rec.length + 4) := by omega
    rw [happ]
    refine ⟨rfl, rfl, ?_, ?_, fun hc => absurd hcond hc, fun _ => ⟨rfl, rfl, rfl, hre⟩⟩
    · rw [if_pos hcond]
      exact get_int_set_int_self _ 0 _ (by rw [set_bytes_length _ _ _ (by omega)]; omega)
        (by omega) (by exact_mod_cast lt_of_le_of_lt (Nat.sub_le _ _) hbs)
    · rw [if_pos hcond]
      rw [get_bytes_set_int_outside _ _ _ hp4
        (by rw [set_bytes_length _ _ _ (by omega)]; omega)]
      exact get_bytes_set_bytes_self _ _ _ (by omega) (by omega)
  · -- fitting branch
    have hge : rec.length + 8 ≤ usizeOfI32 (s.log_page.get_int 0) := by omega
    have happ : s.append bs rec
        = (s.latest_lsn + 1,
           { s with
             log_page := (s.log_page.set_bytes
                  (usizeOfI32 (s.log_page.get_int 0) - (rec.length + 4)) rec).set_int 0
                  ((usizeOfI32 (s.log_page.get_int 0) - (rec.length + 4) : Nat) : Int),
             latest_lsn := s.latest_lsn + 1 }) := by
      unfold LogManagerState.append
      dsimp only
      rw [if_neg (show ¬ usizeOfI32 (s.log_page.get_int 0) < 4 + (rec.length + 4) by omega)]
    have hpos : usizeOfI32 (s.log_page.get_int 0) - (rec.length + 4) + 4 + rec.length
        = usizeOfI32 (s.log_page.get_int 0) := by omega
    have hp4 : 4 ≤ usizeOfI32 (s.log_page.get_int 0) - (rec.length + 4) := by omega
    rw [happ]
    refine ⟨rfl, rfl, ?_, ?_, fun _ => ⟨rfl, rfl, rfl⟩, fun hc => absurd hc hcond⟩
    · rw [if_neg hcond]
      exact get_int_set_int_self _ 0 _ (by rw [set_bytes_length _ _ _ (by omega)]; omega)
        (by omega)
        (by exact_mod_cast lt_of_le_of_lt (le_trans (Nat.sub_le _ _) hboundary) hbs)
    · rw [if_neg hcond]
      rw [get_bytes_set_int_outside _ _ _ hp4
        (by rw [set_bytes_length _ _ _ (by omega)]; omega)]
      exact get_bytes_set_bytes_self _ _ _ (by omega) (by omega)

/-- Witness for C5: appending the one-byte record `[9]` to a fresh log with
block size 16 returns LSN 1, stores the record at offset 11 with the
boundary word pointing at it, and does not touch the disk. -/
theorem C5_witness :
    ((LogManagerState.new 16).append 16 [9]).1 = 1
    ∧ ((LogManagerState.new 16).append 16 [9]).2.log_page.get_int 0 = (11 : Int)
    ∧ ((LogManagerState.new 16).append 16 [9]).2.log_page.get_bytes 11 = [9]
    ∧ ((LogManagerState.new 16).append 16 [9]).2.disk = (LogManagerState.new 16).disk := by
  have h := C5_log_append 16 (LogManagerState.new 16) [9] (by decide) (by decide)
    (by decide) (by decide)
  refine ⟨h.1, ?_, ?_, (h.2.2.2.2.1 (by decide)).1⟩
  · rw [h.2.2.1]
    decide
  · have h3 := h.2.2.2.1
    have e : (if usizeOfI32 ((LogManagerState.new 16).log_page.get_int 0)
          < [9].length + 8 then 16
        else usizeOfI32 ((LogManagerState.new 16).log_page.get_int 0))
        - ([9].length + 4) = 11 := by decide
    rw [e] at h3
    exact h3

/-! #### Claim C6: log iteration -/

theorem drop_eq_of_drop_eq {α : Type} (l₁ l₂ : List α) (pos m : Nat)
    (hpq : l₁.drop pos = l₂.drop pos) (h : pos ≤ m) :
    l₁.drop m = l₂.drop m := by
  have h1 : l₁.drop m = (l₁.drop pos).drop (m - pos) := by
    rw [List.drop_drop]; congr 1; omega
  have h2 : l₂.drop m = (l₂.drop pos).drop (m - pos) := by
    rw [List.drop_drop]; congr 1; omega
  rw [h1, h2, hpq]

theorem writeList_drop (l : List Nat) (off : Nat) (data : List Nat) (pos : Nat)
    (h1 : off + data.length ≤ pos) (h2 : off + data.length ≤ l.length) :
    (writeList l off data).drop pos = l.drop pos := by
  unfold writeList
  rw [List.drop_append_eq_append_drop, List.drop_append_eq_append_drop,
    List.drop_eq_nil_of_le (by simp only [List.length_take]; omega),
    List.drop_eq_nil_of_le (by simp only [List.length_take]; omega),
    List.drop_drop]
  simp only [List.nil_append, List.length_append, List.length_take]
  congr 1
  omega

theorem get_int_eq_of_drop (p q : Page) (pos off : Nat)
    (hpq : p.bb.drop pos = q.bb.drop pos) (h : pos ≤ off) :
    p.get_int off = q.get_int off := by
  unfold Page.get_int readList
  rw [drop_eq_of_drop_eq p.bb q.bb pos off hpq h]

theorem get_bytes_eq_of_drop (p q : Page) (pos off : Nat)
    (hpq : p.bb.drop pos = q.bb.drop pos) (h : pos ≤ off) :
    p.get_bytes off = q.get_bytes off := by
  unfold Page.get_bytes
  rw [get_int_eq_of_drop p q pos off hpq h]
  unfold readList
  rw [drop_eq_of_drop_eq p.bb q.bb pos (off + 4) hpq (by omega)]

theorem pageRepFrom_of_drop (bs : Nat) (p q : Page) (rs : List (List Nat)) :
    ∀ pos, p.bb.drop pos = q.bb.drop pos → pageRepFrom bs q pos rs →
      pageRepFrom bs p pos rs := by
  induction rs with
  | nil => intro pos _ hq; exact hq
  | cons r rs ih =>
    intro pos hpq hq
    exact ⟨(get_bytes_eq_of_drop p q pos pos hpq le_rfl).trans hq.1,
      ih _ (drop_eq_of_drop_eq _ _ pos _ hpq (by omega)) hq.2⟩

theorem pageRepFrom_size (bs : Nat) (p : Page) (rs : List (List Nat)) :
    ∀ pos, pageRepFrom bs p pos rs → pos + segSize rs = bs := by
  induction rs with
  | nil =>
    intro pos h
    have h' : pos = bs := h
    simp only [segSize, List.map_nil, List.sum_nil]
    omega
  | cons r rs ih =>
    intro pos h
    have h2 := ih _ h.2
    simp only [segSize, List.map_cons, List.sum_cons, recSize] at h2 ⊢
    omega

theorem posns_length (rs : List (List Nat)) :
    ∀ pos, (posns pos rs).length = rs.length := by
  induction rs with
  | nil => intro pos; rfl
  | cons r rs ih => intro pos; simp only [posns, List.length_cons, ih]

theorem pageRepFrom_getD (bs : Nat) (p : Page) (rs : List (List Nat)) :
    ∀ pos, pageRepFrom bs p pos rs → ∀ i, i < rs.length →
      p.get_bytes ((posns pos rs).getD i 0) = rs.getD i [] := by
  induction rs with
  | nil => intro pos _ i hi; simp at hi
  | cons r rs ih =>
    intro pos h i hi
    cases i with
    | zero => simp only [posns, List.getD_cons_zero]; exact h.1
    | succ i =>
      simp only [posns, List.getD_cons_succ]
      exact ih _ h.2 i (by simpa using hi)

theorem buildPosList_eq (bs : Nat) (p : Page) (rs : List (List Nat)) :
    ∀ pos, pageRepFrom bs p pos rs → buildPosList p bs pos = posns pos rs := by
  induction rs with
  | nil =>
    intro pos h
    have h' : pos = bs := h
    rw [buildPosList, dif_neg (by omega)]
    rfl
  | cons r rs ih =>
    intro pos h
    have hsz := pageRepFrom_size bs p (r :: rs) pos h
    have hlt : pos < bs := by
      simp only [segSize, List.map_cons, List.sum_cons, recSize] at hsz; omega
    rw [buildPosList, dif_pos hlt, h.1, ih _ h.2]
    rfl

theorem drainFwd_succ (bs : Nat) (disk : List Page) (fuel : Nat) (it it' : LogIterator)
    (r : List Nat) (h : LogIterator.next bs disk it = (some r, it')) :
    drainFwd bs disk (fuel + 1) it
      = (r :: (drainFwd bs disk fuel it').1, (drainFwd bs disk fuel it').2) := by
  simp only [drainFwd, h]

theorem drainFwd_succ_none (bs : Nat) (disk : List Page) (fuel : Nat) (it it' : LogIterator)
    (h : LogIterator.next bs disk it = (none, it')) :
    drainFwd bs disk (fuel + 1) it = ([], it') := by
  simp only [drainFwd, h]

theorem drainRev_succ (bs : Nat) (disk : List Page) (fuel : Nat)
    (it it' : LogReverseIterator) (r : List Nat)
    (h : LogReverseIterator.next bs disk it = (some r, it')) :
    drainRev bs disk (fuel + 1) it
      = (r :: (drainRev bs disk fuel it').1, (drainRev bs disk fuel it').2) := by
  simp only [drainRev, h]

theorem drainRev_succ_none (bs : Nat) (disk : List Page) (fuel : Nat)
    (it it' : LogReverseIterator)
    (h : LogReverseIterator.next bs disk it = (none, it')) :
    drainRev bs disk (fuel + 1) it = ([], it') := by
  simp only [drainRev, h]

theorem drainRev_none_fst (bs : Nat) (disk : List Page) (fuel b : Nat) (p : Page)
    (pl : List Nat) :
    (drainRev bs disk fuel ⟨b, p, pl, none⟩).1 = [] := by
  cases fuel with
  | zero => rfl
  | succ f =>
    rw [drainRev_succ_none bs disk f ⟨b, p, pl, none⟩ ⟨b, p, pl, none⟩ rfl]

theorem logIterator_next_mid (bs : Nat) (disk : List Page) (b : Nat) (p : Page)
    (pos : Nat) (hpos : pos ≠ bs) :
    LogIterator.next bs disk ⟨b, p, pos⟩
      = (some (p.get_bytes pos), ⟨b, p, pos + 4 + (p.get_bytes pos).length⟩) := by
  unfold LogIterator.next
  dsimp only
  rw [if_neg (fun hc => hpos hc.1), if_neg hpos]

theorem logIterator_next_moveback (bs : Nat) (disk : List Page) (b : Nat) (p : Page) :
    LogIterator.next bs disk ⟨b + 1, p, bs⟩
      = (some ((diskRead disk b).get_bytes (usizeOfI32 ((diskRead disk b).get_int 0))),
         ⟨b, diskRead disk b,
          usizeOfI32 ((diskRead disk b).get_int 0) + 4
            + ((diskRead disk b).get_bytes
                (usizeOfI32 ((diskRead disk b).get_int 0))).length⟩) := by
  unfold LogIterator.next LogIterator.move_to_block
  dsimp only
  rw [if_neg (fun hc => Nat.succ_ne_zero b hc.2), if_pos rfl]
  simp only [Nat.add_sub_cancel]

theorem logIterator_next_stop (bs : Nat) (disk : List Page) (p : Page) :
    LogIterator.next bs disk ⟨0, p, bs⟩ = (none, ⟨0, p, bs⟩) := by
  unfold LogIterator.next
  dsimp only
  rw [if_pos ⟨rfl, rfl⟩]

theorem logRev_next_pos (bs : Nat) (disk : List Page) (b : Nat) (p : Page)
    (pl : List Nat) (j : Nat) :
    LogReverseIterator.next bs disk ⟨b, p, pl, some (j + 1)⟩
      = (some (p.get_bytes (pl.getD (j + 1) 0)), ⟨b, p, pl, some j⟩) := by
  unfold LogReverseIterator.next
  dsimp only
  rw [if_neg (Nat.succ_ne_zero j)]
  simp only [Nat.add_sub_cancel]

theorem logRev_next_last (bs : Nat) (disk : List Page) (b : Nat) (p : Page)
    (pl : List Nat) (hb : b = disk.length - 1) :
    LogReverseIterator.next bs disk ⟨b, p, pl, some 0⟩
      = (some (p.get_bytes (pl.getD 0 0)), ⟨b, p, pl, none⟩) := by
  unfold LogReverseIterator.next
  dsimp only
  rw [if_pos rfl, if_pos hb]

theorem logRev_next_move (bs : Nat) (disk : List Page) (b : Nat) (p : Page)
    (pl : List Nat) (hb : ¬ b = disk.length - 1) :
    LogReverseIterator.next bs disk ⟨b, p, pl, some 0⟩
      = (some (p.get_bytes (pl.getD 0 0)),
         LogReverseIterator.move_to_block bs disk ⟨b, p, pl, some 0⟩ (b + 1)) := by
  unfold LogReverseIterator.next
  dsimp only
  rw [if_pos rfl, if_neg hb]

theorem getD_append_left' {α : Type} (l₁ l₂ : List α) (i : Nat) (d : α)
    (h : i < l₁.length) : (l₁ ++ l₂).getD i d = l₁.getD i d := by
  simp only [List.getD_eq_getElem?_getD, List.getElem?_append_left h]

theorem getD_concat_self {α : Type} (l : List α) (x d : α) :
    (l ++ [x]).getD l.length d = x := by
  simp only [List.getD_eq_getElem?_getD, List.getElem?_concat_length, Option.getD_some]

theorem getD_set_ne' {α : Type} (l : List α) (i j : Nat) (a d : α) (h : i ≠ j) :
    (l.set i a).getD j d = l.getD j d := by
  simp only [List.getD_eq_getElem?_getD, List.getElem?_set_ne h]

theorem getD_set_self' {α : Type} (l : List α) (i : Nat) (a d : α) (h : i < l.length) :
    (l.set i a).getD i d = a := by
  simp [List.getD_eq_getElem?_getD, List.getElem?_set, h]

theorem getD_mem' {α : Type} (l : List α) (i : Nat) (d : α) (h : i < l.length) :
    l.getD i d ∈ l := by
  rw [List.getD_eq_getElem _ _ h]
  exact List.getElem_mem h

theorem take_succ_getD {α : Type} (l : List α) (i : Nat) (d : α) (h : i < l.length) :
    l.take (i + 1) = l.take i ++ [l.getD i d] := by
  rw [List.take_succ, List.getElem?_eq_getElem h, List.getD_eq_getElem _ _ h]
  rfl

theorem recCount_succ (segs : List (List (List Nat))) (b : Nat) (hb : b < segs.length) :
    recCount segs (b + 1) = recCount segs b + (segs.getD b []).length := by
  unfold recCount
  rw [take_succ_getD segs b [] hb]
  simp only [List.map_append, List.sum_append, List.map_cons, List.map_nil,
    List.sum_cons, List.sum_nil]
  omega

theorem recCountFrom_succ (segs : List (List (List Nat))) (b : Nat)
    (hb : b < segs.length) :
    recCountFrom segs b = (segs.getD b []).length + recCountFrom segs (b + 1) := by
  unfold recCountFrom
  rw [List.drop_eq_getElem_cons hb]
  simp only [List.map_cons, List.sum_cons, List.getD_eq_getElem _ _ hb]

theorem recCountFrom_end (segs : List (List (List Nat))) :
    recCountFrom segs segs.length = 0 := by
  unfold recCountFrom
  rw [List.drop_eq_nil_of_le le_rfl]
  rfl

theorem joinOldest_cons (x : List (List Nat)) (L : List (List (List Nat))) :
    joinOldest (x :: L) = x.reverse ++ joinOldest L := by
  simp [joinOldest]

theorem joinOldest_concat (L : List (List (List Nat))) (x : List (List Nat)) :
    joinOldest (L ++ [x]) = joinOldest L ++ x.reverse := by
  simp [joinOldest]

theorem joinOldest_reverse (L : List (List (List Nat))) :
    (joinOldest L).reverse = L.reverse.flatten := by
  induction L with
  | nil => rfl
  | cons x L ih =>
    rw [joinOldest_cons, List.reverse_append, ih]
    simp [List.flatten_append]

theorem joinOldest_length (L : List (List (List Nat))) :
    (joinOldest L).length = (L.map List.length).sum := by
  simp only [joinOldest, List.length_flatten, List.map_map]
  congr 1
  exact List.map_congr_left (fun a _ => List.length_reverse a)

theorem boundary_set_int_bs (p : Page) (bs : Nat) (hlen : 4 ≤ p.bb.length)
    (hbs : bs < 2 ^ 31) :
    usizeOfI32 ((p.set_int 0 (bs : Int)).get_int 0) = bs := by
  rw [get_int_set_int_self p 0 (bs : Int) (by omega) (by omega) (by exact_mod_cast hbs),
    usizeOfI32_of_nonneg _ (by omega) (by exact_mod_cast lt_trans hbs (by norm_num)),
    Int.toNat_natCast]

theorem append_fit_eq (bs : Nat) (s : LogManagerState) (rec : List Nat)
    (hcond : ¬ usizeOfI32 (s.log_page.get_int 0) < rec.length + 8) :
    s.append bs rec = (s.latest_lsn + 1,
      { s with
        log_page := (s.log_page.set_bytes
            (usizeOfI32 (s.log_page.get_int 0) - (rec.length + 4)) rec).set_int 0
            ((usizeOfI32 (s.log_page.get_int 0) - (rec.length + 4) : Nat) : Int),
        latest_lsn := s.latest_lsn + 1 }) := by
  unfold LogManagerState.append
  dsimp only
  rw [if_neg (show ¬ usizeOfI32 (s.log_page.get_int 0) < 4 + (rec.length + 4) by omega)]

theorem append_newblock_eq (bs : Nat) (s : LogManagerState) (rec : List Nat)
    (hpage : s.log_page.bb.length = bs) (hbs : bs < 2 ^ 31) (h8 : 8 ≤ bs)
    (hcond : usizeOfI32 (s.log_page.get_int 0) < rec.length + 8) :
    s.append bs rec = (s.latest_lsn + 1,
      { disk := fmWrite s.disk s.current_block s.log_page
          ++ [s.log_page.set_int 0 (bs : Int)],
        log_page := ((s.log_page.set_int 0 (bs : Int)).set_bytes
            (bs - (rec.length + 4)) rec).set_int 0 ((bs - (rec.length + 4) : Nat) : Int),
        current_block := s.disk.length,
        latest_lsn := s.latest_lsn + 1,
        last_saved_lsn := s.latest_lsn }) := by
  have hre : usizeOfI32 ((s.log_page.set_int 0 (bs : Int)).get_int 0) = bs :=
    boundary_set_int_bs s.log_page bs (by omega) hbs
  unfold LogManagerState.append LogManagerState.flush_all append_new_block fmAppend
    fmWrite
  dsimp only
  rw [if_pos (show usizeOfI32 (s.log_page.get_int 0) < 4 + (rec.length + 4) by omega)]
  dsimp only
  rw [hre, set_append_length, List.length_set]

theorem pageRep_cons (bs : Nat) (p : Page) (r : List Nat) (last : List (List Nat))
    (hrep : pageRep bs p last) (hbs : bs < 2 ^ 31)
    (hfit : segSize last + (r.length + 8) ≤ bs) :
    pageRep bs ((p.set_bytes (bs - segSize last - (r.length + 4)) r).set_int 0
        ((bs - segSize last - (r.length + 4) : Nat) : Int)) (r :: last) := by
  obtain ⟨hlen, hsz, hbnd, hfrom⟩ := hrep
  have hpos4 : 4 ≤ bs - segSize last - (r.length + 4) := by omega
  have hposend : bs - segSize last - (r.length + 4) + 4 + r.length = bs - segSize last := by
    omega
  have hlen1 : ((p.set_bytes (bs - segSize last - (r.length + 4)) r).bb).length = bs := by
    rw [set_bytes_length _ _ _ (by omega), hlen]
  have hlen2 : (((p.set_bytes (bs - segSize last - (r.length + 4)) r).set_int 0
      ((bs - segSize last - (r.length + 4) : Nat) : Int)).bb).length = bs := by
    rw [set_int_length _ _ _ (by omega), hlen1]
  have hsegcons : segSize (r :: last) = 4 + r.length + segSize last := by
    simp only [segSize, List.map_cons, List.sum_cons, recSize]
  have hdropeq : (((p.set_bytes (bs - segSize last - (r.length + 4)) r).set_int 0
        ((bs - segSize last - (r.length + 4) : Nat) : Int)).bb).drop (bs - segSize last)
      = p.bb.drop (bs - segSize last) := by
    show (writeList _ 0 (beBytes (u32ofI32 _))).drop (bs - segSize last) = _
    rw [writeList_drop _ _ _ _ (by rw [beBytes_length]; omega)
      (by rw [beBytes_length, hlen1]; omega)]
    show (writeList (p.set_int (bs - segSize last - (r.length + 4))
        ((r.length : Int))).bb (bs - segSize last - (r.length + 4) + 4) r).drop
        (bs - segSize last) = _
    rw [writeList_drop _ _ _ _ (by omega)
      (by rw [set_int_length _ _ _ (by rw [hlen]; omega), hlen]; omega)]
    show (writeList p.bb (bs - segSize last - (r.length + 4))
        (beBytes (u32ofI32 (r.length : Int)))).drop (bs - segSize last) = _
    rw [writeList_drop _ _ _ _ (by rw [beBytes_length]; omega)
      (by rw [beBytes_length, hlen]; omega)]
  have hposeq : bs - segSize (r :: last) = bs - segSize last - (r.length + 4) := by
    omega
  have hv1 : ((bs - segSize last - (r.length + 4) : Nat) : Int) < 2 ^ 31 := by
    exact_mod_cast lt_of_le_of_lt (le_trans (Nat.sub_le _ _) (Nat.sub_le _ _)) hbs
  have hv2 : ((bs - segSize last - (r.length + 4) : Nat) : Int) < 2 ^ 64 := by
    have : bs < 2 ^ 64 := lt_trans hbs (by norm_num)
    exact_mod_cast lt_of_le_of_lt (le_trans (Nat.sub_le _ _) (Nat.sub_le _ _)) this
  refine ⟨hlen2, by omega, ?_, ?_⟩
  · rw [get_int_set_int_self _ 0 _ (by rw [hlen1]; omega)
      (le_trans (by norm_num) (Int.natCast_nonneg _)) hv1,
      usizeOfI32_of_nonneg _ (Int.natCast_nonneg _) hv2, Int.toNat_natCast]
    omega
  · rw [hposeq]
    refine ⟨?_, ?_⟩
    · rw [get_bytes_set_int_outside _ _ _ hpos4 (by rw [hlen1]; omega)]
      exact get_bytes_set_bytes_self p _ r (by rw [hlen]; omega) (by omega)
    · rw [hposend]
      exact pageRepFrom_of_drop bs _ p last (bs - segSize last) hdropeq hfrom

theorem LMRep_new (bs : Nat) (h8 : 8 ≤ bs) (hbs : bs < 2 ^ 31) :
    LMRep bs (LogManagerState.new bs) [[]] := by
  have hl : (Page.new_from_size bs).bb.length = bs := List.length_replicate bs 0
  refine ⟨by simp, rfl, rfl, ?_, ?_, ?_, ?_, ?_⟩
  · intro i hi
    simp only [List.length_cons, List.length_nil] at hi
    omega
  · show (((Page.new_from_size bs).set_int 0 (bs : Int)).bb).length = bs
    rw [set_int_length _ _ _ (by rw [hl]; omega), hl]
  · show 4 + segSize [] ≤ bs
    have h0 : segSize ([] : List (List Nat)) = 0 := rfl
    omega
  · show usizeOfI32 (((Page.new_from_size bs).set_int 0 (bs : Int)).get_int 0)
        = bs - segSize []
    rw [show segSize ([] : List (List Nat)) = 0 from rfl, Nat.sub_zero]
    exact boundary_set_int_bs _ bs (by rw [hl]; omega) hbs
  · rfl

theorem LMRep_append (bs : Nat) (s : LogManagerState) (segs : List (List (List Nat)))
    (r : List Nat) (hrep : LMRep bs s segs) (hr : r.length + 8 ≤ bs)
    (hbs : bs < 2 ^ 31) :
    LMRep bs (s.append bs r).2 (pushRec bs segs r) := by
  obtain ⟨hne, hcur, hdlen, hmid, htail⟩ := hrep
  obtain ⟨L, lastEl, hLl⟩ := (List.eq_nil_or_concat segs).resolve_left hne
  rw [List.concat_eq_append] at hLl
  subst hLl
  rw [List.getLastD_concat] at htail
  obtain ⟨hplen, hpsz, hpbnd, hpfrom⟩ := htail
  have hlenL : (L ++ [lastEl]).length = L.length + 1 := by simp
  unfold pushRec
  rw [List.getLastD_concat, List.dropLast_concat]
  by_cases hc : bs - segSize lastEl < r.length + 8
  · rw [if_pos hc]
    have hcond : usizeOfI32 (s.log_page.get_int 0) < r.length + 8 := by
      rw [hpbnd]; exact hc
    rw [append_newblock_eq bs s r hplen hbs (by omega) hcond]
    refine ⟨by simp, ?_, ?_, ?_, ?_⟩
    · show s.disk.length = ((L ++ [lastEl]) ++ [[r]]).length - 1
      rw [hdlen]
      simp
    · show (fmWrite s.disk s.current_block s.log_page
          ++ [s.log_page.set_int 0 (bs : Int)]).length = _
      simp only [fmWrite, List.length_append, List.length_set, List.length_cons,
        List.length_nil, hdlen, hlenL]
    · intro i hi
      have hil : i < L.length + 1 := by
        simp only [List.length_append, List.length_cons, List.length_nil] at hi
        omega
      show pageRep bs ((fmWrite s.disk s.current_block s.log_page
          ++ [s.log_page.set_int 0 (bs : Int)]).getD i (Page.new_from_size 0)) _
      rw [getD_append_left' _ _ _ _ (by simp only [fmWrite, List.length_set]; omega),
        getD_append_left' _ _ _ _ (by rw [hlenL]; omega)]
      by_cases hic : i = L.length
      · subst hic
        have hcur' : s.current_block = L.length := by rw [hcur, hlenL]; omega
        rw [show fmWrite s.disk s.current_block s.log_page
            = s.disk.set L.length s.log_page from by rw [fmWrite, hcur'],
          getD_set_self' _ _ _ _ (by omega), getD_concat_self]
        exact ⟨hplen, hpsz, hpbnd, hpfrom⟩
      · have hcur' : s.current_block = L.length := by rw [hcur, hlenL]; omega
        rw [show fmWrite s.disk s.current_block s.log_page
            = s.disk.set L.length s.log_page from by rw [fmWrite, hcur'],
          getD_set_ne' _ _ _ _ _ (fun h => hic h.symm),
          getD_append_left' _ _ _ _ (by omega)]
        have := hmid i (by rw [hlenL]; omega)
        rwa [getD_append_left' _ _ _ _ (by omega)] at this
    · rw [List.getLastD_concat]
      have hrep0 : pageRep bs (s.log_page.set_int 0 (bs : Int)) [] := by
        refine ⟨by rw [set_int_length _ _ _ (by rw [hplen]; omega), hplen], ?_, ?_, rfl⟩
        · show 4 + segSize [] ≤ bs
          have h0 : segSize ([] : List (List Nat)) = 0 := rfl
          omega
        · exact boundary_set_int_bs _ bs (by rw [hplen]; omega) hbs
      have hcons := pageRep_cons bs (s.log_page.set_int 0 (bs : Int)) r [] hrep0 hbs
        (by show segSize [] + (r.length + 8) ≤ bs
            have h0 : segSize ([] : List (List Nat)) = 0 := rfl
            omega)
      exact hcons
  · rw [if_neg hc]
    have hcond : ¬ usizeOfI32 (s.log_page.get_int 0) < r.length + 8 := by
      rw [hpbnd]; exact hc
    rw [append_fit_eq bs s r hcond]
    refine ⟨by simp, ?_, ?_, ?_, ?_⟩
    · show s.current_block = (L ++ [r :: lastEl]).length - 1
      rw [hcur]
      simp
    · show s.disk.length = (L ++ [r :: lastEl]).length
      rw [hdlen]
      simp
    · intro i hi
      have hil : i < L.length := by
        simp only [List.length_append, List.length_cons, List.length_nil] at hi
        omega
      show pageRep bs (diskRead s.disk i) ((L ++ [r :: lastEl]).getD i [])
      rw [getD_append_left' _ _ _ _ hil]
      have := hmid i (by rw [hlenL]; omega)
      rwa [getD_append_left' _ _ _ _ hil] at this
    · rw [List.getLastD_concat]
      have hfit : segSize lastEl + (r.length + 8) ≤ bs := by omega
      have hcons := pageRep_cons bs s.log_page r lastEl ⟨hplen, hpsz, hpbnd, hpfrom⟩
        hbs hfit
      show pageRep bs ((s.log_page.set_bytes
          (usizeOfI32 (s.log_page.get_int 0) - (r.length + 4)) r).set_int 0
          ((usizeOfI32 (s.log_page.get_int 0) - (r.length + 4) : Nat) : Int)) (r :: lastEl)
      rw [hpbnd]
      exact hcons

theorem LMRep_appendAll (bs : Nat) (recs : List (List Nat)) :
    ∀ (s : LogManagerState) (segs : List (List (List Nat))),
      LMRep bs s segs → (∀ r ∈ recs, r.length + 8 ≤ bs) → bs < 2 ^ 31 →
      LMRep bs (appendAll bs s recs) (pushAll bs segs recs) := by
  induction recs with
  | nil => intro s segs h _ _; exact h
  | cons r rs ih =>
    intro s segs h hr hbs
    exact ih _ _ (LMRep_append bs s segs r h (hr r (by simp)) hbs)
      (fun x hx => hr x (by simp [hx])) hbs

theorem flush_all_diskRep (bs : Nat) (s : LogManagerState)
    (segs : List (List (List Nat))) (hrep : LMRep bs s segs) :
    diskRep bs s.flush_all.disk segs := by
  obtain ⟨hne, hcur, hdlen, hmid, htail⟩ := hrep
  obtain ⟨L, lastEl, hLl⟩ := (List.eq_nil_or_concat segs).resolve_left hne
  rw [List.concat_eq_append] at hLl
  subst hLl
  rw [List.getLastD_concat] at htail
  have hlenL : (L ++ [lastEl]).length = L.length + 1 := by simp
  have hcur' : s.current_block = L.length := by rw [hcur, hlenL]; omega
  refine ⟨?_, ?_⟩
  · show (fmWrite s.disk s.current_block s.log_page).length = _
    rw [fmWrite, List.length_set, hdlen]
  · intro i hi
    show pageRep bs ((fmWrite s.disk s.current_block s.log_page).getD i
        (Page.new_from_size 0)) _
    rw [show fmWrite s.disk s.current_block s.log_page
        = s.disk.set L.length s.log_page from by rw [fmWrite, hcur']]
    by_cases hic : i = L.length
    · subst hic
      rw [getD_set_self' _ _ _ _ (by rw [hdlen, hlenL]; omega), getD_concat_self]
      exact htail
    · have hil : i < L.length := by
        rw [hlenL] at hi
        omega
      rw [getD_set_ne' _ _ _ _ _ (fun h => hic h.symm)]
      exact hmid i (by rw [hlenL]; omega)

theorem pushRec_ne_nil (bs : Nat) (segs : List (List (List Nat))) (r : List Nat) :
    pushRec bs segs r ≠ [] := by
  unfold pushRec
  by_cases hc : bs - segSize (segs.getLastD []) < r.length + 8
  · rw [if_pos hc]; simp
  · rw [if_neg hc]; simp

theorem pushRec_allNE (bs : Nat) (segs : List (List (List Nat))) (r : List Nat)
    (h : (∀ seg ∈ segs, seg ≠ []) ∨ segs = [[]]) (hr : r.length + 8 ≤ bs) :
    ∀ seg ∈ pushRec bs segs r, seg ≠ [] := by
  unfold pushRec
  rcases h with hall | hinit
  · by_cases hc : bs - segSize (segs.getLastD []) < r.length + 8
    · rw [if_pos hc]
      intro seg hseg
      rcases List.mem_append.mp hseg with h1 | h2
      · exact hall seg h1
      · rw [List.mem_singleton] at h2
        subst h2
        simp
    · rw [if_neg hc]
      intro seg hseg
      rcases List.mem_append.mp hseg with h1 | h2
      · exact hall seg (List.dropLast_subset segs h1)
      · rw [List.mem_singleton] at h2
        subst h2
        simp
  · subst hinit
    rw [show ([[]] : List (List (List Nat))) = [] ++ [[]] from rfl,
      List.getLastD_concat, List.dropLast_concat]
    have h0 : segSize ([] : List (List Nat)) = 0 := rfl
    rw [if_neg (by omega)]
    intro seg hseg
    simp only [List.nil_append, List.mem_singleton] at hseg
    subst hseg
    simp

theorem pushAll_allNE (bs : Nat) (recs : List (List Nat)) :
    ∀ segs, (∀ seg ∈ segs, seg ≠ []) → (∀ r ∈ recs, r.length + 8 ≤ bs) →
      ∀ seg ∈ pushAll bs segs recs, seg ≠ [] := by
  induction recs with
  | nil => intro segs h _; exact h
  | cons r rs ih =>
    intro segs h hr
    exact ih _ (pushRec_allNE bs segs r (Or.inl h) (hr r (by simp)))
      (fun x hx => hr x (by simp [hx]))

theorem joinOldest_pushRec (bs : Nat) (segs : List (List (List Nat))) (r : List Nat)
    (hne : segs ≠ []) :
    joinOldest (pushRec bs segs r) = joinOldest segs ++ [r] := by
  obtain ⟨L, lastEl, hLl⟩ := (List.eq_nil_or_concat segs).resolve_left hne
  rw [List.concat_eq_append] at hLl
  subst hLl
  unfold pushRec
  rw [List.getLastD_concat, List.dropLast_concat]
  by_cases hc : bs - segSize lastEl < r.length + 8
  · rw [if_pos hc, joinOldest_concat]
    rfl
  · rw [if_neg hc, joinOldest_concat, joinOldest_concat, List.reverse_cons,
      List.append_assoc]

theorem joinOldest_pushAll (bs : Nat) (recs : List (List Nat)) :
    ∀ segs, segs ≠ [] →
      joinOldest (pushAll bs segs recs) = joinOldest segs ++ recs := by
  induction recs with
  | nil => intro segs _; simp [pushAll]
  | cons r rs ih =>
    intro segs hne
    show joinOldest (pushAll bs (pushRec bs segs r) rs) = _
    rw [ih _ (pushRec_ne_nil bs segs r), joinOldest_pushRec bs segs r hne]
    simp

theorem drainFwd_block (bs : Nat) (disk : List Page) (b : Nat) :
    ∀ rs : List (List Nat), ∀ pos fuel,
      pageRepFrom bs (diskRead disk b) pos rs →
      rs.length ≤ fuel →
      drainFwd bs disk fuel ⟨b, diskRead disk b, pos⟩
        = (rs ++ (drainFwd bs disk (fuel - rs.length) ⟨b, diskRead disk b, bs⟩).1,
           (drainFwd bs disk (fuel - rs.length) ⟨b, diskRead disk b, bs⟩).2) := by
  intro rs
  induction rs with
  | nil =>
    intro pos fuel hfrom _
    have hpos : pos = bs := hfrom
    subst hpos
    simp
  | cons r rs ih =>
    intro pos fuel hfrom hfuel
    have hsz := pageRepFrom_size bs _ (r :: rs) pos hfrom
    have hscons : segSize (r :: rs) = 4 + r.length + segSize rs := by
      simp only [segSize, List.map_cons, List.sum_cons, recSize]
    have hpos : pos ≠ bs := by omega
    cases fuel with
    | zero => exact absurd hfuel (by simp only [List.length_cons]; omega)
    | succ f =>
      rw [drainFwd_succ bs disk f _ _ _ (logIterator_next_mid bs disk b _ pos hpos),
        hfrom.1,
        ih (pos + 4 + r.length) f hfrom.2
          (by simp only [List.length_cons] at hfuel; omega)]
      have hfe : f + 1 - (r :: rs).length = f - rs.length := by
        simp only [List.length_cons]
        omega
      rw [hfe]
      simp only [List.cons_append]

theorem drainFwd_chain (bs : Nat) (disk : List Page) (segs : List (List (List Nat)))
    (hrep : diskRep bs disk segs)
    (hne : ∀ i, i + 1 < segs.length → segs.getD i [] ≠ []) :
    ∀ b, b < segs.length → ∀ fuel, recCount segs b ≤ fuel →
      drainFwd bs disk fuel ⟨b, diskRead disk b, bs⟩
        = (((segs.take b).reverse).flatten, ⟨0, diskRead disk 0, bs⟩) := by
  intro b
  induction b with
  | zero =>
    intro _ fuel _
    cases fuel with
    | zero => rfl
    | succ f =>
      rw [drainFwd_succ_none bs disk f _ _ (logIterator_next_stop bs disk _)]
      rfl
  | succ b ihb =>
    intro hb fuel hfuel
    have hbm : b < segs.length := by omega
    have hsegne := hne b (by omega)
    have hpr : pageRep bs (diskRead disk b) (segs.getD b []) := hrep.2 b hbm
    obtain ⟨hql, hqsz, hqbnd, hqfrom⟩ := hpr
    have hrc := recCount_succ segs b hbm
    cases hseg : segs.getD b [] with
    | nil => exact absurd hseg hsegne
    | cons r rest =>
      rw [hseg] at hqbnd hqfrom hrc
      have hlcons : (r :: rest).length = rest.length + 1 := by simp
      cases fuel with
      | zero => omega
      | succ f =>
        rw [drainFwd_succ bs disk f _ _ _ (logIterator_next_moveback bs disk b _),
          hqbnd, hqfrom.1,
          drainFwd_block bs disk b rest _ f hqfrom.2 (by omega),
          ihb hbm (f - rest.length) (by omega)]
        dsimp only
        rw [take_succ_getD segs b [] hbm, hseg, List.reverse_concat, List.flatten_cons]
        simp only [List.cons_append]

theorem posns_isEmpty (pos : Nat) (rs : List (List Nat)) (h : rs ≠ []) :
    (posns pos rs).isEmpty = false := by
  cases rs with
  | nil => exact absurd rfl h
  | cons r rest => rfl

theorem move_to_block_eq (bs : Nat) (disk : List Page) (it : LogReverseIterator)
    (b : Nat) (seg : List (List Nat))
    (hfrom : pageRepFrom bs (diskRead disk b) (bs - segSize seg) seg)
    (hbnd : usizeOfI32 ((diskRead disk b).get_int 0) = bs - segSize seg)
    (hne : seg ≠ []) :
    LogReverseIterator.move_to_block bs disk it b
      = ⟨b, diskRead disk b, posns (bs - segSize seg) seg, some (seg.length - 1)⟩ := by
  unfold LogReverseIterator.move_to_block construct_rec_pos_list
  dsimp only
  rw [hbnd, buildPosList_eq bs _ seg _ hfrom, posns_isEmpty _ _ hne,
    if_neg (by simp), posns_length]

theorem logRevNew_eq (bs : Nat) (disk : List Page) (seg : List (List Nat))
    (hfrom : pageRepFrom bs (diskRead disk 0) (bs - segSize seg) seg)
    (hbnd : usizeOfI32 ((diskRead disk 0).get_int 0) = bs - segSize seg)
    (hne : seg ≠ []) :
    LogReverseIterator.new disk ⟨0, diskRead disk 0, bs⟩
      = ⟨0, diskRead disk 0, posns (bs - segSize seg) seg, some (seg.length - 1)⟩ := by
  unfold LogReverseIterator.new construct_rec_pos_list
  dsimp only
  rw [hbnd, buildPosList_eq bs _ seg _ hfrom, posns_isEmpty _ _ hne,
    if_neg (by simp), posns_length]

theorem logRevNew_empty (bs : Nat) (disk : List Page)
    (hbnd : usizeOfI32 ((diskRead disk 0).get_int 0) = bs) :
    LogReverseIterator.new disk ⟨0, diskRead disk 0, bs⟩
      = ⟨0, diskRead disk 0, [], none⟩ := by
  unfold LogReverseIterator.new construct_rec_pos_list
  dsimp only
  rw [hbnd, buildPosList, dif_neg (lt_irrefl bs)]
  rfl

theorem drainRev_block (bs : Nat) (disk : List Page) (b bnd : Nat)
    (seg : List (List Nat))
    (hfrom : pageRepFrom bs (diskRead disk b) bnd seg) :
    ∀ j fuel, j < seg.length → j + 1 ≤ fuel →
      (drainRev bs disk fuel ⟨b, diskRead disk b, posns bnd seg, some j⟩).1
        = ((seg.take (j + 1)).reverse)
            ++ (drainRev bs disk (fuel - (j + 1))
                ((LogReverseIterator.next bs disk
                  ⟨b, diskRead disk b, posns bnd seg, some 0⟩).2)).1 := by
  intro j
  induction j with
  | zero =>
    intro fuel hj hfuel
    cases fuel with
    | zero => omega
    | succ f =>
      by_cases hb : b = disk.length - 1
      · rw [logRev_next_last bs disk b _ _ hb,
          drainRev_succ bs disk f _ _ _ (logRev_next_last bs disk b _ _ hb)]
        dsimp only
        rw [pageRepFrom_getD bs _ seg bnd hfrom 0 hj, take_succ_getD seg 0 [] hj]
        simp only [List.take_zero, List.nil_append, Nat.add_sub_cancel,
          List.reverse_cons, List.reverse_nil, List.singleton_append]
      · rw [logRev_next_move bs disk b _ _ hb,
          drainRev_succ bs disk f _ _ _ (logRev_next_move bs disk b _ _ hb)]
        dsimp only
        rw [pageRepFrom_getD bs _ seg bnd hfrom 0 hj, take_succ_getD seg 0 [] hj]
        simp only [List.take_zero, List.nil_append, Nat.add_sub_cancel,
          List.reverse_cons, List.reverse_nil, List.singleton_append]
  | succ j ihj =>
    intro fuel hj hfuel
    cases fuel with
    | zero => omega
    | succ f =>
      rw [drainRev_succ bs disk f _ _ _ (logRev_next_pos bs disk b _ _ j)]
      dsimp only
      rw [pageRepFrom_getD bs _ seg bnd hfrom (j + 1) hj, ihj f (by omega) (by omega),
        take_succ_getD seg (j + 1) [] hj, List.reverse_concat]
      have hfe : f + 1 - (j + 1 + 1) = f - (j + 1) := by omega
      rw [hfe]
      simp only [List.cons_append]

theorem drainRev_chain (bs : Nat) (disk : List Page) (segs : List (List (List Nat)))
    (hrep : diskRep bs disk segs)
    (hne : ∀ seg ∈ segs, seg ≠ []) :
    ∀ n b, segs.length = b + n + 1 → ∀ fuel, recCountFrom segs b ≤ fuel →
      (drainRev bs disk fuel
        ⟨b, diskRead disk b, posns (bs - segSize (segs.getD b [])) (segs.getD b []),
         some ((segs.getD b []).length - 1)⟩).1
        = joinOldest (segs.drop b) := by
  intro n
  induction n with
  | zero =>
    intro b hb fuel hfuel
    have hbm : b < segs.length := by omega
    have hpr : pageRep bs (diskRead disk b) (segs.getD b []) := hrep.2 b hbm
    obtain ⟨hql, hqsz, hqbnd, hqfrom⟩ := hpr
    have hsegne : segs.getD b [] ≠ [] := hne _ (getD_mem' segs b [] hbm)
    have hlpos : 0 < (segs.getD b []).length := List.length_pos.mpr hsegne
    have hrcf := recCountFrom_succ segs b hbm
    have hrcf2 : recCountFrom segs (b + 1) = 0 := by
      rw [show b + 1 = segs.length from by omega]
      exact recCountFrom_end segs
    rw [drainRev_block bs disk b _ _ hqfrom ((segs.getD b []).length - 1) fuel
      (by omega) (by omega)]
    have hbl : b = disk.length - 1 := by rw [hrep.1]; omega
    rw [logRev_next_last bs disk b _ _ hbl]
    dsimp only
    rw [drainRev_none_fst,
      show (segs.getD b []).length - 1 + 1 = (segs.getD b []).length from by omega,
      List.take_length, List.drop_eq_getElem_cons hbm,
      show segs.drop (b + 1) = [] from List.drop_eq_nil_of_le (by omega),
      joinOldest_cons, ← List.getD_eq_getElem segs [] hbm]
    simp [joinOldest]
  | succ n ihn =>
    intro b hb fuel hfuel
    have hbm : b < segs.length := by omega
    have hpr : pageRep bs (diskRead disk b) (segs.getD b []) := hrep.2 b hbm
    obtain ⟨hql, hqsz, hqbnd, hqfrom⟩ := hpr
    have hsegne : segs.getD b [] ≠ [] := hne _ (getD_mem' segs b [] hbm)
    have hlpos : 0 < (segs.getD b []).length := List.length_pos.mpr hsegne
    have hrcf := recCountFrom_succ segs b hbm
    rw [drainRev_block bs disk b _ _ hqfrom ((segs.getD b []).length - 1) fuel
      (by omega) (by omega)]
    have hbl : ¬ b = disk.length - 1 := by rw [hrep.1]; omega
    rw [logRev_next_move bs disk b _ _ hbl]
    dsimp only
    have hbm1 : b + 1 < segs.length := by omega
    have hpr1 : pageRep bs (diskRead disk (b + 1)) (segs.getD (b + 1) []) :=
      hrep.2 (b + 1) hbm1
    rw [move_to_block_eq bs disk _ (b + 1) (segs.getD (b + 1) []) hpr1.2.2.2
      hpr1.2.2.1 (hne _ (getD_mem' segs (b + 1) [] hbm1)),
      ihn (b + 1) (by omega) _ (by omega),
      show (segs.getD b []).length - 1 + 1 = (segs.getD b []).length from by omega,
      List.take_length, List.drop_eq_getElem_cons hbm, joinOldest_cons,
      ← List.getD_eq_getElem segs [] hbm]

/-- C6: appending records `r_0, …, r_{n-1}` in order to a fresh log and then
iterating with `LogManager::iterator` yields exactly `r_{n-1}, …, r_0`
(newest first), and a `LogReverseIterator` constructed from the exhausted
forward iterator yields exactly `r_0, …, r_{n-1}` (oldest first) — the
reverse iteration is the reversal of the forward iteration.  Each record
must fit in a block (`len + 8 ≤ block_size`), the bound under which
`append` never underflows. -/
theorem C6_log_iterator_roundtrip (bs : Nat) (recs : List (List Nat))
    (hbs : bs < 2 ^ 31) (h8 : 8 ≤ bs)
    (hr : ∀ r ∈ recs, r.length + 8 ≤ bs) :
    (∀ fuel, recs.length ≤ fuel →
      (drainFwd bs (appendAll bs (LogManagerState.new bs) recs).iterator.1.disk fuel
        (appendAll bs (LogManagerState.new bs) recs).iterator.2).1 = recs.reverse)
    ∧ (∀ fuel, recs.length ≤ fuel →
      (drainRev bs (appendAll bs (LogManagerState.new bs) recs).iterator.1.disk fuel
        (LogReverseIterator.new
          (appendAll bs (LogManagerState.new bs) recs).iterator.1.disk
          (drainFwd bs (appendAll bs (LogManagerState.new bs) recs).iterator.1.disk
            recs.length
            (appendAll bs (LogManagerState.new bs) recs).iterator.2).2)).1 = recs) := by
  set A := appendAll bs (LogManagerState.new bs) recs with hA
  set segs := pushAll bs [[]] recs with hsegs
  have hrepA : LMRep bs A segs := LMRep_appendAll bs recs _ _ (LMRep_new bs h8 hbs) hr hbs
  have hsne : segs ≠ [] := hrepA.1
  obtain ⟨L, lastEl, hLl⟩ := (List.eq_nil_or_concat segs).resolve_left hsne
  rw [List.concat_eq_append] at hLl
  have hlenL : segs.length = L.length + 1 := by rw [hLl]; simp
  have hjoin : joinOldest segs = recs := by
    rw [hsegs, joinOldest_pushAll bs recs [[]] (by simp)]
    simp [joinOldest]
  have hdr : diskRep bs A.flush_all.disk segs := flush_all_diskRep bs A segs hrepA
  have hcur' : A.current_block = L.length := by
    rw [hrepA.2.1, hlenL]
    omega
  have hprtop : pageRep bs (diskRead A.flush_all.disk L.length) lastEl := by
    have h := hdr.2 L.length (by omega)
    rw [hLl, getD_concat_self] at h
    exact h
  obtain ⟨htl, hts, htb, htf⟩ := hprtop
  have hallne_or : (∀ seg ∈ segs, seg ≠ []) ∨ segs = [[]] := by
    by_cases hrc : recs = []
    · right
      rw [hsegs, hrc]
      rfl
    · left
      obtain ⟨r0, rest, hrecs⟩ := List.exists_cons_of_ne_nil hrc
      rw [hsegs, hrecs]
      show ∀ seg ∈ pushAll bs (pushRec bs [[]] r0) rest, seg ≠ []
      exact pushAll_allNE bs rest _
        (pushRec_allNE bs [[]] r0 (Or.inr rfl) (hr r0 (by rw [hrecs]; simp)))
        (fun x hx => hr x (by rw [hrecs]; simp [hx]))
  have hne' : ∀ i, i + 1 < segs.length → segs.getD i [] ≠ [] := by
    intro i hi
    rcases hallne_or with hall | h1
    · exact hall _ (getD_mem' segs i [] (by omega))
    · rw [h1] at hi
      simp only [List.length_cons, List.length_nil] at hi
      omega
  have htot : recs.length = lastEl.length + recCount segs L.length := by
    have h1 : recs.length = (joinOldest segs).length := by rw [hjoin]
    rw [h1, joinOldest_length]
    unfold recCount
    rw [hLl, List.take_left]
    simp only [List.map_append, List.sum_append, List.map_cons, List.map_nil,
      List.sum_cons, List.sum_nil]
    omega
  have hit0 : A.iterator.2
      = ⟨L.length, diskRead A.flush_all.disk L.length, bs - segSize lastEl⟩ := by
    show LogIterator.move_to_block A.flush_all.disk A.current_block = _
    unfold LogIterator.move_to_block
    dsimp only
    rw [hcur', htb]
  have hfwd : ∀ fuel, recs.length ≤ fuel →
      drainFwd bs A.flush_all.disk fuel A.iterator.2
        = (recs.reverse, ⟨0, diskRead A.flush_all.disk 0, bs⟩) := by
    intro fuel hfuel
    rw [hit0,
      drainFwd_block bs A.flush_all.disk L.length lastEl _ fuel htf (by omega),
      drainFwd_chain bs A.flush_all.disk segs hdr hne' L.length (by omega)
        (fuel - lastEl.length) (by omega)]
    dsimp only
    have hrecrev : recs.reverse = lastEl ++ ((segs.take L.length).reverse).flatten := by
      conv_lhs => rw [← hjoin]
      rw [joinOldest_reverse, hLl, List.reverse_concat, List.flatten_cons,
        List.take_left]
    rw [hrecrev]
  have hrev : ∀ fuel, recs.length ≤ fuel →
      (drainRev bs A.flush_all.disk fuel
        (LogReverseIterator.new A.flush_all.disk
          (drainFwd bs A.flush_all.disk recs.length A.iterator.2).2)).1 = recs := by
    intro fuel hfuel
    have hend : (drainFwd bs A.flush_all.disk recs.length A.iterator.2).2
        = ⟨0, diskRead A.flush_all.disk 0, bs⟩ := by
      rw [hfwd recs.length le_rfl]
    rw [hend]
    by_cases hrc : recs = []
    · have hsegseq : segs = [[]] := by rw [hsegs, hrc]; rfl
      have hb0 : usizeOfI32 ((diskRead A.flush_all.disk 0).get_int 0) = bs := by
        have h := hdr.2 0 (by omega)
        rw [hsegseq] at h
        have hbnd := h.2.2.1
        rwa [show ([[]] : List (List (List Nat))).getD 0 [] = [] from rfl,
          show segSize ([] : List (List Nat)) = 0 from rfl, Nat.sub_zero] at hbnd
      rw [logRevNew_empty bs A.flush_all.disk hb0, drainRev_none_fst, hrc]
    · have hallne : ∀ seg ∈ segs, seg ≠ [] := by
        rcases hallne_or with hall | h1
        · exact hall
        · exfalso
          apply hrc
          have := hjoin
          rw [h1] at this
          simpa [joinOldest] using this.symm
      have h0m : 0 < segs.length := by omega
      have hpr0 : pageRep bs (diskRead A.flush_all.disk 0) (segs.getD 0 []) :=
        hdr.2 0 h0m
      have htot0 : recCountFrom segs 0 = recs.length := by
        unfold recCountFrom
        rw [List.drop_zero, ← joinOldest_length, hjoin]
      rw [logRevNew_eq bs A.flush_all.disk (segs.getD 0 []) hpr0.2.2.2 hpr0.2.2.1
          (hallne _ (getD_mem' segs 0 [] h0m)),
        drainRev_chain bs A.flush_all.disk segs hdr hallne (segs.length - 1) 0
          (by omega) fuel (by omega),
        List.drop_zero, hjoin]
  exact ⟨fun fuel hf => by
      show (drainFwd bs A.flush_all.disk fuel A.iterator.2).1 = recs.reverse
      rw [hfwd fuel hf],
    fun fuel hf => by
      show (drainRev bs A.flush_all.disk fuel
        (LogReverseIterator.new A.flush_all.disk
          (drainFwd bs A.flush_all.disk recs.length A.iterator.2).2)).1 = recs
      exact hrev fuel hf⟩

/-- Witness for C6: two one-byte records appended to a fresh log with block
size 12 span two blocks; the forward iterator yields them newest-first and
the reverse iterator built from it yields them oldest-first. -/
theorem C6_witness :
    (drainFwd 12 ((appendAll 12 (LogManagerState.new 12) [[1], [2]]).iterator.1.disk) 2
      ((appendAll 12 (LogManagerState.new 12) [[1], [2]]).iterator.2)).1 = [[2], [1]]
    ∧ (drainRev 12 ((appendAll 12 (LogManagerState.new 12) [[1], [2]]).iterator.1.disk) 2
      (LogReverseIterator.new
        ((appendAll 12 (LogManagerState.new 12) [[1], [2]]).iterator.1.disk)
        (drainFwd 12 ((appendAll 12 (LogManagerState.new 12) [[1], [2]]).iterator.1.disk)
          2
          ((appendAll 12 (LogManagerState.new 12) [[1], [2]]).iterator.2)).2)).1
      = [[1], [2]] :=
  ⟨(C6_log_iterator_roundtrip 12 [[1], [2]] (by decide) (by decide) (by decide)).1 2
      (by decide),
   (C6_log_iterator_roundtrip 12 [[1], [2]] (by decide) (by decide) (by decide)).2 2
      (by decide)⟩

/-! #### Claim C9: parser round-trip -/

theorem wordStart_facts (c : Char) (h : (rsAlphabetic c || c = '_') = true) :
    rsWhitespace c = false ∧ ¬ c = '\'' ∧ ¬ c = '-' ∧ rsNumeric c = false := by
  have hn : 65 ≤ c.toNat ∧ c.toNat ≤ 90 ∨ 97 ≤ c.toNat ∧ c.toNat ≤ 122
      ∨ c.toNat = 95 := by
    simp only [rsAlphabetic, Bool.or_eq_true, Bool.and_eq_true, decide_eq_true_eq] at h
    rcases h with (h | h) | rfl
    · exact Or.inl h
    · exact Or.inr (Or.inl h)
    · exact Or.inr (Or.inr rfl)
  refine ⟨?_, ?_, ?_, ?_⟩
  · rw [Bool.eq_false_iff]
    intro hw
    simp only [rsWhitespace, Bool.or_eq_true, Bool.and_eq_true, decide_eq_true_eq] at hw
    rcases hw with hw | hw <;> omega
  · intro hq
    rw [hq] at hn
    revert hn
    decide
  · intro hq
    rw [hq] at hn
    revert hn
    decide
  · rw [Bool.eq_false_iff]
    intro hw
    simp only [rsNumeric, Bool.and_eq_true, decide_eq_true_eq] at hw
    omega

theorem digitStart_facts (c : Char) (h : rsNumeric c = true) :
    rsWhitespace c = false ∧ ¬ c = '\'' ∧ ¬ c = '-' := by
  have hn : 48 ≤ c.toNat ∧ c.toNat ≤ 57 := by
    simp only [rsNumeric, Bool.and_eq_true, decide_eq_true_eq] at h
    exact h
  refine ⟨?_, ?_, ?_⟩
  · rw [Bool.eq_false_iff]
    intro hw
    simp only [rsWhitespace, Bool.or_eq_true, Bool.and_eq_true, decide_eq_true_eq] at hw
    rcases hw with hw | hw <;> omega
  · intro hq
    rw [hq] at hn
    revert hn
    decide
  · intro hq
    rw [hq] at hn
    revert hn
    decide

theorem takeWhile_append_all (p : Char → Bool) (cs tail : List Char)
    (h : ∀ x ∈ cs, p x = true) (ht : tail.takeWhile p = []) :
    (cs ++ tail).takeWhile p = cs := by
  induction cs with
  | nil => simpa using ht
  | cons c cs ih =>
    rw [List.cons_append, List.takeWhile_cons, if_pos (h c (by simp)),
      ih (fun x hx => h x (by simp [hx]))]

theorem takeWhile_alnum_nil_of_sepHead (tail : List Char) (h : sepHead tail = true) :
    tail.takeWhile rsAlphanumeric = [] := by
  cases tail with
  | nil => rfl
  | cons c cs =>
    simp only [sepHead, Bool.not_eq_true'] at h
    rw [List.takeWhile_cons, if_neg (by simp [h])]

theorem takeWhile_num_nil_of_sepHead (tail : List Char) (h : sepHead tail = true) :
    tail.takeWhile rsNumeric = [] := by
  cases tail with
  | nil => rfl
  | cons c cs =>
    simp only [sepHead, Bool.not_eq_true'] at h
    have hnum : rsNumeric c = false := by
      simp only [rsAlphanumeric, Bool.or_eq_false_iff] at h
      exact h.2
    rw [List.takeWhile_cons, if_neg (by simp [hnum])]

theorem read_token_space (cs : List Char) : read_token (' ' :: cs) = read_token cs := by
  simp only [read_token]
  rw [if_pos (by decide)]

theorem read_token_word (c : Char) (cs tail : List Char)
    (hc : (rsAlphabetic c || c = '_') = true)
    (hcs : ∀ x ∈ cs, rsAlphanumeric x = true)
    (ht : sepHead tail = true) :
    read_token ((c :: cs) ++ tail)
      = some (if (c :: cs) ∈ KEYWORDS then .keyword (c :: cs) else .id (c :: cs),
          tail) := by
  obtain ⟨hws, hq, hd, hn⟩ := wordStart_facts c hc
  have htw : (cs ++ tail).takeWhile rsAlphanumeric = cs :=
    takeWhile_append_all _ cs tail hcs (takeWhile_alnum_nil_of_sepHead tail ht)
  show read_token (c :: (cs ++ tail)) = _
  simp only [read_token]
  rw [if_neg (by simp [hws]), if_neg hq, if_neg hd, if_neg (by simp [hn]),
    if_pos hc, htw, List.drop_left]
  by_cases hk : (c :: cs) ∈ KEYWORDS
  · rw [if_pos hk, if_pos hk]
  · rw [if_neg hk, if_neg hk]

theorem digitChar_toNat (d : Nat) (h : d < 10) : (Nat.digitChar d).toNat = 48 + d := by
  interval_cases d <;> rfl

theorem rsNumeric_digitChar (d : Nat) (h : d < 10) :
    rsNumeric (Nat.digitChar d) = true := by
  interval_cases d <;> decide

theorem digitsVal_rev_map (ds : List Nat) (h : ∀ d ∈ ds, d < 10) :
    digitsVal ((ds.reverse).map Nat.digitChar) = Nat.ofDigits 10 ds := by
  induction ds with
  | nil => simp [digitsVal, Nat.ofDigits_nil]
  | cons d ds ih =>
    rw [List.reverse_cons, List.map_append, Nat.ofDigits_cons]
    show List.foldl _ 0 (_ ++ [Nat.digitChar d]) = _
    rw [List.foldl_append]
    show 10 * digitsVal ((ds.reverse).map Nat.digitChar)
        + ((Nat.digitChar d).toNat - 48) = _
    rw [ih (fun x hx => h x (by simp [hx])), digitChar_toNat d (h d (by simp))]
    omega

theorem digitsVal_natChars (n : Nat) : digitsVal (natChars n) = n := by
  by_cases h0 : n = 0
  · subst h0
    decide
  · rw [natChars, if_neg h0,
      digitsVal_rev_map _ (fun d hd => Nat.digits_lt_base (by norm_num) hd),
      Nat.ofDigits_digits]

theorem natChars_ne_nil (n : Nat) : natChars n ≠ [] := by
  by_cases h0 : n = 0
  · subst h0
    decide
  · rw [natChars, if_neg h0]
    intro hcon
    rw [List.map_eq_nil_iff, List.reverse_eq_nil_iff] at hcon
    exact (Nat.digits_ne_nil_iff_ne_zero.mpr h0) hcon

theorem natChars_digits (n : Nat) : ∀ c ∈ natChars n, rsNumeric c = true := by
  by_cases h0 : n = 0
  · subst h0
    decide
  · rw [natChars, if_neg h0]
    intro c hc
    rw [List.mem_map] at hc
    obtain ⟨d, hd, rfl⟩ := hc
    rw [List.mem_reverse] at hd
    exact rsNumeric_digitChar d (Nat.digits_lt_base (by norm_num) hd)

theorem read_token_int (n : Nat) (tail : List Char) (hn : n < 2 ^ 31)
    (ht : sepHead tail = true) :
    read_token (natChars n ++ tail) = some (.intConstant (n : Int), tail) := by
  obtain ⟨c, cs, hsplit⟩ : ∃ c cs, natChars n = c :: cs := by
    cases hcc : natChars n with
    | nil => exact absurd hcc (natChars_ne_nil n)
    | cons c cs => exact ⟨c, cs, rfl⟩
  have hcnum : rsNumeric c = true := natChars_digits n c (by rw [hsplit]; simp)
  have hcsnum : ∀ x ∈ cs, rsNumeric x = true :=
    fun x hx => natChars_digits n x (by rw [hsplit]; simp [hx])
  obtain ⟨hws, hq, hd⟩ := digitStart_facts c hcnum
  have htw : (cs ++ tail).takeWhile rsNumeric = cs :=
    takeWhile_append_all _ cs tail hcsnum (takeWhile_num_nil_of_sepHead tail ht)
  have hv : digitsVal (c :: cs) = n := by
    rw [← hsplit]
    exact digitsVal_natChars n
  rw [hsplit]
  show read_token (c :: (cs ++ tail)) = _
  simp only [read_token]
  rw [if_neg (by simp [hws]), if_neg hq, if_neg hd, if_pos hcnum, htw, hv,
    if_pos hn, List.drop_left]

theorem read_token_str (s tail : List Char) (hs : strOk s = true) :
    read_token ('\'' :: (s ++ ('\'' :: tail))) = some (.stringConstant s, tail) := by
  simp only [read_token]
  rw [if_neg (by decide), if_pos trivial]
  have hsw : (s ++ '\'' :: tail).takeWhile (fun x => x ≠ '\'') = s := by
    apply takeWhile_append_all
    · intro x hx
      exact List.all_eq_true.mp hs x hx
    · rw [List.takeWhile_cons, if_neg (by simp)]
  rw [hsw, if_pos (by simp only [List.length_append, List.length_cons]; omega),
    show (s ++ '\'' :: tail) = (s ++ ['\'']) ++ tail from by simp,
    List.drop_left' (by simp)]

theorem read_token_delim (c : Char) (tail : List Char)
    (h1 : rsWhitespace c = false) (h2 : ¬ c = '\'') (h3 : ¬ c = '-')
    (h4 : rsNumeric c = false) (h5 : (rsAlphabetic c || c = '_') = false) :
    read_token (c :: tail) = some (.delimiter c, tail) := by
  simp only [read_token]
  rw [if_neg (by simp [h1]), if_neg h2, if_neg h3, if_neg (by simp [h4]),
    if_neg (by simp [h5])]

theorem read_token_tokOk (cs : List Char) :
    ∀ t rest, read_token cs = some (t, rest) → tokOk t := by
  induction cs with
  | nil =>
    intro t rest h
    simp only [read_token, Option.some.injEq, Prod.mk.injEq] at h
    rw [← h.1]
    exact trivial
  | cons c cs ih =>
    intro t rest h
    simp only [read_token] at h
    by_cases hw : rsWhitespace c
    · rw [if_pos hw] at h
      exact ih t rest h
    · rw [if_neg hw] at h
      by_cases hq : c = '\''
      · rw [if_pos hq] at h
        by_cases hlen : (cs.takeWhile (fun x => x ≠ '\'')).length < cs.length
        · rw [if_pos hlen] at h
          simp only [Option.some.injEq, Prod.mk.injEq] at h
          rw [← h.1]
          exact List.all_takeWhile
        · rw [if_neg hlen] at h
          simp at h
      · rw [if_neg hq] at h
        by_cases hd : c = '-'
        · rw [if_pos hd] at h
          cases cs with
          | nil => simp at h
          | cons c' cs' =>
            simp only [Option.some.injEq, Prod.mk.injEq] at h
            rw [← h.1]
            exact trivial
        · rw [if_neg hd] at h
          by_cases hn : rsNumeric c
          · rw [if_pos hn] at h
            by_cases hv : digitsVal (c :: cs.takeWhile rsNumeric) < 2 ^ 31
            · rw [if_pos hv] at h
              simp only [Option.some.injEq, Prod.mk.injEq] at h
              rw [← h.1]
              exact ⟨Int.natCast_nonneg _, by exact_mod_cast hv⟩
            · rw [if_neg hv] at h
              simp at h
          · rw [if_neg hn] at h
            by_cases ha : (rsAlphabetic c || c = '_') = true
            · rw [if_pos ha] at h
              by_cases hk : (c :: cs.takeWhile rsAlphanumeric) ∈ KEYWORDS
              · rw [if_pos hk] at h
                simp only [Option.some.injEq, Prod.mk.injEq] at h
                rw [← h.1]
                exact trivial
              · rw [if_neg hk] at h
                simp only [Option.some.injEq, Prod.mk.injEq] at h
                rw [← h.1]
                show idOk _ = true
                simp only [idOk, Bool.and_eq_true]
                exact ⟨⟨ha, List.all_takeWhile⟩, by simpa using hk⟩
            · rw [if_neg ha] at h
              simp only [Option.some.injEq, Prod.mk.injEq] at h
              rw [← h.1]
              exact trivial

theorem Lexer_new_tokOk (input : List Char) (l : Lexer) (h : Lexer.new input = some l) :
    tokOk l.token := by
  unfold Lexer.new at h
  rw [Option.map_eq_some'] at h
  obtain ⟨⟨t, rest⟩, h1, h2⟩ := h
  rw [← h2]
  exact read_token_tokOk input t rest h1

theorem Lexer_advance_tokOk (l l' : Lexer) (h : l.advance = some l') :
    tokOk l'.token := by
  unfold Lexer.advance at h
  rw [Option.map_eq_some'] at h
  obtain ⟨⟨t, rest⟩, h1, h2⟩ := h
  rw [← h2]
  exact read_token_tokOk l.rest t rest h1

theorem eat_exact_sound (l : Lexer) (t : Token) (l' : Lexer)
    (h : l.eat_exact t = some l') : l.token = t ∧ l.advance = some l' := by
  unfold Lexer.eat_exact at h
  by_cases htok : l.token = t
  · rw [if_pos htok] at h
    exact ⟨htok, h⟩
  · rw [if_neg htok] at h
    simp at h

theorem eat_id_sound (l : Lexer) (s : List Char) (l' : Lexer)
    (h : l.eat_id = some (s, l')) : l.token = .id s ∧ l.advance = some l' := by
  unfold Lexer.eat_id at h
  cases htok : l.token with
  | id s' =>
    rw [htok] at h
    simp only [Option.map_eq_some'] at h
    obtain ⟨la, hadv, heq⟩ := h
    cases heq
    exact ⟨rfl, hadv⟩
  | keyword s' => rw [htok] at h; simp at h
  | delimiter c => rw [htok] at h; simp at h
  | stringConstant s' => rw [htok] at h; simp at h
  | intConstant n => rw [htok] at h; simp at h
  | endTok => rw [htok] at h; simp at h

theorem eat_int_sound (l : Lexer) (n : Int) (l' : Lexer)
    (h : l.eat_int_constant = some (n, l')) :
    l.token = .intConstant n ∧ l.advance = some l' := by
  unfold Lexer.eat_int_constant at h
  cases htok : l.token with
  | intConstant m =>
    rw [htok] at h
    simp only [Option.map_eq_some'] at h
    obtain ⟨la, hadv, heq⟩ := h
    cases heq
    exact ⟨rfl, hadv⟩
  | keyword s' => rw [htok] at h; simp at h
  | delimiter c => rw [htok] at h; simp at h
  | stringConstant s' => rw [htok] at h; simp at h
  | id s' => rw [htok] at h; simp at h
  | endTok => rw [htok] at h; simp at h

theorem eat_string_sound (l : Lexer) (s : List Char) (l' : Lexer)
    (h : l.eat_string_constant = some (s, l')) :
    l.token = .stringConstant s ∧ l.advance = some l' := by
  unfold Lexer.eat_string_constant at h
  cases htok : l.token with
  | stringConstant s' =>
    rw [htok] at h
    simp only [Option.map_eq_some'] at h
    obtain ⟨la, hadv, heq⟩ := h
    cases heq
    exact ⟨rfl, hadv⟩
  | keyword s' => rw [htok] at h; simp at h
  | delimiter c => rw [htok] at h; simp at h
  | id s' => rw [htok] at h; simp at h
  | intConstant n => rw [htok] at h; simp at h
  | endTok => rw [htok] at h; simp at h

theorem parse_constant_sound (l : Lexer) (c : Constant) (l' : Lexer)
    (hl : tokOk l.token) (h : parse_constant l = some (c, l')) :
    constOk c = true ∧ tokOk l'.token := by
  unfold parse_constant at h
  cases htok : l.token with
  | intConstant n =>
    rw [htok] at h
    simp only [Option.map_eq_some'] at h
    obtain ⟨⟨m, la⟩, heat, hpair⟩ := h
    cases hpair
    obtain ⟨htok2, hadv⟩ := eat_int_sound l m la heat
    rw [htok] at htok2 hl
    injection htok2 with hm
    refine ⟨?_, Lexer_advance_tokOk l la hadv⟩
    simp only [constOk, decide_eq_true_eq]
    rw [← hm]
    exact hl
  | stringConstant s =>
    rw [htok] at h
    simp only [Option.map_eq_some'] at h
    obtain ⟨⟨m, la⟩, heat, hpair⟩ := h
    cases hpair
    obtain ⟨htok2, hadv⟩ := eat_string_sound l m la heat
    rw [htok] at htok2 hl
    injection htok2 with hm
    refine ⟨?_, Lexer_advance_tokOk l la hadv⟩
    show strOk m = true
    rw [← hm]
    exact hl
  | keyword s => rw [htok] at h; simp at h
  | delimiter d => rw [htok] at h; simp at h
  | id s => rw [htok] at h; simp at h
  | endTok => rw [htok] at h; simp at h

theorem parse_expression_sound (l : Lexer) (e : Expression) (l' : Lexer)
    (hl : tokOk l.token) (h : parse_expression l = some (e, l')) :
    exprOk e = true ∧ tokOk l'.token := by
  unfold parse_expression at h
  cases htok : l.token with
  | intConstant n =>
    rw [htok] at h
    simp only [Option.map_eq_some'] at h
    obtain ⟨⟨cc, la⟩, hpc, hpair⟩ := h
    cases hpair
    obtain ⟨h1, h2⟩ := parse_constant_sound l cc la hl hpc
    exact ⟨h1, h2⟩
  | stringConstant s =>
    rw [htok] at h
    simp only [Option.map_eq_some'] at h
    obtain ⟨⟨cc, la⟩, hpc, hpair⟩ := h
    cases hpair
    obtain ⟨h1, h2⟩ := parse_constant_sound l cc la hl hpc
    exact ⟨h1, h2⟩
  | id s =>
    rw [htok] at h
    simp only [Option.map_eq_some'] at h
    obtain ⟨⟨f, la⟩, hid, hpair⟩ := h
    cases hpair
    obtain ⟨htok2, hadv⟩ := eat_id_sound l f la hid
    rw [htok] at htok2 hl
    injection htok2 with hm
    refine ⟨?_, Lexer_advance_tokOk l la hadv⟩
    show idOk f = true
    rw [← hm]
    exact hl
  | keyword s => rw [htok] at h; simp at h
  | delimiter d => rw [htok] at h; simp at h
  | endTok => rw [htok] at h; simp at h

theorem parse_equal_term_sound (l : Lexer) (t : EqualTerm) (l' : Lexer)
    (hl : tokOk l.token) (h : parse_equal_term l = some (t, l')) :
    termOk (.equal t) = true ∧ tokOk l'.token := by
  unfold parse_equal_term at h
  cases h1 : parse_expression l with
  | none => rw [h1] at h; simp at h
  | some r1 =>
    obtain ⟨lhs, l1⟩ := r1
    rw [h1] at h
    simp only [Option.bind_eq_bind, Option.some_bind] at h
    obtain ⟨hok1, htok1⟩ := parse_expression_sound l lhs l1 hl h1
    cases h2 : l1.eat_exact (.delimiter '=') with
    | none => rw [h2] at h; simp at h
    | some l2 =>
      rw [h2] at h
      simp only [Option.bind_eq_bind, Option.some_bind] at h
      obtain ⟨_, hadv2⟩ := eat_exact_sound l1 _ l2 h2
      have htok2 : tokOk l2.token := Lexer_advance_tokOk l1 l2 hadv2
      cases h3 : parse_expression l2 with
      | none => rw [h3] at h; simp at h
      | some r3 =>
        obtain ⟨rhs, l3⟩ := r3
        rw [h3] at h
        simp only [Option.bind_eq_bind, Option.some_bind, Option.some.injEq, Prod.mk.injEq] at h
        obtain ⟨hok3, htok3⟩ := parse_expression_sound l2 rhs l3 htok2 h3
        obtain ⟨ht, hl'⟩ := h
        rw [← ht, ← hl']
        refine ⟨?_, htok3⟩
        simp only [termOk, Bool.and_eq_true]
        exact ⟨hok1, hok3⟩

theorem parsePredicateLoop_sound (fuel : Nat) :
    ∀ (l : Lexer) acc ts (l' : Lexer), tokOk l.token →
      (∀ u ∈ acc, termOk u = true) →
      parsePredicateLoop fuel l acc = some (ts, l') →
      (∀ u ∈ ts, termOk u = true) ∧ tokOk l'.token := by
  induction fuel with
  | zero => intro l acc ts l' _ _ h; simp [parsePredicateLoop] at h
  | succ f ih =>
    intro l acc ts l' hl hacc h
    simp only [parsePredicateLoop] at h
    by_cases hm : l.is_matched (.keyword "and".toList)
    · rw [if_pos hm] at h
      cases h1 : l.eat_exact (.keyword "and".toList) with
      | none => rw [h1] at h; simp at h
      | some l1 =>
        rw [h1] at h
        simp only [Option.bind_eq_bind, Option.some_bind] at h
        obtain ⟨_, hadv1⟩ := eat_exact_sound l _ l1 h1
        have htok1 : tokOk l1.token := Lexer_advance_tokOk l l1 hadv1
        cases h2 : parse_equal_term l1 with
        | none => rw [h2] at h; simp at h
        | some r2 =>
          obtain ⟨t2, l2⟩ := r2
          rw [h2] at h
          simp only [Option.bind_eq_bind, Option.some_bind] at h
          obtain ⟨hok2, htok2⟩ := parse_equal_term_sound l1 t2 l2 htok1 h2
          refine ih l2 (acc ++ [.equal t2]) ts l' htok2 ?_ h
          intro u hu
          rcases List.mem_append.mp hu with hu | hu
          · exact hacc u hu
          · rw [List.mem_singleton] at hu
            rw [hu]
            exact hok2
    · rw [if_neg hm] at h
      simp only [Option.some.injEq, Prod.mk.injEq] at h
      obtain ⟨hts, hl'⟩ := h
      rw [← hts, ← hl']
      exact ⟨hacc, hl⟩

theorem parse_predicate_sound (l : Lexer) (p : ProductPredicate) (l' : Lexer)
    (hl : tokOk l.token) (h : parse_predicate l = some (p, l')) :
    (∀ u ∈ p.terms, termOk u = true) ∧ tokOk l'.token := by
  unfold parse_predicate at h
  cases h1 : parse_equal_term l with
  | none => rw [h1] at h; simp at h
  | some r1 =>
    obtain ⟨t1, l1⟩ := r1
    rw [h1] at h
    simp only [Option.bind_eq_bind, Option.some_bind] at h
    obtain ⟨hok1, htok1⟩ := parse_equal_term_sound l t1 l1 hl h1
    cases h2 : parsePredicateLoop (l1.rest.length + 1) l1 [.equal t1] with
    | none => rw [h2] at h; simp at h
    | some r2 =>
      obtain ⟨ts, l2⟩ := r2
      rw [h2] at h
      simp only [Option.bind_eq_bind, Option.some_bind, Option.some.injEq, Prod.mk.injEq] at h
      obtain ⟨hp, hl'⟩ := h
      obtain ⟨hts, htok2⟩ := parsePredicateLoop_sound _ l1 [.equal t1] ts l2 htok1
        (by intro u hu; rw [List.mem_singleton] at hu; rw [hu]; exact hok1) h2
      rw [← hp, ← hl']
      exact ⟨hts, htok2⟩

theorem parseIdListLoop_sound (fuel : Nat) :
    ∀ (l : Lexer) acc fs (l' : Lexer), tokOk l.token →
      (∀ f ∈ acc, idOk f = true) → acc ≠ [] →
      parseIdListLoop fuel l acc = some (fs, l') →
      (∀ f ∈ fs, idOk f = true) ∧ fs ≠ [] ∧ tokOk l'.token := by
  induction fuel with
  | zero => intro l acc fs l' _ _ _ h; simp [parseIdListLoop] at h
  | succ f ih =>
    intro l acc fs l' hl hacc hne h
    simp only [parseIdListLoop] at h
    by_cases hm : l.is_matched (.delimiter ',')
    · rw [if_pos hm] at h
      cases h1 : l.eat_exact (.delimiter ',') with
      | none => rw [h1] at h; simp at h
      | some l1 =>
        rw [h1] at h
        simp only [Option.bind_eq_bind, Option.some_bind] at h
        obtain ⟨_, hadv1⟩ := eat_exact_sound l _ l1 h1
        have htok1 : tokOk l1.token := Lexer_advance_tokOk l l1 hadv1
        cases h2 : l1.eat_id with
        | none => rw [h2] at h; simp at h
        | some r2 =>
          obtain ⟨s2, l2⟩ := r2
          rw [h2] at h
          simp only [Option.bind_eq_bind, Option.some_bind] at h
          obtain ⟨htok2eq, hadv2⟩ := eat_id_sound l1 s2 l2 h2
          have hid2 : idOk s2 = true := by
            have := htok1
            rw [htok2eq] at this
            exact this
          refine ih l2 (acc ++ [s2]) fs l' (Lexer_advance_tokOk l1 l2 hadv2) ?_
            (by simp) h
          intro u hu
          rcases List.mem_append.mp hu with hu | hu
          · exact hacc u hu
          · rw [List.mem_singleton] at hu
            rw [hu]
            exact hid2
    · rw [if_neg hm] at h
      simp only [Option.some.injEq, Prod.mk.injEq] at h
      obtain ⟨hts, hl'⟩ := h
      rw [← hts, ← hl']
      exact ⟨hacc, hne, hl⟩

theorem parse_id_list_sound (l : Lexer) (fs : List (List Char)) (l' : Lexer)
    (hl : tokOk l.token) (h : parse_id_list l = some (fs, l')) :
    (∀ f ∈ fs, idOk f = true) ∧ fs ≠ [] ∧ tokOk l'.token := by
  unfold parse_id_list at h
  cases h1 : l.eat_id with
  | none => rw [h1] at h; simp at h
  | some r1 =>
    obtain ⟨f1, l1⟩ := r1
    rw [h1] at h
    simp only [Option.bind_eq_bind, Option.some_bind] at h
    obtain ⟨htok1eq, hadv1⟩ := eat_id_sound l f1 l1 h1
    have hid1 : idOk f1 = true := by
      have := hl
      rw [htok1eq] at this
      exact this
    exact parseIdListLoop_sound _ l1 [f1] fs l' (Lexer_advance_tokOk l l1 hadv1)
      (by intro u hu; rw [List.mem_singleton] at hu; rw [hu]; exact hid1)
      (by simp) h

theorem parse_query_sound (l : Lexer) (q : QueryData) (l' : Lexer)
    (h : parse_query l = some (q, l')) :
    queryWF q = true := by
  unfold parse_query at h
  cases h1 : l.eat_exact (.keyword "select".toList) with
  | none => rw [h1] at h; simp at h
  | some l1 =>
    rw [h1] at h
    simp only [Option.bind_eq_bind, Option.some_bind] at h
    obtain ⟨_, hadv1⟩ := eat_exact_sound l _ l1 h1
    have htok1 : tokOk l1.token := Lexer_advance_tokOk l l1 hadv1
    cases h2 : parse_id_list l1 with
    | none => rw [h2] at h; simp at h
    | some r2 =>
      obtain ⟨fields, l2⟩ := r2
      rw [h2] at h
      simp only [Option.bind_eq_bind, Option.some_bind] at h
      obtain ⟨hfok, hfne, htok2⟩ := parse_id_list_sound l1 fields l2 htok1 h2
      cases h3 : l2.eat_exact (.keyword "from".toList) with
      | none => rw [h3] at h; simp at h
      | some l3 =>
        rw [h3] at h
        simp only [Option.bind_eq_bind, Option.some_bind] at h
        obtain ⟨_, hadv3⟩ := eat_exact_sound l2 _ l3 h3
        have htok3 : tokOk l3.token := Lexer_advance_tokOk l2 l3 hadv3
        cases h4 : parse_id_list l3 with
        | none => rw [h4] at h; simp at h
        | some r4 =>
          obtain ⟨tables, l4⟩ := r4
          rw [h4] at h
          simp only [Option.bind_eq_bind, Option.some_bind] at h
          obtain ⟨htok, hfne2, htok4⟩ := parse_id_list_sound l3 tables l4 htok3 h4
          have hwfparts : ∀ fs ts' (hfs : ∀ f ∈ fs, idOk f = true) (hfs2 : fs ≠ [])
              (hts : ∀ f ∈ ts', idOk f = true) (hts2 : ts' ≠ [])
              (tms : List Term) (htms : ∀ u ∈ tms, termOk u = true),
              queryWF ⟨fs, ts', ⟨tms⟩⟩ = true := by
            intro fs ts' hfs hfs2 hts hts2 tms htms
            simp only [queryWF, Bool.and_eq_true, Bool.not_eq_true',
              List.isEmpty_eq_false, List.all_eq_true]
            exact ⟨⟨⟨⟨hfs2, hfs⟩, hts2⟩, hts⟩, htms⟩
          by_cases hm : l4.is_matched (.keyword "where".toList)
          · rw [if_pos hm] at h
            cases h5 : l4.eat_exact (.keyword "where".toList) with
            | none => rw [h5] at h; simp at h
            | some l5 =>
              rw [h5] at h
              simp only [Option.bind_eq_bind, Option.some_bind] at h
              obtain ⟨_, hadv5⟩ := eat_exact_sound l4 _ l5 h5
              have htok5 : tokOk l5.token := Lexer_advance_tokOk l4 l5 hadv5
              cases h6 : parse_predicate l5 with
              | none => rw [h6] at h; simp at h
              | some r6 =>
                obtain ⟨pred, l6⟩ := r6
                rw [h6] at h
                simp only [Option.bind_eq_bind, Option.some_bind, Option.some.injEq, Prod.mk.injEq] at h
                obtain ⟨hpok, _⟩ := parse_predicate_sound l5 pred l6 htok5 h6
                rw [← h.1]
                exact hwfparts fields tables hfok hfne htok hfne2 pred.terms hpok
          · rw [if_neg hm] at h
            simp only [Option.some.injEq, Prod.mk.injEq] at h
            rw [← h.1]
            exact hwfparts fields tables hfok hfne htok hfne2 []
              (by intro u hu; simp at hu)

theorem parse_sound (input : List Char) (q : QueryData)
    (h : parseQueryStr input = some q) : queryWF q = true := by
  unfold parseQueryStr at h
  cases h1 : Lexer.new input with
  | none => rw [h1] at h; simp at h
  | some l =>
    rw [h1] at h
    simp only [Option.bind_eq_bind, Option.some_bind] at h
    cases h2 : parse_query l with
    | none => rw [h2] at h; simp at h
    | some r2 =>
      obtain ⟨q2, l2⟩ := r2
      rw [h2] at h
      simp only [Option.bind_eq_bind, Option.some_bind, Option.some.injEq] at h
      rw [← h]
      exact parse_query_sound l q2 l2 h2

theorem joinComma_commaTail (fs : List (List Char)) :
    ∀ (f : List Char) (tail : List Char),
      joinCommaSpace (f :: fs) ++ tail = f ++ commaTail fs tail := by
  induction fs with
  | nil => intro f tail; rfl
  | cons g gs ih =>
    intro f tail
    show (f ++ ", ".toList ++ joinCommaSpace (g :: gs)) ++ tail = _
    rw [List.append_assoc, List.append_assoc, ih g]
    rfl

theorem joinAnd_andTail (ts : List Term) :
    ∀ (t : Term) (tail : List Char),
      joinAnd (t :: ts) ++ tail = t.display ++ andTail ts tail := by
  induction ts with
  | nil => intro t tail; rfl
  | cons u us ih =>
    intro t tail
    show (t.display ++ " and ".toList ++ joinAnd (u :: us)) ++ tail = _
    rw [List.append_assoc, List.append_assoc, ih u]
    rfl

theorem sepHead_commaTail (fs : List (List Char)) (tail : List Char)
    (h : sepHead tail = true) : sepHead (commaTail fs tail) = true := by
  cases fs with
  | nil => exact h
  | cons g gs => rfl

theorem sepHead_andTail (ts : List Term) (tail : List Char)
    (h : sepHead tail = true) : sepHead (andTail ts tail) = true := by
  cases ts with
  | nil => exact h
  | cons u us => rfl

theorem commaTail_len (fs : List (List Char)) :
    ∀ tail, fs.length ≤ (commaTail fs tail).length := by
  induction fs with
  | nil => intro tail; simp
  | cons g gs ih =>
    intro tail
    show gs.length + 1 ≤ (',' :: ' ' :: (g ++ commaTail gs tail)).length
    have := ih tail
    simp only [List.length_cons, List.length_append]
    omega

theorem andTail_len (ts : List Term) :
    ∀ tail, ts.length ≤ (andTail ts tail).length := by
  induction ts with
  | nil => intro tail; simp
  | cons u us ih =>
    intro tail
    show us.length + 1
        ≤ (' ' :: 'a' :: 'n' :: 'd' :: ' ' :: (u.display ++ andTail us tail)).length
    have := ih tail
    simp only [List.length_cons, List.length_append]
    omega

theorem read_token_andTail_cons (u : Term) (us : List Term) (tail : List Char) :
    read_token (andTail (u :: us) tail)
      = some (.keyword "and".toList, ' ' :: (u.display ++ andTail us tail)) := by
  show read_token
      (' ' :: ('a' :: 'n' :: 'd' :: ' ' :: (u.display ++ andTail us tail))) = _
  rw [read_token_space]
  rw [show ('a' :: 'n' :: 'd' :: ' ' :: (u.display ++ andTail us tail))
      = ('a' :: ['n', 'd']) ++ (' ' :: (u.display ++ andTail us tail)) from rfl,
    read_token_word 'a' ['n', 'd'] (' ' :: (u.display ++ andTail us tail))
      (by decide) (by decide) (by rfl),
    if_pos (by decide)]
  rfl

theorem equalTerm_display_ne_nil (et : EqualTerm) : EqualTerm.display et ≠ [] := by
  intro hcon
  have := congrArg List.length hcon
  simp only [EqualTerm.display, List.length_append, List.length_nil] at this
  rw [show (" = ".toList).length = 3 from rfl] at this
  omega

theorem joinAnd_cons_ne_nil (u : Term) (us : List Term) : joinAnd (u :: us) ≠ [] := by
  obtain ⟨et⟩ := u
  cases us with
  | nil => exact equalTerm_display_ne_nil et
  | cons v vs =>
    intro hcon
    have := congrArg List.length hcon
    simp only [joinAnd, Term.display, List.length_append, List.length_nil] at this
    have h3 := equalTerm_display_ne_nil et
    have : (EqualTerm.display et).length = 0 := by omega
    rw [List.length_eq_zero] at this
    exact h3 this

theorem idOk_parts (f : List Char) (h : idOk f = true) :
    ∃ c cs, f = c :: cs ∧ (rsAlphabetic c || c = '_') = true
      ∧ (∀ x ∈ cs, rsAlphanumeric x = true) ∧ (c :: cs) ∉ KEYWORDS := by
  cases f with
  | nil => simp [idOk] at h
  | cons c cs =>
    simp only [idOk, Bool.and_eq_true, decide_eq_true_eq, List.all_eq_true] at h
    exact ⟨c, cs, rfl, h.1.1, h.1.2, h.2⟩

theorem read_token_id (f tail : List Char) (hf : idOk f = true)
    (hsep : sepHead tail = true) :
    read_token (f ++ tail) = some (.id f, tail) := by
  obtain ⟨c, cs, rfl, h1, h2, h3⟩ := idOk_parts f hf
  rw [read_token_word c cs tail h1 h2 hsep, if_neg h3]

theorem parse_expression_print (e : Expression) (tail : List Char) (t : Token)
    (rt : List Char) (he : exprOk e = true)
    (hrt : read_token tail = some (t, rt)) (hsep : sepHead tail = true) :
    ∀ l : Lexer, read_token (e.display ++ tail) = some (l.token, l.rest) →
      parse_expression l = some (e, ⟨t, rt⟩) := by
  intro l hl
  obtain ⟨ltok, lrest⟩ := l
  cases e with
  | field f =>
    rw [show Expression.display (.field f) = f from rfl,
      read_token_id f tail he hsep] at hl
    simp only [Option.some.injEq, Prod.mk.injEq] at hl
    obtain ⟨h1, h2⟩ := hl
    subst h1
    subst h2
    unfold parse_expression Lexer.eat_id Lexer.advance
    dsimp only
    rw [hrt]
    rfl
  | constant cc =>
    cases cc with
    | int n =>
      have he' : 0 ≤ n ∧ n < 2 ^ 31 := by
        simpa only [exprOk, constOk, decide_eq_true_eq] using he
      rw [show Expression.display (.constant (.int n)) = intDisplay n from rfl,
        intDisplay, if_neg (by omega), read_token_int n.toNat tail (by omega) hsep,
        Int.toNat_of_nonneg he'.1] at hl
      simp only [Option.some.injEq, Prod.mk.injEq] at hl
      obtain ⟨h1, h2⟩ := hl
      subst h1
      subst h2
      unfold parse_expression parse_constant Lexer.eat_int_constant Lexer.advance
      dsimp only
      rw [hrt]
      rfl
    | string s =>
      have he' : strOk s = true := he
      rw [show Expression.display (.constant (.string s)) ++ tail
          = '\'' :: (s ++ ('\'' :: tail)) from by
            show ('\'' :: (s ++ ['\''])) ++ tail = _
            simp,
        read_token_str s tail he'] at hl
      simp only [Option.some.injEq, Prod.mk.injEq] at hl
      obtain ⟨h1, h2⟩ := hl
      subst h1
      subst h2
      unfold parse_expression parse_constant Lexer.eat_string_constant Lexer.advance
      dsimp only
      rw [hrt]
      rfl

theorem read_token_expr_some (e : Expression) (tail : List Char)
    (he : exprOk e = true) (hsep : sepHead tail = true) :
    ∃ p, read_token (e.display ++ tail) = some p := by
  cases e with
  | field f => exact ⟨(.id f, tail), read_token_id f tail he hsep⟩
  | constant cc =>
    cases cc with
    | int n =>
      have he' : 0 ≤ n ∧ n < 2 ^ 31 := by
        simpa only [exprOk, constOk, decide_eq_true_eq] using he
      refine ⟨(.intConstant ((n.toNat : Nat) : Int), tail), ?_⟩
      rw [show Expression.display (.constant (.int n)) = intDisplay n from rfl,
        intDisplay, if_neg (by omega)]
      exact read_token_int n.toNat tail (by omega) hsep
    | string s =>
      refine ⟨(.stringConstant s, tail), ?_⟩
      rw [show Expression.display (.constant (.string s)) ++ tail
          = '\'' :: (s ++ ('\'' :: tail)) from by
            show ('\'' :: (s ++ ['\''])) ++ tail = _
            simp]
      exact read_token_str s tail he

theorem parse_equal_term_print (et : EqualTerm) (tail : List Char) (t : Token)
    (rt : List Char) (he : termOk (.equal et) = true)
    (hrt : read_token tail = some (t, rt)) (hsep : sepHead tail = true) :
    ∀ l : Lexer, read_token (EqualTerm.display et ++ tail) = some (l.token, l.rest) →
      parse_equal_term l = some (et, ⟨t, rt⟩) := by
  intro l hl
  obtain ⟨lhs, rhs⟩ := et
  have hok : exprOk lhs = true ∧ exprOk rhs = true := by
    simpa only [termOk, Bool.and_eq_true] using he
  have hshape : EqualTerm.display ⟨lhs, rhs⟩ ++ tail
      = lhs.display ++ (' ' :: '=' :: ' ' :: (rhs.display ++ tail)) := by
    show (lhs.display ++ " = ".toList ++ rhs.display) ++ tail = _
    rw [show " = ".toList = [' ', '=', ' '] from rfl]
    simp
  rw [hshape] at hl
  have hmid : read_token (' ' :: '=' :: ' ' :: (rhs.display ++ tail))
      = some (.delimiter '=', ' ' :: (rhs.display ++ tail)) := by
    rw [read_token_space]
    exact read_token_delim '=' _ (by decide) (by decide) (by decide) (by decide)
      (by decide)
  have hpe := parse_expression_print lhs _ _ _ hok.1 hmid (by rfl) l hl
  unfold parse_equal_term
  rw [hpe]
  simp only [Option.bind_eq_bind, Option.some_bind]
  unfold Lexer.eat_exact
  rw [if_pos rfl]
  unfold Lexer.advance
  dsimp only
  rw [read_token_space]
  obtain ⟨⟨tok2, rest2⟩, hread2⟩ := read_token_expr_some rhs tail hok.2 hsep
  rw [hread2]
  simp only [Option.map_some', Option.bind_eq_bind, Option.some_bind]
  rw [parse_expression_print rhs tail t rt hok.2 hrt hsep ⟨tok2, rest2⟩ hread2]
  simp only [Option.bind_eq_bind, Option.some_bind]

theorem read_token_term_some (et : EqualTerm) (y : List Char)
    (hok : termOk (.equal et) = true) :
    ∃ p, read_token (EqualTerm.display et ++ y) = some p := by
  obtain ⟨lhs, rhs⟩ := et
  have hok' : exprOk lhs = true ∧ exprOk rhs = true := by
    simpa only [termOk, Bool.and_eq_true] using hok
  have hshape : EqualTerm.display ⟨lhs, rhs⟩ ++ y
      = lhs.display ++ (' ' :: '=' :: ' ' :: (rhs.display ++ y)) := by
    show (lhs.display ++ " = ".toList ++ rhs.display) ++ y = _
    rw [show " = ".toList = [' ', '=', ' '] from rfl]
    simp
  rw [hshape]
  have hmid : read_token (' ' :: '=' :: ' ' :: (rhs.display ++ y))
      = some (.delimiter '=', ' ' :: (rhs.display ++ y)) := by
    rw [read_token_space]
    exact read_token_delim '=' _ (by decide) (by decide) (by decide) (by decide)
      (by decide)
  exact read_token_expr_some lhs _ hok'.1 (by rfl)

theorem parseIdListLoop_print (tail : List Char) (t : Token) (rt : List Char)
    (hrt : read_token tail = some (t, rt)) (hnc : ¬ t = .delimiter ',')
    (hsep : sepHead tail = true) :
    ∀ (fs : List (List Char)), (∀ f ∈ fs, idOk f = true) →
    ∀ (acc : List (List Char)) (fuel : Nat) (l : Lexer),
      fs.length + 1 ≤ fuel →
      read_token (commaTail fs tail) = some (l.token, l.rest) →
      parseIdListLoop fuel l acc = some (acc ++ fs, ⟨t, rt⟩) := by
  intro fs
  induction fs with
  | nil =>
    intro _ acc fuel l hfuel hl
    obtain ⟨ltok, lrest⟩ := l
    rw [show commaTail [] tail = tail from rfl, hrt] at hl
    simp only [Option.some.injEq, Prod.mk.injEq] at hl
    obtain ⟨h1, h2⟩ := hl
    subst h1
    subst h2
    cases fuel with
    | zero => omega
    | succ f =>
      simp only [parseIdListLoop]
      rw [if_neg (by simp only [Lexer.is_matched, decide_eq_true_eq]; exact hnc)]
      simp
  | cons g gs ih =>
    intro hall acc fuel l hfuel hl
    obtain ⟨ltok, lrest⟩ := l
    rw [show commaTail (g :: gs) tail = ',' :: (' ' :: (g ++ commaTail gs tail))
        from rfl,
      read_token_delim ',' _ (by decide) (by decide) (by decide) (by decide)
        (by decide)] at hl
    simp only [Option.some.injEq, Prod.mk.injEq] at hl
    obtain ⟨h1, h2⟩ := hl
    subst h1
    subst h2
    cases fuel with
    | zero =>
      simp only [List.length_cons] at hfuel
      omega
    | succ f =>
      simp only [parseIdListLoop]
      rw [if_pos (by simp [Lexer.is_matched])]
      unfold Lexer.eat_exact
      rw [if_pos rfl]
      unfold Lexer.advance
      dsimp only
      rw [read_token_space, read_token_id g (commaTail gs tail) (hall g (by simp))
        (sepHead_commaTail gs tail hsep)]
      simp only [Option.map_some', Option.bind_eq_bind, Option.some_bind]
      unfold Lexer.eat_id Lexer.advance
      dsimp only
      obtain ⟨⟨tok2, rest2⟩, hread2⟩ : ∃ p, read_token (commaTail gs tail) = some p := by
        cases gs with
        | nil => exact ⟨(t, rt), hrt⟩
        | cons gp gsp =>
          exact ⟨(.delimiter ',', ' ' :: (gp ++ commaTail gsp tail)),
            read_token_delim ',' _ (by decide) (by decide) (by decide) (by decide)
              (by decide)⟩
      rw [hread2]
      simp only [Option.map_some', Option.bind_eq_bind, Option.some_bind]
      rw [ih (fun x hx => hall x (by simp [hx])) (acc ++ [g]) f ⟨tok2, rest2⟩
        (by simp only [List.length_cons] at hfuel ⊢; omega) hread2]
      simp

theorem parse_id_list_print (fs : List (List Char)) (tail : List Char) (t : Token)
    (rt : List Char) (hne : fs ≠ []) (hall : ∀ f ∈ fs, idOk f = true)
    (hrt : read_token tail = some (t, rt)) (hnc : ¬ t = .delimiter ',')
    (hsep : sepHead tail = true) :
    ∀ l : Lexer, read_token (joinCommaSpace fs ++ tail) = some (l.token, l.rest) →
      parse_id_list l = some (fs, ⟨t, rt⟩) := by
  intro l hl
  obtain ⟨ltok, lrest⟩ := l
  cases fs with
  | nil => exact absurd rfl hne
  | cons f fsp =>
    rw [joinComma_commaTail fsp f tail,
      read_token_id f (commaTail fsp tail) (hall f (by simp))
        (sepHead_commaTail fsp tail hsep)] at hl
    simp only [Option.some.injEq, Prod.mk.injEq] at hl
    obtain ⟨h1, h2⟩ := hl
    subst h1
    subst h2
    unfold parse_id_list Lexer.eat_id Lexer.advance
    dsimp only
    obtain ⟨⟨tok2, rest2⟩, hread2⟩ : ∃ p, read_token (commaTail fsp tail) = some p := by
      cases fsp with
      | nil => exact ⟨(t, rt), hrt⟩
      | cons gp gsp =>
        exact ⟨(.delimiter ',', ' ' :: (gp ++ commaTail gsp tail)),
          read_token_delim ',' _ (by decide) (by decide) (by decide) (by decide)
            (by decide)⟩
    rw [hread2]
    simp only [Option.map_some', Option.bind_eq_bind, Option.some_bind]
    have hfuel : fsp.length + 1 ≤ rest2.length + 1 := by
      cases fsp with
      | nil => simp
      | cons gp gsp =>
        have hconc := read_token_delim ',' (' ' :: (gp ++ commaTail gsp tail))
          (by decide) (by decide) (by decide) (by decide) (by decide)
        rw [show commaTail (gp :: gsp) tail
            = ',' :: (' ' :: (gp ++ commaTail gsp tail)) from rfl, hconc] at hread2
        simp only [Option.some.injEq, Prod.mk.injEq] at hread2
        rw [← hread2.2]
        have := commaTail_len gsp tail
        simp only [List.length_cons, List.length_append]
        omega
    rw [parseIdListLoop_print tail t rt hrt hnc hsep fsp
      (fun x hx => hall x (by simp [hx])) [f] (rest2.length + 1) ⟨tok2, rest2⟩
      hfuel hread2]
    rfl

theorem parsePredicateLoop_print (tail : List Char) (t : Token) (rt : List Char)
    (hrt : read_token tail = some (t, rt)) (hnand : ¬ t = .keyword "and".toList)
    (hsep : sepHead tail = true) :
    ∀ (us : List Term), (∀ u ∈ us, termOk u = true) →
    ∀ (acc : List Term) (fuel : Nat) (l : Lexer),
      us.length + 1 ≤ fuel →
      read_token (andTail us tail) = some (l.token, l.rest) →
      parsePredicateLoop fuel l acc = some (acc ++ us, ⟨t, rt⟩) := by
  intro us
  induction us with
  | nil =>
    intro _ acc fuel l hfuel hl
    obtain ⟨ltok, lrest⟩ := l
    rw [show andTail [] tail = tail from rfl, hrt] at hl
    simp only [Option.some.injEq, Prod.mk.injEq] at hl
    obtain ⟨h1, h2⟩ := hl
    subst h1
    subst h2
    cases fuel with
    | zero => omega
    | succ f =>
      simp only [parsePredicateLoop]
      rw [if_neg (by simp only [Lexer.is_matched, decide_eq_true_eq]; exact hnand)]
      simp
  | cons u us ih =>
    intro hall acc fuel l hfuel hl
    obtain ⟨ltok, lrest⟩ := l
    rw [read_token_andTail_cons u us tail] at hl
    simp only [Option.some.injEq, Prod.mk.injEq] at hl
    obtain ⟨h1, h2⟩ := hl
    subst h1
    subst h2
    cases fuel with
    | zero =>
      simp only [List.length_cons] at hfuel
      omega
    | succ f =>
      obtain ⟨et, rfl⟩ : ∃ et, u = .equal et := by
        cases u with
        | equal et => exact ⟨et, rfl⟩
      simp only [parsePredicateLoop]
      rw [if_pos (by simp [Lexer.is_matched])]
      unfold Lexer.eat_exact
      rw [if_pos rfl]
      unfold Lexer.advance
      dsimp only
      rw [read_token_space]
      obtain ⟨⟨t1, rt1⟩, hand⟩ : ∃ p, read_token (andTail us tail) = some p := by
        cases us with
        | nil => exact ⟨(t, rt), hrt⟩
        | cons up usp => exact ⟨_, read_token_andTail_cons up usp tail⟩
      have hsep' : sepHead (andTail us tail) = true := sepHead_andTail us tail hsep
      obtain ⟨⟨tok2, rest2⟩, hread2⟩ : ∃ p,
          read_token (EqualTerm.display et ++ andTail us tail) = some p :=
        read_token_term_some et _ (hall _ (by simp))
      rw [show Term.display (.equal et) = EqualTerm.display et from rfl, hread2]
      simp only [Option.map_some', Option.bind_eq_bind, Option.some_bind]
      rw [parse_equal_term_print et (andTail us tail) t1 rt1 (hall _ (by simp)) hand
        hsep' ⟨tok2, rest2⟩ hread2]
      simp only [Option.bind_eq_bind, Option.some_bind]
      rw [ih (fun x hx => hall x (by simp [hx])) (acc ++ [Term.equal et]) f ⟨t1, rt1⟩
        (by simp only [List.length_cons] at hfuel ⊢; omega) hand]
      simp

theorem parse_predicate_print (ts : List Term) (tail : List Char) (t : Token)
    (rt : List Char) (hne : ts ≠ []) (hall : ∀ u ∈ ts, termOk u = true)
    (hrt : read_token tail = some (t, rt)) (hnand : ¬ t = .keyword "and".toList)
    (hsep : sepHead tail = true) :
    ∀ l : Lexer, read_token (joinAnd ts ++ tail) = some (l.token, l.rest) →
      parse_predicate l = some (⟨ts⟩, ⟨t, rt⟩) := by
  intro l hl
  cases ts with
  | nil => exact absurd rfl hne
  | cons u us =>
    obtain ⟨et, rfl⟩ : ∃ et, u = .equal et := by
      cases u with
      | equal et => exact ⟨et, rfl⟩
    rw [joinAnd_andTail us _ tail,
      show Term.display (.equal et) = EqualTerm.display et from rfl] at hl
    obtain ⟨⟨t1, rt1⟩, hand⟩ : ∃ p, read_token (andTail us tail) = some p := by
      cases us with
      | nil => exact ⟨(t, rt), hrt⟩
      | cons up usp => exact ⟨_, read_token_andTail_cons up usp tail⟩
    have hsep' : sepHead (andTail us tail) = true := sepHead_andTail us tail hsep
    unfold parse_predicate
    rw [parse_equal_term_print et (andTail us tail) t1 rt1 (hall _ (by simp)) hand
      hsep' l hl]
    simp only [Option.bind_eq_bind, Option.some_bind]
    have hfuel : us.length + 1 ≤ rt1.length + 1 := by
      cases us with
      | nil => simp
      | cons up usp =>
        have hconc := read_token_andTail_cons up usp tail
        rw [hconc] at hand
        simp only [Option.some.injEq, Prod.mk.injEq] at hand
        rw [← hand.2]
        have := andTail_len usp tail
        simp only [List.length_cons, List.length_append]
        omega
    rw [parsePredicateLoop_print tail t rt hrt hnand hsep us
      (fun x hx => hall x (by simp [hx])) [Term.equal et] (rt1.length + 1)
      ⟨t1, rt1⟩ hfuel hand]
    rfl

theorem parse_print (q : QueryData) (hwf : queryWF q = true) :
    parseQueryStr q.display = some q := by
  obtain ⟨fields, tables, pred⟩ := q
  obtain ⟨terms⟩ := pred
  simp only [queryWF, Bool.and_eq_true, Bool.not_eq_true', List.isEmpty_eq_false,
    List.all_eq_true] at hwf
  obtain ⟨⟨⟨⟨hfne, hfok⟩, htne⟩, htok⟩, htermok⟩ := hwf
  cases terms with
  | nil =>
    have htext : QueryData.display ⟨fields, tables, ⟨[]⟩⟩
        = ('s' :: ['e', 'l', 'e', 'c', 't'])
          ++ (' ' :: (joinCommaSpace fields
            ++ (' ' :: 'f' :: 'r' :: 'o' :: 'm' :: ' ' :: joinCommaSpace tables))) := by
      show "select ".toList ++ joinCommaSpace fields ++ " from ".toList
          ++ joinCommaSpace tables ++ [] = _
      simp only [List.append_assoc, List.append_nil]
      rfl
    have hsel : read_token (QueryData.display ⟨fields, tables, ⟨[]⟩⟩)
        = some (.keyword "select".toList,
            ' ' :: (joinCommaSpace fields
              ++ (' ' :: 'f' :: 'r' :: 'o' :: 'm' :: ' ' :: joinCommaSpace tables))) := by
      rw [htext, read_token_word 's' ['e', 'l', 'e', 'c', 't'] _ (by decide)
        (by decide) (by rfl), if_pos (by decide)]
      rfl
    have hfrom : read_token
        (' ' :: 'f' :: 'r' :: 'o' :: 'm' :: ' ' :: joinCommaSpace tables)
        = some (.keyword "from".toList, ' ' :: joinCommaSpace tables) := by
      show read_token (' ' :: (('f' :: ['r', 'o', 'm'])
          ++ (' ' :: joinCommaSpace tables))) = _
      rw [read_token_space, read_token_word 'f' ['r', 'o', 'm'] _ (by decide)
        (by decide) (by rfl), if_pos (by decide)]
      rfl
    obtain ⟨⟨tokF, restF⟩, hreadF⟩ : ∃ p, read_token (joinCommaSpace fields
        ++ (' ' :: 'f' :: 'r' :: 'o' :: 'm' :: ' ' :: joinCommaSpace tables))
        = some p := by
      obtain ⟨f, fsp, rfl⟩ : ∃ f fsp, fields = f :: fsp := by
        cases fields with
        | nil => exact absurd rfl hfne
        | cons f fsp => exact ⟨f, fsp, rfl⟩
      rw [joinComma_commaTail]
      exact ⟨(.id f, _), read_token_id f _ (hfok f (by simp))
        (sepHead_commaTail fsp _ rfl)⟩
    obtain ⟨⟨tokT, restT⟩, hreadT⟩ : ∃ p, read_token (joinCommaSpace tables)
        = some p := by
      obtain ⟨f, fsp, rfl⟩ : ∃ f fsp, tables = f :: fsp := by
        cases tables with
        | nil => exact absurd rfl htne
        | cons f fsp => exact ⟨f, fsp, rfl⟩
      rw [show joinCommaSpace (f :: fsp) = joinCommaSpace (f :: fsp) ++ [] from
        (List.append_nil _).symm, joinComma_commaTail]
      exact ⟨(.id f, _), read_token_id f _ (htok f (by simp))
        (sepHead_commaTail fsp _ rfl)⟩
    unfold parseQueryStr Lexer.new
    rw [hsel]
    simp only [Option.map_some', Option.bind_eq_bind, Option.some_bind]
    unfold parse_query Lexer.eat_exact
    rw [if_pos rfl]
    unfold Lexer.advance
    dsimp only
    rw [read_token_space, hreadF]
    simp only [Option.map_some', Option.bind_eq_bind, Option.some_bind]
    rw [parse_id_list_print fields _ (.keyword "from".toList)
      (' ' :: joinCommaSpace tables) hfne hfok hfrom (by simp) rfl
      ⟨tokF, restF⟩ hreadF]
    simp only [Option.bind_eq_bind, Option.some_bind]
    rw [if_pos trivial, read_token_space, hreadT]
    simp only [Option.map_some', Option.bind_eq_bind, Option.some_bind]
    rw [parse_id_list_print tables [] .endTok [] htne htok rfl (by simp) rfl
      ⟨tokT, restT⟩ (by rw [List.append_nil]; exact hreadT)]
    simp only [Option.bind_eq_bind, Option.some_bind]
    rw [if_neg (by simp [Lexer.is_matched])]
    rfl
  | cons u us =>
    have hpne : joinAnd (u :: us) ≠ [] := joinAnd_cons_ne_nil u us
    have htext : QueryData.display ⟨fields, tables, ⟨u :: us⟩⟩
        = ('s' :: ['e', 'l', 'e', 'c', 't'])
          ++ (' ' :: (joinCommaSpace fields
            ++ (' ' :: 'f' :: 'r' :: 'o' :: 'm' :: ' ' :: (joinCommaSpace tables
              ++ (' ' :: 'w' :: 'h' :: 'e' :: 'r' :: 'e' :: ' '
                :: joinAnd (u :: us)))))) := by
      show "select ".toList ++ joinCommaSpace fields ++ " from ".toList
          ++ joinCommaSpace tables
          ++ (let ps := ProductPredicate.display ⟨u :: us⟩
              if ps.isEmpty then [] else " where ".toList ++ ps) = _
      dsimp only
      rw [show ProductPredicate.display ⟨u :: us⟩ = joinAnd (u :: us) from rfl,
        if_neg (fun hc => hpne (List.isEmpty_iff.mp hc))]
      simp only [List.append_assoc]
      rfl
    have hsel : read_token (QueryData.display ⟨fields, tables, ⟨u :: us⟩⟩)
        = some (.keyword "select".toList,
            ' ' :: (joinCommaSpace fields
              ++ (' ' :: 'f' :: 'r' :: 'o' :: 'm' :: ' ' :: (joinCommaSpace tables
                ++ (' ' :: 'w' :: 'h' :: 'e' :: 'r' :: 'e' :: ' '
                  :: joinAnd (u :: us)))))) := by
      rw [htext, read_token_word 's' ['e', 'l', 'e', 'c', 't'] _ (by decide)
        (by decide) (by rfl), if_pos (by decide)]
      rfl
    have hwhere : read_token (' ' :: 'w' :: 'h' :: 'e' :: 'r' :: 'e' :: ' '
        :: joinAnd (u :: us))
        = some (.keyword "where".toList, ' ' :: joinAnd (u :: us)) := by
      show read_token (' ' :: (('w' :: ['h', 'e', 'r', 'e'])
          ++ (' ' :: joinAnd (u :: us)))) = _
      rw [read_token_space, read_token_word 'w' ['h', 'e', 'r', 'e'] _ (by decide)
        (by decide) (by rfl), if_pos (by decide)]
      rfl
    have hfrom : read_token (' ' :: 'f' :: 'r' :: 'o' :: 'm' :: ' '
        :: (joinCommaSpace tables
          ++ (' ' :: 'w' :: 'h' :: 'e' :: 'r' :: 'e' :: ' ' :: joinAnd (u :: us))))
        = some (.keyword "from".toList, ' ' :: (joinCommaSpace tables
            ++ (' ' :: 'w' :: 'h' :: 'e' :: 'r' :: 'e' :: ' '
              :: joinAnd (u :: us)))) := by
      show read_token (' ' :: (('f' :: ['r', 'o', 'm']) ++ (' ' :: (joinCommaSpace
          tables ++ (' ' :: 'w' :: 'h' :: 'e' :: 'r' :: 'e' :: ' '
            :: joinAnd (u :: us)))))) = _
      rw [read_token_space, read_token_word 'f' ['r', 'o', 'm'] _ (by decide)
        (by decide) (by rfl), if_pos (by decide)]
      rfl
    obtain ⟨⟨tokF, restF⟩, hreadF⟩ : ∃ p, read_token (joinCommaSpace fields
        ++ (' ' :: 'f' :: 'r' :: 'o' :: 'm' :: ' ' :: (joinCommaSpace tables
          ++ (' ' :: 'w' :: 'h' :: 'e' :: 'r' :: 'e' :: ' '
            :: joinAnd (u :: us))))) = some p := by
      obtain ⟨f, fsp, rfl⟩ : ∃ f fsp, fields = f :: fsp := by
        cases fields with
        | nil => exact absurd rfl hfne
        | cons f fsp => exact ⟨f, fsp, rfl⟩
      rw [joinComma_commaTail]
      exact ⟨(.id f, _), read_token_id f _ (hfok f (by simp))
        (sepHead_commaTail fsp _ rfl)⟩
    obtain ⟨⟨tokT, restT⟩, hreadT⟩ : ∃ p, read_token (joinCommaSpace tables
        ++ (' ' :: 'w' :: 'h' :: 'e' :: 'r' :: 'e' :: ' ' :: joinAnd (u :: us)))
        = some p := by
      obtain ⟨f, fsp, rfl⟩ : ∃ f fsp, tables = f :: fsp := by
        cases tables with
        | nil => exact absurd rfl htne
        | cons f fsp => exact ⟨f, fsp, rfl⟩
      rw [joinComma_commaTail]
      exact ⟨(.id f, _), read_token_id f _ (htok f (by simp))
        (sepHead_commaTail fsp _ rfl)⟩
    obtain ⟨et, rfl⟩ : ∃ et, u = .equal et := by
      cases u with
      | equal et => exact ⟨et, rfl⟩
    obtain ⟨⟨tokP, restP⟩, hreadP⟩ : ∃ p,
        read_token (joinAnd (Term.equal et :: us) ++ []) = some p := by
      rw [joinAnd_andTail us _ [],
        show Term.display (.equal et) = EqualTerm.display et from rfl]
      exact read_token_term_some et _ (htermok _ (by simp))
    unfold parseQueryStr Lexer.new
    rw [hsel]
    simp only [Option.map_some', Option.bind_eq_bind, Option.some_bind]
    unfold parse_query Lexer.eat_exact
    rw [if_pos rfl]
    unfold Lexer.advance
    dsimp only
    rw [read_token_space, hreadF]
    simp only [Option.map_some', Option.bind_eq_bind, Option.some_bind]
    rw [parse_id_list_print fields _ (.keyword "from".toList) _ hfne hfok hfrom
      (by simp) rfl ⟨tokF, restF⟩ hreadF]
    simp only [Option.bind_eq_bind, Option.some_bind]
    rw [if_pos trivial, read_token_space, hreadT]
    simp only [Option.map_some', Option.bind_eq_bind, Option.some_bind]
    rw [parse_id_list_print tables _ (.keyword "where".toList) _ htne htok hwhere
      (by simp) rfl ⟨tokT, restT⟩ hreadT]
    simp only [Option.bind_eq_bind, Option.some_bind]
    rw [if_pos (by simp [Lexer.is_matched]), if_pos trivial]
    rw [read_token_space, show read_token (joinAnd (Term.equal et :: us))
        = some (tokP, restP) from by rw [← List.append_nil (joinAnd _)]; exact hreadP]
    simp only [Option.map_some', Option.bind_eq_bind, Option.some_bind]
    rw [parse_predicate_print (Term.equal et :: us) [] .endTok [] (by simp)
      htermok rfl (by simp) rfl ⟨tokP, restP⟩ hreadP]
    simp only [Option.bind_eq_bind, Option.some_bind]

/-- C9: for every `QueryData` that `ParserImpl::parse_query` produces from
some input string, re-parsing the string printed by its `Display`
implementation yields the same `QueryData` (same field list, same table
list, same predicate — hence one that prints identically): parse after
print is the identity on parser-produced `QueryData`.  The keyword set of
the parser is modelled from the spec (§4.9), as `src/parse/constant.rs` is
not among the sources. -/
theorem C9_parser_roundtrip (input : List Char) (q : QueryData)
    (h : parseQueryStr input = some q) :
    parseQueryStr q.display = some q :=
  parse_print q (parse_sound input q h)

/-- Witness for C9: parsing `select a from t where b = 1`, printing the
resulting `QueryData` and re-parsing it yields the same value. -/
theorem C9_witness :
    parseQueryStr ("select a from t where b = 1".toList)
      = some ⟨[['a']], [['t']],
          ⟨[.equal ⟨.field ['b'], .constant (.int 1)⟩]⟩⟩
    ∧ parseQueryStr
        (QueryData.display ⟨[['a']], [['t']],
          ⟨[.equal ⟨.field ['b'], .constant (.int 1)⟩]⟩⟩)
      = some ⟨[['a']], [['t']],
          ⟨[.equal ⟨.field ['b'], .constant (.int 1)⟩]⟩⟩ :=
  ⟨by decide,
   C9_parser_roundtrip ("select a from t where b = 1".toList)
     ⟨[['a']], [['t']], ⟨[.equal ⟨.field ['b'], .constant (.int 1)⟩]⟩⟩
     (by decide)⟩

end SimpleDB
